import Mathlib

/-!
Package webpipe: event messaging over a web socket.

A shallow embedding of `src/webpipe.go` and the properties of its protocol
engine: the envelope decoder (`newMessage`), reply correlation (`Reply`), the
subscription registry (`On`, `Off`, `dispatchMessage`), `Emit`, the read loop
(`messageLoop`), the handshake (`shakeHands`) and the constructor (`New`).

Modelling conventions

* Go pointers are indices into a heap: a `*WebPipe` is a `PipeRef` into
  `World.pipes`, a `chan Message` is a `ChanRef` into `World.chans`.
* A Go `map[string]T` is an association list (`GoMap T`). Go keeps keys
  unique; `WebPipe.WF` states that as an invariant. The order in which
  `range` goes through a map is a parameter (`RangeOrder`): any permutation
  of the entries.
* Sessions are those `New` makes: the registry map and the connection are not
  nil. A pointer that names no session is the nil pointer.
* A run-time panic is the `.error` case of `Except GoPanic`.
* A parameter `args ...interface{}` is a slice (`GoSlice`): the nil slice when
  the call gives no argument (`variadic`). A document handed to `WriteJSON` is
  recorded as the JSON value the encoder puts on the wire, where a nil slice
  is `null` and every other slice an array (`GoSlice.toJSON`).
* The web socket is an external collaborator: `Conn` records the frames
  handed to its write calls, counts `Close` calls, and takes the outcome of
  each write from a script; the results of the read calls are an input list.
* A channel send that cannot proceed (buffer full) is an explicit `blocked`
  outcome: the sender is suspended until a receiver frees the slot.
* The subscribers are the environment: `chanRecv` is a receive of theirs, and
  `runSession` runs the loop together with a schedule of their receives, made
  whenever the loop is suspended in a send. A receive that in real time comes
  earlier has the same effect as one made at the suspension.
* Time in the handshake is counted in milliseconds from the start of the wait;
  only the order of a read and the timeout matters.
* `log.Print*` calls have no effect on the modelled state and are left out.
* JSON numbers are opaque payload; they are carried as integers.
-/

namespace Webpipe

/-! ## Values -/

/-- Go values of static type `interface{}` as they appear in envelopes. -/
inductive JSONValue where
  | null
  | bool (b : Bool)
  | number (n : Int)
  | string (s : String)
  | array (xs : List JSONValue)
  | object (kvs : List (String × JSONValue))

mutual
/-- Decidable equality of envelope values. -/
def JSONValue.decEq : (a b : JSONValue) → Decidable (a = b)
  | .null, .null => isTrue rfl
  | .bool a, .bool b =>
    if h : a = b then isTrue (by rw [h]) else isFalse (by intro e; cases e; exact h rfl)
  | .number a, .number b =>
    if h : a = b then isTrue (by rw [h]) else isFalse (by intro e; cases e; exact h rfl)
  | .string a, .string b =>
    if h : a = b then isTrue (by rw [h]) else isFalse (by intro e; cases e; exact h rfl)
  | .array a, .array b =>
    match JSONValue.decEqList a b with
    | isTrue h => isTrue (by rw [h])
    | isFalse h => isFalse (by intro e; cases e; exact h rfl)
  | .object a, .object b =>
    match JSONValue.decEqFields a b with
    | isTrue h => isTrue (by rw [h])
    | isFalse h => isFalse (by intro e; cases e; exact h rfl)
  | .null, .bool _ | .null, .number _ | .null, .string _ | .null, .array _ | .null, .object _
  | .bool _, .null | .bool _, .number _ | .bool _, .string _ | .bool _, .array _
  | .bool _, .object _
  | .number _, .null | .number _, .bool _ | .number _, .string _ | .number _, .array _
  | .number _, .object _
  | .string _, .null | .string _, .bool _ | .string _, .number _ | .string _, .array _
  | .string _, .object _
  | .array _, .null | .array _, .bool _ | .array _, .number _ | .array _, .string _
  | .array _, .object _
  | .object _, .null | .object _, .bool _ | .object _, .number _ | .object _, .string _
  | .object _, .array _ =>
    isFalse (by intro e; cases e)
/-- Decidable equality of value sequences. -/
def JSONValue.decEqList : (a b : List JSONValue) → Decidable (a = b)
  | [], [] => isTrue rfl
  | [], _ :: _ => isFalse (by intro e; cases e)
  | _ :: _, [] => isFalse (by intro e; cases e)
  | x :: xs, y :: ys =>
    match JSONValue.decEq x y, JSONValue.decEqList xs ys with
    | isTrue h, isTrue hs => isTrue (by rw [h, hs])
    | isFalse h, _ => isFalse (by intro e; cases e; exact h rfl)
    | _, isFalse h => isFalse (by intro e; cases e; exact h rfl)
/-- Decidable equality of key/value sequences. -/
def JSONValue.decEqFields : (a b : List (String × JSONValue)) → Decidable (a = b)
  | [], [] => isTrue rfl
  | [], _ :: _ => isFalse (by intro e; cases e)
  | _ :: _, [] => isFalse (by intro e; cases e)
  | (k, x) :: xs, (l, y) :: ys =>
    if hk : k = l then
      match JSONValue.decEq x y, JSONValue.decEqFields xs ys with
      | isTrue h, isTrue hs => isTrue (by rw [hk, h, hs])
      | isFalse h, _ => isFalse (by intro e; cases e; exact h rfl)
      | _, isFalse h => isFalse (by intro e; cases e; exact h rfl)
    else isFalse (by intro e; cases e; exact hk rfl)
end

instance : DecidableEq JSONValue := JSONValue.decEq

/-! ## Go maps -/

/-- Go `map[string]α` as an association list. -/
abbrev GoMap (α : Type) := List (String × α)

/-- Go `m[k]` in its comma-ok reading: `none` when the key is absent. -/
def GoMap.index {α : Type} : GoMap α → String → Option α
  | [], _ => none
  | (k1, v) :: rest, k => if k1 = k then some v else GoMap.index rest k

/-- Go `m[k] = v`: overwrite the entry of `k`, or add one. -/
def GoMap.assign {α : Type} : GoMap α → String → α → GoMap α
  | [], k, v => [(k, v)]
  | (k1, v1) :: rest, k, v =>
    if k1 = k then (k, v) :: rest else (k1, v1) :: GoMap.assign rest k v

/-- Go `delete(m, k)`; on a map without `k` (a nil map included) nothing happens. -/
def GoMap.delete {α : Type} : GoMap α → String → GoMap α
  | [], _ => []
  | (k1, v) :: rest, k =>
    if k1 = k then GoMap.delete rest k else (k1, v) :: GoMap.delete rest k

/-- Keys of a map, in iteration order. -/
def GoMap.keys {α : Type} (m : GoMap α) : List String := m.map Prod.fst

/-- Values of a map, in iteration order. -/
def GoMap.values {α : Type} (m : GoMap α) : List α := m.map Prod.snd

/-- Go `type JSONObject map[string]interface{}`. -/
abbrev JSONObject := GoMap JSONValue

/-! ## Slices -/

/-- A Go slice of type `[]interface{}`, the type of a parameter
`args ...interface{}`: the nil slice, or a slice with the listed elements
(an empty slice that is not nil has no elements). -/
inductive GoSlice where
  | nil
  | elems (xs : List JSONValue)
  deriving DecidableEq

/-- The slice a call `f(x1, ..., xn)` passes for the parameter
`args ...interface{}`: the arguments in order, and the nil slice when the call
gives no argument. -/
def variadic : List JSONValue → GoSlice
  | [] => .nil
  | x :: xs => .elems (x :: xs)

/-- A slice as `encoding/json` writes it, which `WriteJSON` uses: `null` for the
nil slice, an array of the elements for every other slice. -/
def GoSlice.toJSON : GoSlice → JSONValue
  | .nil => .null
  | .elems xs => .array xs

/-! ## Errors and panics -/

/-- Go `error` values: those this package makes with `errors.New`, and those the
web socket library returns. -/
inductive GoError where
  | errorsNew (text : String)
  | transport (text : String)
  deriving DecidableEq

/-- Run-time panics the package can raise. -/
inductive GoPanic where
  | interfaceConversion (key : String)
  | nilDereference
  deriving DecidableEq

/-- The error `Reply` makes for a message that expects no reply. -/
def noReplyExpected : GoError := .errorsNew "message is not expecting a reply"

/-- Go `len(s)` of a string: its length in bytes. -/
def goLen (s : String) : Nat := s.utf8ByteSize

/-- Single-value type assertion `v.(string)` on the result of a map index. -/
def assertString (key : String) : Option JSONValue → Except GoPanic String
  | some (.string s) => .ok s
  | _ => .error (.interfaceConversion key)

/-- Single-value type assertion `v.([]interface{})` on the result of a map index. -/
def assertSlice (key : String) : Option JSONValue → Except GoPanic (List JSONValue)
  | some (.array xs) => .ok xs
  | _ => .error (.interfaceConversion key)

instance {ε α : Type} [DecidableEq ε] [DecidableEq α] : DecidableEq (Except ε α)
  | .ok a, .ok b =>
    if h : a = b then isTrue (by rw [h]) else isFalse (by intro e; cases e; exact h rfl)
  | .error a, .error b =>
    if h : a = b then isTrue (by rw [h]) else isFalse (by intro e; cases e; exact h rfl)
  | .ok _, .error _ => isFalse (by intro e; cases e)
  | .error _, .ok _ => isFalse (by intro e; cases e)

/-! ## The heap: sessions, channels, connections -/

/-- A `*WebPipe`. -/
abbrev PipeRef := Nat

/-- A `chan Message`. -/
abbrev ChanRef := Nat

/-- Go `type Message struct`. -/
structure Message where
  pipe : PipeRef
  Name : String
  Args : List JSONValue
  originalMessage : JSONObject
  requestId : String
  deriving DecidableEq

/-- A buffered channel of messages: its capacity and the messages not yet received. -/
structure Chan where
  cap : Nat
  buf : List Message
  deriving DecidableEq

/-- A frame handed to one of the connection's write calls. -/
inductive Frame where
  | message (messageType : Nat) (data : List UInt8)
  | json (v : JSONValue)
  deriving DecidableEq

/-- The `*websocket.Conn` of a session, seen from this package. -/
structure Conn where
  written : List Frame
  writeErrs : List (Option String)
  closed : Nat
  deriving DecidableEq

/-- One write call: the frame is recorded and the outcome is the next one of the
script (success once the script is used up). -/
def Conn.write (c : Conn) (f : Frame) : Conn × Option GoError :=
  ({ c with written := c.written ++ [f], writeErrs := c.writeErrs.tail },
    match c.writeErrs with
    | some e :: _ => some (.transport e)
    | _ => none)

/-- Go `conn.WriteJSON(v)`. -/
def Conn.WriteJSON (c : Conn) (v : JSONValue) : Conn × Option GoError :=
  c.write (.json v)

/-- Go `conn.Close()`. -/
def Conn.Close (c : Conn) : Conn := { c with closed := c.closed + 1 }

/-- Go `type WebPipe struct`. -/
structure WebPipe where
  pipe : Conn
  subscribers : GoMap (GoMap ChanRef)
  deriving DecidableEq

/-- The part of the Go heap the package works on. -/
structure World where
  pipes : List WebPipe
  chans : List Chan
  deriving DecidableEq

/-- Go `make(chan Message, cap)`: a fresh, empty channel. -/
def World.makeChan (w : World) (cap : Nat) : World × ChanRef :=
  ({ w with chans := w.chans ++ [{ cap := cap, buf := [] }] }, w.chans.length)

/-- Store a session back at its address. -/
def World.setPipe (w : World) (p : PipeRef) (P : WebPipe) : World :=
  { w with pipes := w.pipes.set p P }

/-! ## The package's functions -/

/-- Go `func (p *WebPipe) newMessage(msg JSONObject) *Message`. -/
def WebPipe.newMessage (p : PipeRef) (msg : JSONObject) : Except GoPanic Message :=
  match assertString "n" (GoMap.index msg "n") with
  | .error e => .error e
  | .ok name =>
    match assertSlice "args" (GoMap.index msg "args") with
    | .error e => .error e
    | .ok args =>
      match assertString "requestId" (GoMap.index msg "requestId") with
      | .error e => .error e
      | .ok requestId =>
        .ok { pipe := p, Name := name, Args := args, originalMessage := msg,
              requestId := requestId }

/-- The document `Reply` builds, as `WriteJSON` encodes it. -/
def replyDoc (m : Message) (args : GoSlice) : JSONObject :=
  [("replyTo", .string m.requestId),
   ("n", .string ("__webpipe_reply:" ++ m.Name)),
   ("args", args.toJSON)]

/-- Go `func (m Message) Reply(args... interface{}) error`. -/
def Message.Reply (m : Message) (args : GoSlice) (w : World) :
    Except GoPanic (Option GoError × World) :=
  if goLen m.requestId = 0 then
    .ok (some noReplyExpected, w)
  else
    match w.pipes[m.pipe]? with
    | none => .error .nilDereference
    | some P =>
      let r := P.pipe.WriteJSON (.object (replyDoc m args))
      .ok (r.2, w.setPipe m.pipe { P with pipe := r.1 })

/-- Go `func (p *WebPipe) On(event string, subscriberName string) chan Message`. -/
def WebPipe.On (p : PipeRef) (event subscriberName : String) (w : World) :
    Except GoPanic (ChanRef × World) :=
  let mk := w.makeChan 1
  let ch := mk.2
  match mk.1.pipes[p]? with
  | none => .error .nilDereference
  | some P =>
    let subs1 :=
      match GoMap.index P.subscribers event with
      | some _ => P.subscribers
      | none => GoMap.assign P.subscribers event []
    let inner := (GoMap.index subs1 event).getD []
    let subs2 := GoMap.assign subs1 event (GoMap.assign inner subscriberName ch)
    .ok (ch, mk.1.setPipe p { P with subscribers := subs2 })

/-- Go `func (p *WebPipe) Off(event string, subscriberName string)`. -/
def WebPipe.Off (p : PipeRef) (event subscriberName : String) (w : World) :
    Except GoPanic World :=
  match w.pipes[p]? with
  | none => .error .nilDereference
  | some P =>
    match GoMap.index P.subscribers event with
    | none => .ok w
    | some inner =>
      let subs1 := GoMap.assign P.subscribers event (GoMap.delete inner subscriberName)
      .ok (w.setPipe p { P with subscribers := subs1 })

/-- The document `Emit` builds, as `WriteJSON` encodes it. -/
def emitDoc (event : String) (args : GoSlice) : JSONObject :=
  [("n", .string event), ("args", args.toJSON)]

/-- Go `func (p *WebPipe) Emit(event string, args ...interface{})`. -/
def WebPipe.Emit (p : PipeRef) (event : String) (args : GoSlice) (w : World) :
    Except GoPanic World :=
  match w.pipes[p]? with
  | none => .error .nilDereference
  | some P =>
    let r := P.pipe.WriteJSON (.object (emitDoc event args))
    .ok (w.setPipe p { P with pipe := r.1 })

/-- Go `ch <- v`: possible only while the buffer has a free slot; `none` means the
sender is suspended. A send on a channel that was never made blocks for ever. -/
def chanSend (chans : List Chan) (ch : ChanRef) (v : Message) : Option (List Chan) :=
  match chans[ch]? with
  | none => none
  | some c =>
    if c.buf.length < c.cap then some (chans.set ch { c with buf := c.buf ++ [v] })
    else none

/-- How a call of `dispatchMessage` stands: returned, suspended in a send (the
channels still to be served, the blocking one first), or panicked. -/
inductive Dispatch where
  | done (w : World)
  | blocked (w : World) (pending : List ChanRef)
  | panic (e : GoPanic)
  deriving DecidableEq

/-- The body of `for _, ch := range subs { ch <- *msg }`. -/
def sendAll (msg : Message) : List ChanRef → World → Dispatch
  | [], w => .done w
  | ch :: rest, w =>
    match chanSend w.chans ch msg with
    | some chans => sendAll msg rest { w with chans := chans }
    | none => .blocked w (ch :: rest)

/-- The channels registered in a session for an event, in iteration order
(`p.subscribers[event]`, a nil map when the event is unknown). -/
def WebPipe.subs (P : WebPipe) (event : String) : GoMap ChanRef :=
  (GoMap.index P.subscribers event).getD []

/-- The order in which `for ... range` over a map of channels yields its
values. Go leaves the order open: it is any order that yields each entry once. -/
structure RangeOrder where
  order : GoMap ChanRef → List ChanRef
  perm : ∀ m, (order m).Perm (GoMap.values m)

/-- Iteration in the order of the association list. -/
def RangeOrder.listed : RangeOrder := ⟨GoMap.values, fun _ => List.Perm.refl _⟩

/-- Iteration in the reverse order of the association list. -/
def RangeOrder.reversed : RangeOrder :=
  ⟨fun m => (GoMap.values m).reverse, fun _ => List.reverse_perm _⟩

/-- The channel registered for a pair (event, subscriber), if any:
`p.subscribers[event][subscriberName]` in its comma-ok reading. -/
def WebPipe.chanOf (P : WebPipe) (event subscriberName : String) : Option ChanRef :=
  GoMap.index (P.subs event) subscriberName

/-- Go `func (p *WebPipe) dispatchMessage(msg *Message)`, with `range` going through
the subscribers of the event in the order `rt`. -/
def WebPipe.dispatchMessage (rt : RangeOrder) (p : PipeRef) (msg : Message) (w : World) :
    Dispatch :=
  match w.pipes[p]? with
  | none => .panic .nilDereference
  | some P => sendAll msg (rt.order (P.subs msg.Name)) w

/-- What one `ReadJSON` call returns: an error (transport failure, peer close,
text that is not JSON) or the decoded value. -/
inductive ReadResult where
  | err (e : String)
  | json (v : JSONValue)
  deriving DecidableEq

/-- How a run of `messageLoop` stands once the given reads are used:
`closed`: left through `break`, the deferred `Close` has run;
`panicked`: a panic left the loop, the deferred `Close` has run, the panic goes on
to crash the process; `blockedSend`: suspended in a channel send;
`blockedRead`: suspended in `ReadJSON`, all given reads used.
`unread` are the read results not yet asked for. -/
inductive LoopExit where
  | closed (w : World) (unread : List ReadResult)
  | panicked (e : GoPanic) (w : World) (unread : List ReadResult)
  | blockedSend (w : World) (msg : Message) (pending : List ChanRef)
      (unread : List ReadResult)
  | blockedRead (w : World)
  deriving DecidableEq

/-- The deferred `p.pipe.Close()`. -/
def closePipe (p : PipeRef) (w : World) : World :=
  match w.pipes[p]? with
  | none => w
  | some P => w.setPipe p { P with pipe := P.pipe.Close }

/-- The `for` loop of `messageLoop`, the deferred `Close` included. -/
def messageLoop.loop (rt : RangeOrder) (p : PipeRef) : List ReadResult → World → LoopExit
  | [], w => .blockedRead w
  | .err _ :: rest, w => .closed (closePipe p w) rest
  | .json message :: rest, w =>
    match message with
    | .object json =>
      match WebPipe.newMessage p json with
      | .error e => .panicked e (closePipe p w) rest
      | .ok msg =>
        match WebPipe.dispatchMessage rt p msg w with
        | .done w1 => messageLoop.loop rt p rest w1
        | .blocked w1 pending => .blockedSend w1 msg pending rest
        | .panic e => .panicked e (closePipe p w) rest
    | _ => .closed (closePipe p w) rest

/-- Go `func messageLoop(p *WebPipe)`, run on the given results of its reads. -/
def messageLoop (rt : RangeOrder) (p : PipeRef) (reads : List ReadResult) (w : World) : LoopExit :=
  match w.pipes[p]? with
  | none => .panicked .nilDereference w reads
  | some _ => messageLoop.loop rt p reads w

/-! ## Registry invariant -/

/-- The session as `On` leaves it: the channel is stored under the pair. -/
def WebPipe.afterOn (P : WebPipe) (event subscriberName : String) (ch : ChanRef) : WebPipe :=
  { P with subscribers :=
      GoMap.assign P.subscribers event (GoMap.assign (P.subs event) subscriberName ch) }

/-- The session as `Off` leaves it when the event has a subscriber map. -/
def WebPipe.afterOff (P : WebPipe) (event subscriberName : String) : WebPipe :=
  { P with subscribers :=
      GoMap.assign P.subscribers event (GoMap.delete (P.subs event) subscriberName) }


/-- All channels registered in a session. -/
def WebPipe.chanRefs (P : WebPipe) : List ChanRef :=
  (P.subscribers.map (fun kv => GoMap.values kv.2)).flatten

/-- What Go maps and `On` guarantee of a registry living in a heap with `n`
channels: keys are unique on both levels, and the registered channels are
pairwise different and exist. -/
def WebPipe.WF (P : WebPipe) (n : Nat) : Prop :=
  (GoMap.keys P.subscribers).Nodup ∧
  (∀ kv ∈ P.subscribers, (GoMap.keys kv.2).Nodup) ∧
  P.chanRefs.Nodup ∧
  (∀ c ∈ P.chanRefs, c < n)

instance (P : WebPipe) (n : Nat) : Decidable (P.WF n) := by
  unfold WebPipe.WF; infer_instance

/-- The buffer of a channel (empty for a reference that names no channel). -/
def World.buf (w : World) (ch : ChanRef) : List Message :=
  match w.chans[ch]? with
  | none => []
  | some c => c.buf

/-- A send on the channel can proceed at once. -/
def World.hasRoom (w : World) (ch : ChanRef) : Prop :=
  match w.chans[ch]? with
  | none => False
  | some c => c.buf.length < c.cap

instance (w : World) (ch : ChanRef) : Decidable (w.hasRoom ch) := by
  unfold World.hasRoom; split <;> infer_instance

/-- The heap `w1` is `w` after `msg` was put into the buffer of each channel of
`served`, and nothing else happened. -/
def Delivered (msg : Message) (served : List ChanRef) (w w1 : World) : Prop :=
  w1.pipes = w.pipes ∧ w1.chans.length = w.chans.length ∧
  ∀ c, w1.chans[c]? =
    if c ∈ served then (w.chans[c]?).map (fun ch => { ch with buf := ch.buf ++ [msg] })
    else w.chans[c]?

/-- The heap a call of `dispatchMessage` has made so far, when it has not panicked. -/
def Dispatch.world? : Dispatch → Option World
  | .done w => some w
  | .blocked w _ => some w
  | .panic _ => none

/-- A call on the registry of a session: `On(e, s)` or `Off(e, s)`. -/
inductive RegOp where
  | callOn (event subscriberName : String)
  | callOff (event subscriberName : String)
  deriving DecidableEq

/-- The pair (event, subscriber) a registry call is about. -/
def RegOp.pair : RegOp → String × String
  | .callOn e s => (e, s)
  | .callOff e s => (e, s)

/-- Make one registry call on session `p`, dropping the channel `On` returns. -/
def RegOp.run (p : PipeRef) : RegOp → World → Except GoPanic World
  | .callOn e s, w =>
    match WebPipe.On p e s w with
    | .ok r => .ok r.2
    | .error x => .error x
  | .callOff e s, w => WebPipe.Off p e s w

/-- Make registry calls on session `p` one after the other. -/
def runOps (p : PipeRef) : List RegOp → World → Except GoPanic World
  | [], w => .ok w
  | op :: rest, w =>
    match op.run p w with
    | .ok w1 => runOps p rest w1
    | .error x => .error x

/-- Calls `Off(event, s)` for each of the given subscriber names in turn. -/
def offAll (p : PipeRef) (event : String) (names : List String) (w : World) :
    Except GoPanic World :=
  runOps p (names.map (fun s => RegOp.callOff event s)) w

/-! ## Handshake and construction -/

/-- Go `websocket.TextMessage`. -/
def TextMessage : Nat := 1

/-- Go `websocket.BinaryMessage`. -/
def BinaryMessage : Nat := 2

/-- Go `const HANDSHAKE_TIMEOUT = 2000 * time.Millisecond`, counted in milliseconds. -/
def HANDSHAKE_TIMEOUT : Nat := 2000

/-- Go `[]byte(s)` for a string of ASCII characters. -/
def asciiBytes (s : String) : List UInt8 := s.toList.map (fun c => c.toNat.toUInt8)

/-- Go `var handshakeKey = []byte("WEBPIPE1")`. -/
def handshakeKey : List UInt8 := asciiBytes "WEBPIPE1"

/-- Go `bytes.Compare(a, b)`: -1, 0 or 1 as `a` is before, equal to or after `b` in
lexicographic order. -/
def bytesCompare : List UInt8 → List UInt8 → Int
  | [], [] => 0
  | [], _ :: _ => -1
  | _ :: _, [] => 1
  | x :: xs, y :: ys =>
    if x.toNat < y.toNat then -1 else if y.toNat < x.toNat then 1 else bytesCompare xs ys

/-- Go `conn.WriteMessage(messageType, data)`. -/
def Conn.WriteMessage (c : Conn) (messageType : Nat) (data : List UInt8) :
    Conn × Option GoError :=
  c.write (.message messageType data)

/-- What a `ReadMessage` call returns (`messageType`, `p`, `err`) and the time at
which it returns, in milliseconds after `shakeHands` began to wait. -/
structure PeerRead where
  arrival : Nat
  messageType : Nat
  data : List UInt8
  err : Option String
  deriving DecidableEq

/-- The test of the waiting goroutine:
`err == nil && mtype == websocket.TextMessage && bytes.Compare(handShake, handshakeKey) == 0`. -/
def PeerRead.shaken (r : PeerRead) : Bool :=
  r.err.isNone && (r.messageType == TextMessage && bytesCompare r.data handshakeKey == 0)

/-- The time at which the goroutine of `shakeHands` puts `true` into
`handsShaken`, if it ever does. The goroutine calls `ReadMessage` once: `reads`
are the results the connection would give to successive calls, and only the
first is asked for; with no result the call never returns. -/
def handsShakenAt (reads : List PeerRead) : Option Nat :=
  match reads with
  | [] => none
  | r :: _ => if r.shaken then some r.arrival else none

/-- What `shakeHands` returns, and how long its `select` waited. -/
structure Handshake where
  ok : Bool
  waited : Nat
  deriving DecidableEq

/-- Go `func shakeHands(p *WebPipe) bool`. The `select` takes the case that is ready
first; `tieToTimer` says which one it picks when both get ready at the same
moment. -/
def shakeHands (p : PipeRef) (tieToTimer : Bool) (reads : List PeerRead) (w : World) :
    Except GoPanic (Handshake × World) :=
  match w.pipes[p]? with
  | none => .error .nilDereference
  | some P =>
    let c1 := (P.pipe.WriteMessage TextMessage handshakeKey).1
    let timedOut : Handshake × World :=
      (⟨false, HANDSHAKE_TIMEOUT⟩,
        w.setPipe p { P with pipe := (c1.WriteMessage TextMessage (asciiBytes "ERROR")).1 })
    match handsShakenAt reads with
    | none => .ok timedOut
    | some t =>
      if t < HANDSHAKE_TIMEOUT ∨ (t = HANDSHAKE_TIMEOUT ∧ tieToTimer = false) then
        .ok (⟨true, t⟩, w.setPipe p { P with pipe := c1 })
      else .ok timedOut

/-- Go `func New(w http.ResponseWriter, r *http.Request) (*WebPipe, error)`;
`upgrade` is what `upgrader.Upgrade(w, r, nil)` returns. The new session is
put at the next free address of the heap. -/
def New (upgrade : Except String Conn) (tieToTimer : Bool) (reads : List PeerRead)
    (w : World) : Except GoPanic ((Option PipeRef × Option GoError) × World) :=
  match upgrade with
  | .error _ => .ok ((none, some (.errorsNew "webpipe: Not a websocket connection")), w)
  | .ok conn =>
    let pipe := w.pipes.length
    let w1 : World := { w with pipes := w.pipes ++ [{ pipe := conn, subscribers := [] }] }
    match shakeHands pipe tieToTimer reads w1 with
    | .error e => .error e
    | .ok r =>
      if r.1.ok then .ok ((some pipe, none), r.2)
      else .ok ((none, some (.errorsNew "webpipe: handshake failed!")), closePipe pipe r.2)

/-! ## The read loop together with its subscribers -/

/-- Go `<-ch` by a subscriber: the oldest message leaves the buffer; `none` means
the receiver is suspended (nothing to receive). -/
def chanRecv (chans : List Chan) (ch : ChanRef) : Option (Message × List Chan) :=
  match chans[ch]? with
  | none => none
  | some c =>
    match c.buf with
    | [] => none
    | m :: rest => some (m, chans.set ch { c with buf := rest })

/-- A run of `messageLoop` that was suspended in the send of `msg` to the first
channel of `pending` goes on, in the heap as it is by then: the rest of the
`range` loop of `dispatchMessage`, then the `for` loop on the unread frames. -/
def messageLoop.resume (rt : RangeOrder) (p : PipeRef) (msg : Message)
    (pending : List ChanRef) (unread : List ReadResult) (w : World) : LoopExit :=
  match sendAll msg pending w with
  | .done w1 => messageLoop.loop rt p unread w1
  | .blocked w1 pending1 => .blockedSend w1 msg pending1 unread
  | .panic e => .panicked e (closePipe p w) unread

/-- The heap of a state of the loop. -/
def LoopExit.world : LoopExit → World
  | .closed w _ => w
  | .panicked _ w _ => w
  | .blockedSend w _ _ _ => w
  | .blockedRead w => w

/-- The loop has not ended: it is suspended in a read or in a send. -/
def LoopExit.running : LoopExit → Bool
  | .closed _ _ => false
  | .panicked _ _ _ => false
  | .blockedSend _ _ _ _ => true
  | .blockedRead _ => true

/-- What the subscribers have received: channel and message, in the order of
the receives. -/
abbrev Inbox := List (ChanRef × Message)

/-- Subscribers receive from the given channels, one after the other; a receive
on a channel with nothing in it does not take place. -/
def recvAll : List ChanRef → World × Inbox → World × Inbox
  | [], s => s
  | ch :: rest, s =>
    match chanRecv s.1.chans ch with
    | none => recvAll rest s
    | some r => recvAll rest ({ s.1 with chans := r.2 }, s.2 ++ [(ch, r.1)])

/-- The read loop of a session run together with its subscribers: each time
the loop is suspended in a send, the subscribers make the receives of the next
entry of `sched` and the loop goes on from there. -/
def runSession (rt : RangeOrder) (p : PipeRef) :
    List (List ChanRef) → LoopExit → Inbox → LoopExit × Inbox
  | [], out, inbox => (out, inbox)
  | batch :: sched, .blockedSend w msg pending unread, inbox =>
    runSession rt p sched
      (messageLoop.resume rt p msg pending unread (recvAll batch (w, inbox)).1)
      (recvAll batch (w, inbox)).2
  | _ :: _, out, inbox => (out, inbox)

/-- The messages among the events that concern channel `c`, in order. -/
def deliveredTo (c : ChanRef) (evs : List (ChanRef × Message)) : List Message :=
  (evs.filter (fun x => decide (x.1 = c))).map Prod.snd

/-- All messages ever sent into channel `c`: those received from it, then those
still in its buffer. -/
def history (w : World) (inbox : Inbox) (c : ChanRef) : List Message :=
  deliveredTo c inbox ++ w.buf c

/-- The frame decodes: `ReadJSON` gave a JSON object from which `newMessage`
makes a message. -/
def ReadResult.decodes (p : PipeRef) : ReadResult → Bool
  | .json (.object d) =>
    match WebPipe.newMessage p d with
    | .ok _ => true
    | .error _ => false
  | _ => false

/-- The read makes the loop `break`: a read error or a JSON value that is not an
object. -/
def ReadResult.breaks : ReadResult → Bool
  | .err _ => true
  | .json (.object _) => false
  | .json _ => true

/-- The messages of the frames that decode, in wire order. -/
def decodeAll (p : PipeRef) : List ReadResult → List Message
  | [] => []
  | .json (.object d) :: rest =>
    match WebPipe.newMessage p d with
    | .ok m => m :: decodeAll p rest
    | .error _ => decodeAll p rest
  | _ :: rest => decodeAll p rest

/-- The sends of one call of `dispatchMessage`: one per channel registered under
the name of the message, in the order of `range`. -/
def sendsOfMsg (rt : RangeOrder) (P : WebPipe) (m : Message) : List (ChanRef × Message) :=
  (rt.order (P.subs m.Name)).map (fun c => (c, m))

/-- The sends for a sequence of messages: message after message. -/
def sendsOf (rt : RangeOrder) (P : WebPipe) : List Message → List (ChanRef × Message)
  | [] => []
  | m :: rest => sendsOfMsg rt P m ++ sendsOf rt P rest

/-- The heap `w1` is `w` after the sends `evs` were made in order, and nothing
else happened. -/
def Performed (evs : List (ChanRef × Message)) (w w1 : World) : Prop :=
  w1.pipes = w.pipes ∧ w1.chans.length = w.chans.length ∧
  ∀ c, w1.buf c = w.buf c ++ deliveredTo c evs

/-- Where the loop stands when fed `reads`, and the sends `perf` it has made:
suspended in a read after all frames; suspended in a send of the message of one
frame, the frames before it fully dispatched; or ended at the first frame that
does not decode. -/
def Stands (rt : RangeOrder) (p : PipeRef) (P : WebPipe) (reads : List ReadResult)
    (perf : List (ChanRef × Message)) : LoopExit → Prop
  | .blockedRead _ =>
    (∀ r ∈ reads, r.decodes p = true) ∧ perf = sendsOf rt P (decodeAll p reads)
  | .blockedSend _ msg pending unread =>
    ∃ good d served, reads = good ++ .json (.object d) :: unread ∧
      (∀ r ∈ good, r.decodes p = true) ∧ WebPipe.newMessage p d = .ok msg ∧
      rt.order (P.subs msg.Name) = served ++ pending ∧ pending ≠ [] ∧
      perf = sendsOf rt P (decodeAll p good) ++ served.map (fun c => (c, msg))
  | .closed _ unread =>
    ∃ good bad, reads = good ++ bad :: unread ∧
      (∀ r ∈ good, r.decodes p = true) ∧ bad.breaks = true ∧
      perf = sendsOf rt P (decodeAll p good)
  | .panicked e _ unread =>
    ∃ good d, reads = good ++ .json (.object d) :: unread ∧
      (∀ r ∈ good, r.decodes p = true) ∧ WebPipe.newMessage p d = .error e ∧
      perf = sendsOf rt P (decodeAll p good)

/-- The state `out` of the loop was reached from heap `w` by the sends `perf`:
while the loop runs nothing else has happened; when it has ended, the deferred
`Close` has run on top of that. -/
def Reached (p : PipeRef) (w : World) (perf : List (ChanRef × Message)) (out : LoopExit) :
    Prop :=
  if out.running then Performed perf w out.world
  else ∃ w1, Performed perf w w1 ∧ out.world = closePipe p w1

/-- The histories of the channels of a session whose loop, started in heap `w0`,
is in state `out` after the sends `perf`, the subscribers having received
`inbox`: no message is lost or made up. `w1` is the heap before the deferred
`Close`, when the loop has ended. -/
def SessionInv (p : PipeRef) (w0 : World) (perf : List (ChanRef × Message))
    (out : LoopExit) (inbox : Inbox) : Prop :=
  ∃ w1, (if out.running then out.world = w1 else out.world = closePipe p w1) ∧
    w1.pipes = w0.pipes ∧ w1.chans.length = w0.chans.length ∧
    ∀ c, history w1 inbox c = w0.buf c ++ deliveredTo c perf

/-! ## Reachable heaps -/

/-- Every channel of the heap has capacity 1 and at most one message waiting. -/
def World.slotsOK (w : World) : Prop :=
  ∀ c ∈ w.chans, c.cap = 1 ∧ c.buf.length ≤ 1

/-- The heaps a program gets to that starts without channels, calls the
functions of the package, and receives from the channels `On` gave it. -/
inductive Reachable : World → Prop where
  | start (w : World) (h : w.chans = []) : Reachable w
  | callNew {w w1 : World} {upgrade : Except String Conn} {tie : Bool}
      {reads : List PeerRead} {r : Option PipeRef × Option GoError} :
      Reachable w → New upgrade tie reads w = .ok (r, w1) → Reachable w1
  | callOn {w w1 : World} {p : PipeRef} {e s : String} {ch : ChanRef} :
      Reachable w → WebPipe.On p e s w = .ok (ch, w1) → Reachable w1
  | callOff {w w1 : World} {p : PipeRef} {e s : String} :
      Reachable w → WebPipe.Off p e s w = .ok w1 → Reachable w1
  | callEmit {w w1 : World} {p : PipeRef} {e : String} {xs : GoSlice} :
      Reachable w → WebPipe.Emit p e xs w = .ok w1 → Reachable w1
  | callReply {w w1 : World} {m : Message} {args : GoSlice} {r : Option GoError} :
      Reachable w → m.Reply args w = .ok (r, w1) → Reachable w1
  | dispatch {w w1 : World} {rt : RangeOrder} {p : PipeRef} {msg : Message} :
      Reachable w → (WebPipe.dispatchMessage rt p msg w).world? = some w1 → Reachable w1
  | loop {w : World} {rt : RangeOrder} {p : PipeRef} {reads : List ReadResult} :
      Reachable w → Reachable (messageLoop rt p reads w).world
  | resume {w : World} {rt : RangeOrder} {p : PipeRef} {msg : Message}
      {pending : List ChanRef} {unread : List ReadResult} :
      Reachable w → Reachable (messageLoop.resume rt p msg pending unread w).world
  | recv {w : World} {ch : ChanRef} {m : Message} {chans : List Chan} :
      Reachable w → chanRecv w.chans ch = some (m, chans) →
      Reachable { w with chans := chans }

/-! ## Sample states -/

/-- A connection on which nothing happened yet and every write succeeds. -/
def Conn.fresh : Conn := { written := [], writeErrs := [], closed := 0 }

/-- A heap holding one session as `New` makes it: no subscribers, no channels. -/
def World.single : World :=
  { pipes := [{ pipe := Conn.fresh, subscribers := [] }], chans := [] }

/-- A session with subscribers `a` and `b` on `chat` and `c` on `news`. -/
def WebPipe.chatRoom : WebPipe :=
  { pipe := Conn.fresh,
    subscribers := [("chat", [("a", 0), ("b", 1)]), ("news", [("c", 2)])] }

/-- A heap with the session `WebPipe.chatRoom` and its three empty channels. -/
def World.chatRoom : World :=
  { pipes := [WebPipe.chatRoom],
    chans := [{ cap := 1, buf := [] }, { cap := 1, buf := [] }, { cap := 1, buf := [] }] }

/-- The inbound document `{n: e, args: xs, requestId: r}`. -/
def requestDoc (e : String) (xs : List JSONValue) (r : String) : JSONObject :=
  [("n", .string e), ("args", .array xs), ("requestId", .string r)]

/-- The message session `p` decodes from `requestDoc e xs r`. -/
def requestMsg (p : PipeRef) (e : String) (xs : List JSONValue) (r : String) : Message :=
  { pipe := p, Name := e, Args := xs, originalMessage := requestDoc e xs r, requestId := r }

/-- A session in which `s1` subscribed to `ping`. -/
def WebPipe.pingRoom : WebPipe :=
  { pipe := Conn.fresh, subscribers := [("ping", [("s1", 0)])] }

/-- A heap with the session `WebPipe.pingRoom` and its channel: what
`On("ping", "s1")` makes of `World.single`. -/
def World.pingRoom : World :=
  { pipes := [WebPipe.pingRoom], chans := [{ cap := 1, buf := [] }] }

/-- The inbound frame of the ping scenario. -/
def ReadResult.ping : ReadResult :=
  .json (.object (requestDoc "ping" [.number 1, .number 2] "r1"))

/-- An inbound `chat` message of session 0 that asks for a reply. -/
def Message.chat : Message :=
  { pipe := 0, Name := "chat", Args := [.string "hi"],
    originalMessage :=
      [("n", .string "chat"), ("args", .array [.string "hi"]), ("requestId", .string "abc123")],
    requestId := "abc123" }


/-- A heap with one new session whose next write fails. -/
def World.failingWrite : World :=
  { pipes := [{ pipe := { written := [], writeErrs := [some "broken pipe"], closed := 0 },
                subscribers := [] }],
    chans := [] }


/-- The peer echoes the token as a text frame after 15 ms. -/
def PeerRead.echo : PeerRead :=
  { arrival := 15, messageType := TextMessage, data := handshakeKey, err := none }

/-- The peer sends a binary frame after 10 ms. -/
def PeerRead.junk : PeerRead :=
  { arrival := 10, messageType := BinaryMessage, data := [0, 1], err := none }

/-- A heap without sessions and channels. -/
def World.empty : World := { pipes := [], chans := [] }


/-- An inbound `ping` frame with the given request id. -/
def ReadResult.pingOf (r : String) : ReadResult :=
  .json (.object (requestDoc "ping" [] r))


/-- The ping room after one `ping` message was dispatched: the channel is full. -/
def World.pingRoomFull : World :=
  { pipes := [WebPipe.pingRoom],
    chans := [{ cap := 1, buf := [requestMsg 0 "ping" [] "r1"] }] }

end Webpipe

namespace Webpipe

/-! ## Strings -/

theorem goLen_eq_zero_iff (s : String) : goLen s = 0 ↔ s = "" := by
  unfold goLen
  cases s with
  | mk cs =>
    cases cs with
    | nil => exact ⟨fun _ => rfl, fun _ => rfl⟩
    | cons c cs =>
      constructor
      · intro h
        have hp := Char.utf8Size_pos c
        have hs : String.utf8ByteSize ⟨c :: cs⟩ = String.utf8ByteSize.go cs + c.utf8Size := rfl
        omega
      · intro h
        have hd := congrArg String.data h
        simp at hd

/-! ## Go maps -/

theorem GoMap.index_assign_self {α : Type} (m : GoMap α) (k : String) (v : α) :
    GoMap.index (GoMap.assign m k v) k = some v := by
  induction m with
  | nil => simp [GoMap.assign, GoMap.index]
  | cons kv rest ih =>
    obtain ⟨k1, v1⟩ := kv
    by_cases h : k1 = k
    · simp [GoMap.assign, GoMap.index, h]
    · simp [GoMap.assign, GoMap.index, h, ih]

theorem GoMap.index_assign_ne {α : Type} (m : GoMap α) (k k2 : String) (v : α) (hne : k2 ≠ k) :
    GoMap.index (GoMap.assign m k v) k2 = GoMap.index m k2 := by
  induction m with
  | nil => simp [GoMap.assign, GoMap.index, Ne.symm hne]
  | cons kv rest ih =>
    obtain ⟨k1, v1⟩ := kv
    by_cases h : k1 = k
    · subst h
      simp [GoMap.assign, GoMap.index, Ne.symm hne]
    · by_cases h2 : k1 = k2
      · subst h2
        simp [GoMap.assign, GoMap.index, h]
      · simp [GoMap.assign, GoMap.index, h, h2, ih]

theorem GoMap.assign_same {α : Type} (m : GoMap α) (k : String) (v : α)
    (h : GoMap.index m k = some v) : GoMap.assign m k v = m := by
  induction m with
  | nil => simp [GoMap.index] at h
  | cons kv rest ih =>
    obtain ⟨k1, v1⟩ := kv
    by_cases hk : k1 = k
    · subst hk
      simp [GoMap.index] at h
      simp [GoMap.assign, h]
    · simp [GoMap.index, hk] at h
      simp [GoMap.assign, hk, ih h]

theorem GoMap.index_delete_self {α : Type} (m : GoMap α) (k : String) :
    GoMap.index (GoMap.delete m k) k = none := by
  induction m with
  | nil => simp [GoMap.delete, GoMap.index]
  | cons kv rest ih =>
    obtain ⟨k1, v1⟩ := kv
    by_cases hk : k1 = k
    · simp [GoMap.delete, hk, ih]
    · simp [GoMap.delete, hk, GoMap.index, ih]

theorem GoMap.index_delete_ne {α : Type} (m : GoMap α) (k k2 : String) (hne : k2 ≠ k) :
    GoMap.index (GoMap.delete m k) k2 = GoMap.index m k2 := by
  induction m with
  | nil => simp [GoMap.delete, GoMap.index]
  | cons kv rest ih =>
    obtain ⟨k1, v1⟩ := kv
    by_cases hk : k1 = k
    · subst hk
      simp [GoMap.delete, GoMap.index, Ne.symm hne, ih]
    · by_cases h2 : k1 = k2
      · subst h2
        simp [GoMap.delete, hk, GoMap.index]
      · simp [GoMap.delete, hk, GoMap.index, h2, ih]

theorem GoMap.delete_absent {α : Type} (m : GoMap α) (k : String)
    (h : GoMap.index m k = none) : GoMap.delete m k = m := by
  induction m with
  | nil => simp [GoMap.delete]
  | cons kv rest ih =>
    obtain ⟨k1, v1⟩ := kv
    by_cases hk : k1 = k
    · simp [GoMap.index, hk] at h
    · simp [GoMap.index, hk] at h
      simp [GoMap.delete, hk, ih h]

theorem GoMap.mem_keys_iff {α : Type} (m : GoMap α) (k : String) :
    k ∈ GoMap.keys m ↔ ∃ v, GoMap.index m k = some v := by
  induction m with
  | nil => simp [GoMap.keys, GoMap.index]
  | cons kv rest ih =>
    obtain ⟨k1, v1⟩ := kv
    simp only [GoMap.keys] at ih
    by_cases hk : k1 = k
    · simp [GoMap.keys, GoMap.index, hk]
    · simp [GoMap.keys, GoMap.index, hk, ih, Ne.symm hk]

theorem GoMap.index_of_mem {α : Type} (m : GoMap α) (k : String) (v : α)
    (hnd : (GoMap.keys m).Nodup) (hmem : (k, v) ∈ m) : GoMap.index m k = some v := by
  induction m with
  | nil => simp at hmem
  | cons kv rest ih =>
    obtain ⟨k1, v1⟩ := kv
    simp only [GoMap.keys, List.map_cons, List.nodup_cons] at hnd
    rcases List.mem_cons.mp hmem with h | h
    · cases h
      simp [GoMap.index]
    · have hk : k1 ≠ k := by
        intro e
        subst e
        exact hnd.1 (List.mem_map.mpr ⟨(k1, v), h, rfl⟩)
      simp [GoMap.index, hk, ih hnd.2 h]

theorem GoMap.mem_of_index {α : Type} (m : GoMap α) (k : String) (v : α)
    (h : GoMap.index m k = some v) : (k, v) ∈ m := by
  induction m with
  | nil => simp [GoMap.index] at h
  | cons kv rest ih =>
    obtain ⟨k1, v1⟩ := kv
    by_cases hk : k1 = k
    · simp [GoMap.index, hk] at h
      simp [hk, h]
    · simp [GoMap.index, hk] at h
      exact List.mem_cons_of_mem _ (ih h)

theorem GoMap.assign_absent {α : Type} (m : GoMap α) (k : String) (v : α)
    (h : GoMap.index m k = none) : GoMap.assign m k v = m ++ [(k, v)] := by
  induction m with
  | nil => simp [GoMap.assign]
  | cons kv rest ih =>
    obtain ⟨k1, v1⟩ := kv
    by_cases hk : k1 = k
    · simp [GoMap.index, hk] at h
    · simp [GoMap.index, hk] at h
      simp [GoMap.assign, hk, ih h]

theorem GoMap.split_of_index {α : Type} (m : GoMap α) (k : String) (v : α)
    (h : GoMap.index m k = some v) :
    ∃ l1 l2, m = l1 ++ (k, v) :: l2 ∧ GoMap.index l1 k = none := by
  induction m with
  | nil => simp [GoMap.index] at h
  | cons kv rest ih =>
    obtain ⟨k1, v1⟩ := kv
    by_cases hk : k1 = k
    · simp [GoMap.index, hk] at h
      exact ⟨[], rest, by simp [hk, h], rfl⟩
    · simp [GoMap.index, hk] at h
      obtain ⟨l1, l2, he, hn⟩ := ih h
      exact ⟨(k1, v1) :: l1, l2, by simp [he], by simp [GoMap.index, hk, hn]⟩

theorem GoMap.assign_split {α : Type} (l1 l2 : GoMap α) (k : String) (v x : α)
    (h : GoMap.index l1 k = none) :
    GoMap.assign (l1 ++ (k, v) :: l2) k x = l1 ++ (k, x) :: l2 := by
  induction l1 with
  | nil => simp [GoMap.assign]
  | cons kv rest ih =>
    obtain ⟨k1, v1⟩ := kv
    by_cases hk : k1 = k
    · simp [GoMap.index, hk] at h
    · simp [GoMap.index, hk] at h
      simp [GoMap.assign, hk, ih h]

theorem GoMap.delete_split {α : Type} (l1 l2 : GoMap α) (k : String) (v : α)
    (h1 : GoMap.index l1 k = none) (h2 : GoMap.index l2 k = none) :
    GoMap.delete (l1 ++ (k, v) :: l2) k = l1 ++ l2 := by
  induction l1 with
  | nil => simp [GoMap.delete, GoMap.delete_absent l2 k h2]
  | cons kv rest ih =>
    obtain ⟨k1, v1⟩ := kv
    by_cases hk : k1 = k
    · simp [GoMap.index, hk] at h1
    · simp [GoMap.index, hk] at h1
      simp [GoMap.delete, hk, ih h1]

theorem GoMap.index_none_iff {α : Type} (m : GoMap α) (k : String) :
    GoMap.index m k = none ↔ k ∉ GoMap.keys m := by
  rw [GoMap.mem_keys_iff]
  cases h : GoMap.index m k <;> simp

theorem GoMap.split_tail_absent {α : Type} (l1 l2 : GoMap α) (k : String) (v : α)
    (hnd : (GoMap.keys (l1 ++ (k, v) :: l2)).Nodup) : GoMap.index l2 k = none := by
  rw [GoMap.index_none_iff]
  simp only [GoMap.keys, List.map_append, List.map_cons] at hnd
  have h2 := (List.nodup_append.mp hnd).2.1
  exact (List.nodup_cons.mp h2).1

theorem GoMap.keys_assign_nodup {α : Type} (m : GoMap α) (k : String) (v : α)
    (hnd : (GoMap.keys m).Nodup) : (GoMap.keys (GoMap.assign m k v)).Nodup := by
  cases h : GoMap.index m k with
  | none =>
    rw [GoMap.assign_absent m k v h]
    have hk := (GoMap.index_none_iff m k).mp h
    simp only [GoMap.keys] at hk hnd
    simp only [GoMap.keys, List.map_append, List.map_cons, List.map_nil]
    rw [List.nodup_append]
    refine ⟨hnd, by simp, ?_⟩
    intro a ha hb
    simp at hb
    subst hb
    exact hk ha
  | some v0 =>
    obtain ⟨l1, l2, he, hn⟩ := GoMap.split_of_index m k v0 h
    subst he
    rw [GoMap.assign_split l1 l2 k v0 v hn]
    simpa [GoMap.keys] using hnd

theorem GoMap.keys_delete_sublist {α : Type} (m : GoMap α) (k : String) :
    (GoMap.keys (GoMap.delete m k)).Sublist (GoMap.keys m) := by
  induction m with
  | nil => simp [GoMap.delete, GoMap.keys]
  | cons kv rest ih =>
    obtain ⟨k1, v1⟩ := kv
    simp only [GoMap.keys] at ih
    by_cases hk : k1 = k
    · simpa [GoMap.delete, hk, GoMap.keys] using List.Sublist.cons _ ih
    · simpa [GoMap.delete, hk, GoMap.keys] using ih

theorem GoMap.values_delete_sublist {α : Type} (m : GoMap α) (k : String) :
    (GoMap.values (GoMap.delete m k)).Sublist (GoMap.values m) := by
  induction m with
  | nil => simp [GoMap.delete, GoMap.values]
  | cons kv rest ih =>
    obtain ⟨k1, v1⟩ := kv
    simp only [GoMap.values] at ih
    by_cases hk : k1 = k
    · simpa [GoMap.delete, hk, GoMap.values] using List.Sublist.cons _ ih
    · simpa [GoMap.delete, hk, GoMap.values] using ih

/-! ## The heap -/

theorem World.lt_of_pipe {w : World} {p : PipeRef} {P : WebPipe} (h : w.pipes[p]? = some P) :
    p < w.pipes.length := by
  obtain ⟨hlt, _⟩ := List.getElem?_eq_some.mp h
  exact hlt

theorem World.setPipe_pipe (w : World) (p q : PipeRef) (P P1 : WebPipe)
    (h : w.pipes[p]? = some P) :
    (w.setPipe p P1).pipes[q]? = if q = p then some P1 else w.pipes[q]? := by
  have hlt := World.lt_of_pipe h
  simp only [World.setPipe, List.getElem?_set]
  by_cases hq : q = p
  · simp [hq, hlt]
  · simp [hq, Ne.symm hq]

theorem World.setPipe_same (w : World) (p : PipeRef) (P : WebPipe)
    (h : w.pipes[p]? = some P) : w.setPipe p P = w := by
  have hlt := World.lt_of_pipe h
  cases w with
  | mk pipes chans =>
    simp only [World.setPipe, World.mk.injEq, and_true]
    apply List.ext_getElem?
    intro j
    rw [List.getElem?_set]
    by_cases hj : p = j
    · subst hj
      simpa [hlt] using h.symm
    · simp [hj]

theorem World.hasRoom_iff (w : World) (ch : ChanRef) :
    w.hasRoom ch ↔ ∃ c, w.chans[ch]? = some c ∧ c.buf.length < c.cap := by
  unfold World.hasRoom
  cases h : w.chans[ch]? <;> simp

theorem chanSend_eq_none_iff (w : World) (ch : ChanRef) (v : Message) :
    chanSend w.chans ch v = none ↔ ¬ w.hasRoom ch := by
  unfold chanSend World.hasRoom
  cases h : w.chans[ch]? with
  | none => simp
  | some c => by_cases hc : c.buf.length < c.cap <;> simp [hc]

theorem chanSend_delivered (w : World) (ch : ChanRef) (v : Message) (chans : List Chan)
    (h : chanSend w.chans ch v = some chans) :
    Delivered v [ch] w { w with chans := chans } ∧ w.hasRoom ch := by
  unfold chanSend at h
  cases hc : w.chans[ch]? with
  | none => simp [hc] at h
  | some c =>
    simp only [hc] at h
    by_cases hr : c.buf.length < c.cap
    · simp only [hr, if_true, Option.some.injEq] at h
      subst h
      have hlt : ch < w.chans.length := (List.getElem?_eq_some.mp hc).1
      refine ⟨⟨rfl, by simp, ?_⟩, (World.hasRoom_iff w ch).mpr ⟨c, hc, hr⟩⟩
      intro c1
      by_cases h1 : c1 = ch
      · subst h1
        simp [hc, hlt]
      · simp [h1, List.getElem?_set, Ne.symm h1]
    · simp [hr] at h

theorem Delivered.refl (msg : Message) (w : World) : Delivered msg [] w w :=
  ⟨rfl, rfl, fun c => by simp⟩

theorem Delivered.cons {msg : Message} {ch : ChanRef} {served : List ChanRef} {w w1 w2 : World}
    (h1 : Delivered msg [ch] w w1) (h2 : Delivered msg served w1 w2) (hn : ch ∉ served) :
    Delivered msg (ch :: served) w w2 := by
  obtain ⟨hp1, hl1, hc1⟩ := h1
  obtain ⟨hp2, hl2, hc2⟩ := h2
  refine ⟨hp2.trans hp1, hl2.trans hl1, ?_⟩
  intro c
  rw [hc2 c, hc1 c]
  by_cases hc : c = ch
  · subst hc
    simp [hn]
  · simp [hc]

theorem Delivered.buf_mem {msg : Message} {served : List ChanRef} {w w1 : World}
    (h : Delivered msg served w w1) {c : ChanRef} (hc : c ∈ served)
    (hv : c < w.chans.length) : w1.buf c = w.buf c ++ [msg] := by
  have h3 := h.2.2 c
  simp only [hc, if_true] at h3
  unfold World.buf
  rw [h3, List.getElem?_eq_getElem hv]
  simp

theorem Delivered.buf_not_mem {msg : Message} {served : List ChanRef} {w w1 : World}
    (h : Delivered msg served w w1) {c : ChanRef} (hc : c ∉ served) : w1.buf c = w.buf c := by
  have h3 := h.2.2 c
  simp only [hc, if_false] at h3
  unfold World.buf
  rw [h3]

theorem Delivered.hasRoom_not_mem {msg : Message} {served : List ChanRef} {w w1 : World}
    (h : Delivered msg served w w1) {c : ChanRef} (hc : c ∉ served) :
    w1.hasRoom c ↔ w.hasRoom c := by
  have h3 := h.2.2 c
  simp only [hc, if_false] at h3
  unfold World.hasRoom
  rw [h3]

/-! ## The send loop of `dispatchMessage` -/

theorem sendAll_done (msg : Message) (targets : List ChanRef) (hnd : targets.Nodup)
    (w w1 : World) (h : sendAll msg targets w = .done w1) :
    Delivered msg targets w w1 ∧ ∀ c ∈ targets, w.hasRoom c := by
  induction targets generalizing w with
  | nil =>
    simp only [sendAll, Dispatch.done.injEq] at h
    subst h
    exact ⟨Delivered.refl msg w, by simp⟩
  | cons ch rest ih =>
    obtain ⟨hn, hrest⟩ := List.nodup_cons.mp hnd
    simp only [sendAll] at h
    cases hs : chanSend w.chans ch msg with
    | none => simp [hs] at h
    | some chans =>
      simp only [hs] at h
      obtain ⟨hd, hroom⟩ := chanSend_delivered w ch msg chans hs
      obtain ⟨hd2, hroom2⟩ := ih hrest _ h
      refine ⟨Delivered.cons hd hd2 hn, ?_⟩
      intro c hc
      rcases List.mem_cons.mp hc with e | e
      · subst e
        exact hroom
      · have hne : c ∉ [ch] := by
          intro hm
          simp at hm
          subst hm
          exact hn e
        exact (Delivered.hasRoom_not_mem hd hne).mp (hroom2 c e)

theorem sendAll_blocked (msg : Message) (targets : List ChanRef) (hnd : targets.Nodup)
    (w w1 : World) (pending : List ChanRef) (h : sendAll msg targets w = .blocked w1 pending) :
    ∃ served ch rest, targets = served ++ ch :: rest ∧ pending = ch :: rest ∧
      ¬ w.hasRoom ch ∧ Delivered msg served w w1 := by
  induction targets generalizing w with
  | nil => simp [sendAll] at h
  | cons ch rest ih =>
    obtain ⟨hn, hrest⟩ := List.nodup_cons.mp hnd
    simp only [sendAll] at h
    cases hs : chanSend w.chans ch msg with
    | none =>
      simp only [hs, Dispatch.blocked.injEq] at h
      obtain ⟨hw, hp⟩ := h
      subst hw
      subst hp
      exact ⟨[], ch, rest, rfl, rfl, (chanSend_eq_none_iff w ch msg).mp hs,
        Delivered.refl msg w⟩
    | some chans =>
      simp only [hs] at h
      obtain ⟨hd, _⟩ := chanSend_delivered w ch msg chans hs
      obtain ⟨served, c2, rest2, ht, hp, hroom, hd2⟩ := ih hrest _ h
      have hns : ch ∉ served := by
        intro hm
        apply hn
        rw [ht]
        exact List.mem_append_left _ hm
      have hne : c2 ∉ [ch] := by
        intro hm
        simp at hm
        subst hm
        apply hn
        rw [ht]
        simp
      refine ⟨ch :: served, c2, rest2, by simp [ht], hp, ?_, Delivered.cons hd hd2 hns⟩
      intro hr
      exact hroom ((Delivered.hasRoom_not_mem hd hne).mpr hr)

theorem sendAll_ne_panic (msg : Message) (targets : List ChanRef) (w : World) (e : GoPanic) :
    sendAll msg targets w ≠ .panic e := by
  induction targets generalizing w with
  | nil => simp [sendAll]
  | cons ch rest ih =>
    simp only [sendAll]
    cases hs : chanSend w.chans ch msg with
    | none => simp
    | some chans => exact ih _

theorem sendAll_progress (msg : Message) (targets : List ChanRef) (hnd : targets.Nodup)
    (w : World) (hroom : ∀ c ∈ targets, w.hasRoom c) :
    ∃ w1, sendAll msg targets w = .done w1 := by
  induction targets generalizing w with
  | nil => exact ⟨w, rfl⟩
  | cons ch rest ih =>
    obtain ⟨hn, hrest⟩ := List.nodup_cons.mp hnd
    simp only [sendAll]
    cases hs : chanSend w.chans ch msg with
    | none =>
      exact absurd (hroom ch (List.mem_cons_self _ _)) ((chanSend_eq_none_iff w ch msg).mp hs)
    | some chans =>
      obtain ⟨hd, _⟩ := chanSend_delivered w ch msg chans hs
      apply ih hrest
      intro c hc
      have hne : c ∉ [ch] := by
        intro hm
        simp at hm
        subst hm
        exact hn hc
      exact (Delivered.hasRoom_not_mem hd hne).mpr (hroom c (List.mem_cons_of_mem _ hc))

/-! ## The registry invariant -/

theorem GoMap.mem_values_of_index {α : Type} (m : GoMap α) (k : String) (v : α)
    (h : GoMap.index m k = some v) : v ∈ GoMap.values m :=
  List.mem_map.mpr ⟨(k, v), GoMap.mem_of_index m k v h, rfl⟩

theorem GoMap.exists_index_of_mem_values {α : Type} (m : GoMap α) (v : α)
    (hnd : (GoMap.keys m).Nodup) (h : v ∈ GoMap.values m) : ∃ k, GoMap.index m k = some v := by
  obtain ⟨⟨k, v1⟩, hmem, he⟩ := List.mem_map.mp h
  simp only at he
  subst he
  exact ⟨k, GoMap.index_of_mem m k v1 hnd hmem⟩

theorem WebPipe.subs_of_index (P : WebPipe) (e : String) (inner : GoMap ChanRef)
    (h : GoMap.index P.subscribers e = some inner) : P.subs e = inner := by
  simp [WebPipe.subs, h]

theorem WebPipe.subs_of_absent (P : WebPipe) (e : String)
    (h : GoMap.index P.subscribers e = none) : P.subs e = [] := by
  simp [WebPipe.subs, h]

theorem WebPipe.index_of_chanOf (P : WebPipe) (e s : String) (c : ChanRef)
    (h : P.chanOf e s = some c) :
    ∃ inner, GoMap.index P.subscribers e = some inner ∧ GoMap.index inner s = some c := by
  unfold WebPipe.chanOf at h
  cases hi : GoMap.index P.subscribers e with
  | none =>
    rw [WebPipe.subs_of_absent P e hi] at h
    simp [GoMap.index] at h
  | some inner =>
    rw [WebPipe.subs_of_index P e inner hi] at h
    exact ⟨inner, rfl, h⟩

theorem WebPipe.values_mem_chanRefs (P : WebPipe) (e : String) (c : ChanRef)
    (h : c ∈ GoMap.values (P.subs e)) : c ∈ P.chanRefs := by
  cases hi : GoMap.index P.subscribers e with
  | none =>
    rw [WebPipe.subs_of_absent P e hi] at h
    simp [GoMap.values] at h
  | some inner =>
    rw [WebPipe.subs_of_index P e inner hi] at h
    unfold WebPipe.chanRefs
    rw [List.mem_flatten]
    exact ⟨GoMap.values inner,
      List.mem_map.mpr ⟨(e, inner), GoMap.mem_of_index _ _ _ hi, rfl⟩, h⟩

theorem WebPipe.WF.subs_keys_nodup {P : WebPipe} {n : Nat} (hwf : P.WF n) (e : String) :
    (GoMap.keys (P.subs e)).Nodup := by
  cases hi : GoMap.index P.subscribers e with
  | none =>
    rw [WebPipe.subs_of_absent P e hi]
    simp [GoMap.keys]
  | some inner =>
    rw [WebPipe.subs_of_index P e inner hi]
    exact hwf.2.1 (e, inner) (GoMap.mem_of_index _ _ _ hi)

theorem WebPipe.WF.targets_nodup {P : WebPipe} {n : Nat} (hwf : P.WF n) (e : String) :
    (GoMap.values (P.subs e)).Nodup := by
  cases hi : GoMap.index P.subscribers e with
  | none =>
    rw [WebPipe.subs_of_absent P e hi]
    simp [GoMap.values]
  | some inner =>
    rw [WebPipe.subs_of_index P e inner hi]
    have h := (List.nodup_flatten.mp hwf.2.2.1).1
    exact h _ (List.mem_map.mpr ⟨(e, inner), GoMap.mem_of_index _ _ _ hi, rfl⟩)

theorem WebPipe.WF.targets_lt {P : WebPipe} {n : Nat} (hwf : P.WF n) (e : String)
    (c : ChanRef) (h : c ∈ GoMap.values (P.subs e)) : c < n :=
  hwf.2.2.2 c (WebPipe.values_mem_chanRefs P e c h)

theorem WebPipe.WF.mem_targets_iff {P : WebPipe} {n : Nat} (hwf : P.WF n) (e : String)
    (c : ChanRef) : c ∈ GoMap.values (P.subs e) ↔ ∃ s, P.chanOf e s = some c := by
  constructor
  · intro h
    exact GoMap.exists_index_of_mem_values _ _ (hwf.subs_keys_nodup e) h
  · rintro ⟨s, h⟩
    exact GoMap.mem_values_of_index _ s c h

theorem WebPipe.WF.chanOf_lt {P : WebPipe} {n : Nat} (hwf : P.WF n) (e s : String)
    (c : ChanRef) (h : P.chanOf e s = some c) : c < n :=
  hwf.targets_lt e c (GoMap.mem_values_of_index _ s c h)

theorem WebPipe.WF.chanOf_inj {P : WebPipe} {n : Nat} (hwf : P.WF n) (e s e2 s2 : String)
    (c : ChanRef) (h1 : P.chanOf e s = some c) (h2 : P.chanOf e2 s2 = some c) :
    e = e2 ∧ s = s2 := by
  obtain ⟨inner, hi, hs⟩ := WebPipe.index_of_chanOf P e s c h1
  obtain ⟨inner2, hi2, hs2⟩ := WebPipe.index_of_chanOf P e2 s2 c h2
  have hm := GoMap.mem_of_index _ _ _ hi
  have hm2 := GoMap.mem_of_index _ _ _ hi2
  have hfl := List.nodup_flatten.mp hwf.2.2.1
  by_cases he : e = e2
  · subst he
    rw [hi] at hi2
    cases hi2
    refine ⟨rfl, ?_⟩
    have hnd : (List.map Prod.snd inner).Nodup :=
      hfl.1 _ (List.mem_map.mpr ⟨(e, inner), hm, rfl⟩)
    have := List.inj_on_of_nodup_map hnd (GoMap.mem_of_index _ _ _ hs)
      (GoMap.mem_of_index _ _ _ hs2) rfl
    exact congrArg Prod.fst this
  · exfalso
    have hpw := List.pairwise_map.mp hfl.2
    have hsym : Symmetric (fun a b : String × GoMap ChanRef =>
        List.Disjoint (GoMap.values a.2) (GoMap.values b.2)) :=
      fun a b hd => hd.symm
    have hne : (e, inner) ≠ (e2, inner2) := fun hh => he (congrArg Prod.fst hh)
    have hd := List.Pairwise.forall hsym hpw hm hm2 hne
    exact hd (GoMap.mem_values_of_index _ s c hs) (GoMap.mem_values_of_index _ s2 c hs2)

theorem WebPipe.WF.mem_chanRefs_iff {P : WebPipe} {n : Nat} (hwf : P.WF n) (c : ChanRef) :
    c ∈ P.chanRefs ↔ ∃ e s, P.chanOf e s = some c := by
  constructor
  · intro h
    unfold WebPipe.chanRefs at h
    rw [List.mem_flatten] at h
    obtain ⟨l, hl, hc⟩ := h
    obtain ⟨⟨e, inner⟩, hm, he⟩ := List.mem_map.mp hl
    simp only at he
    subst he
    have hi := GoMap.index_of_mem _ _ _ hwf.1 hm
    obtain ⟨s, hs⟩ := GoMap.exists_index_of_mem_values inner c (hwf.2.1 _ hm) hc
    refine ⟨e, s, ?_⟩
    unfold WebPipe.chanOf
    rw [WebPipe.subs_of_index P e inner hi]
    exact hs
  · rintro ⟨e, s, h⟩
    exact WebPipe.values_mem_chanRefs P e c (GoMap.mem_values_of_index _ s c h)

theorem GoMap.assign_assign {α : Type} (m : GoMap α) (k : String) (v x : α) :
    GoMap.assign (GoMap.assign m k v) k x = GoMap.assign m k x := by
  induction m with
  | nil => simp [GoMap.assign]
  | cons kv rest ih =>
    obtain ⟨k1, v1⟩ := kv
    by_cases hk : k1 = k
    · simp [GoMap.assign, hk]
    · simp [GoMap.assign, hk, ih]

theorem GoMap.mem_assign {α : Type} (m : GoMap α) (k : String) (v : α) (kv : String × α)
    (h : kv ∈ GoMap.assign m k v) : kv = (k, v) ∨ kv ∈ m := by
  induction m with
  | nil =>
    simp [GoMap.assign] at h
    exact Or.inl h
  | cons kv1 rest ih =>
    obtain ⟨k1, v1⟩ := kv1
    by_cases hk : k1 = k
    · simp only [GoMap.assign, hk, if_true, List.mem_cons] at h
      rcases h with h | h
      · exact Or.inl h
      · exact Or.inr (List.mem_cons_of_mem _ h)
    · simp only [GoMap.assign, hk, if_false, List.mem_cons] at h
      rcases h with h | h
      · exact Or.inr (by simp [h])
      · rcases ih h with h2 | h2
        · exact Or.inl h2
        · exact Or.inr (List.mem_cons_of_mem _ h2)

/-- Overwriting one entry of a map of lists changes the concatenation of all
lists in one segment only. -/
theorem GoMap.flatten_assign (subs : GoMap (GoMap ChanRef)) (e : String) (x : GoMap ChanRef) :
    ∃ A B,
      (subs.map (fun kv => GoMap.values kv.2)).flatten
        = A ++ GoMap.values ((GoMap.index subs e).getD []) ++ B ∧
      ((GoMap.assign subs e x).map (fun kv => GoMap.values kv.2)).flatten
        = A ++ GoMap.values x ++ B := by
  cases h : GoMap.index subs e with
  | none =>
    refine ⟨(subs.map (fun kv => GoMap.values kv.2)).flatten, [], ?_, ?_⟩
    · simp [GoMap.values]
    · rw [GoMap.assign_absent subs e x h]
      simp
  | some inner =>
    obtain ⟨l1, l2, he, hn⟩ := GoMap.split_of_index subs e inner h
    subst he
    refine ⟨(l1.map (fun kv => GoMap.values kv.2)).flatten,
      (l2.map (fun kv => GoMap.values kv.2)).flatten, ?_, ?_⟩
    · simp
    · rw [GoMap.assign_split l1 l2 e inner x hn]
      simp

/-- Overwriting or adding one entry changes the value list in one place only. -/
theorem GoMap.values_assign {α : Type} (m : GoMap α) (k : String) (v : α) :
    ∃ a b, GoMap.values m = a ++ (GoMap.index m k).toList ++ b ∧
      GoMap.values (GoMap.assign m k v) = a ++ [v] ++ b := by
  cases h : GoMap.index m k with
  | none =>
    refine ⟨GoMap.values m, [], by simp, ?_⟩
    rw [GoMap.assign_absent m k v h]
    simp [GoMap.values]
  | some v0 =>
    obtain ⟨l1, l2, he, hn⟩ := GoMap.split_of_index m k v0 h
    subst he
    refine ⟨GoMap.values l1, GoMap.values l2, by simp [GoMap.values], ?_⟩
    rw [GoMap.assign_split l1 l2 k v0 v hn]
    simp [GoMap.values]

theorem WebPipe.WF.on {P : WebPipe} {n : Nat} (hwf : P.WF n) (e s : String) :
    (P.afterOn e s n).WF (n + 1) := by
  obtain ⟨A, B, hA, hB⟩ :=
    GoMap.flatten_assign P.subscribers e (GoMap.assign (P.subs e) s n)
  obtain ⟨a, b, ha, hb⟩ := GoMap.values_assign (P.subs e) s n
  have hold : P.chanRefs = A ++ (a ++ (GoMap.index (P.subs e) s).toList ++ b) ++ B := by
    unfold WebPipe.chanRefs
    rw [hA, ← ha]
    rfl
  have hnew : (P.afterOn e s n).chanRefs = A ++ (a ++ [n] ++ b) ++ B := by
    unfold WebPipe.chanRefs WebPipe.afterOn
    rw [hB, hb]
  have hfresh : n ∉ P.chanRefs := fun hm => Nat.lt_irrefl n (hwf.2.2.2 n hm)
  have hsub : (A ++ (a ++ b) ++ B).Sublist P.chanRefs := by
    rw [hold]
    refine List.Sublist.append (List.Sublist.append (List.Sublist.refl _) ?_)
      (List.Sublist.refl _)
    refine List.Sublist.append ?_ (List.Sublist.refl _)
    exact List.sublist_append_left _ _
  refine ⟨GoMap.keys_assign_nodup _ _ _ hwf.1, ?_, ?_, ?_⟩
  · intro kv hkv
    rcases GoMap.mem_assign _ _ _ _ hkv with h | h
    · subst h
      exact GoMap.keys_assign_nodup _ _ _ (hwf.subs_keys_nodup e)
    · exact hwf.2.1 kv h
  · rw [hnew]
    have hnd : (A ++ (a ++ b) ++ B).Nodup := List.Nodup.sublist hsub hwf.2.2.1
    have hnot : n ∉ A ++ (a ++ b) ++ B := fun hm => hfresh (hsub.subset hm)
    have hperm : (A ++ (a ++ [n] ++ b) ++ B).Perm (n :: (A ++ (a ++ b) ++ B)) := by
      have e1 : A ++ (a ++ [n] ++ b) ++ B = (A ++ a) ++ n :: (b ++ B) := by simp
      have e2 : A ++ (a ++ b) ++ B = (A ++ a) ++ (b ++ B) := by simp
      rw [e1, e2]
      exact List.perm_middle
    exact hperm.nodup_iff.mpr (List.nodup_cons.mpr ⟨hnot, hnd⟩)
  · intro c hc
    rw [hnew] at hc
    by_cases hcn : c = n
    · subst hcn
      exact Nat.lt_succ_self c
    · have hm : c ∈ A ++ (a ++ b) ++ B := by
        simp only [List.mem_append, List.mem_singleton] at hc ⊢
        tauto
      exact Nat.lt_succ_of_lt (hwf.2.2.2 c (hsub.subset hm))

theorem WebPipe.WF.off {P : WebPipe} {n : Nat} (hwf : P.WF n) (e s : String)
    (inner : GoMap ChanRef) (hi : GoMap.index P.subscribers e = some inner) :
    (P.afterOff e s).WF n := by
  have hsubs := WebPipe.subs_of_index P e inner hi
  obtain ⟨A, B, hA, hB⟩ := GoMap.flatten_assign P.subscribers e (GoMap.delete inner s)
  simp only [hi, Option.getD_some] at hA
  have hsub : (P.afterOff e s).chanRefs.Sublist P.chanRefs := by
    unfold WebPipe.chanRefs WebPipe.afterOff
    rw [hsubs, hA, hB]
    exact List.Sublist.append (List.Sublist.append (List.Sublist.refl _)
      (GoMap.values_delete_sublist inner s)) (List.Sublist.refl _)
  refine ⟨GoMap.keys_assign_nodup _ _ _ hwf.1, ?_, List.Nodup.sublist hsub hwf.2.2.1, ?_⟩
  · intro kv hkv
    rcases GoMap.mem_assign _ _ _ _ hkv with h | h
    · subst h
      rw [hsubs]
      exact List.Nodup.sublist (GoMap.keys_delete_sublist inner s)
        (hwf.2.1 (e, inner) (GoMap.mem_of_index _ _ _ hi))
    · exact hwf.2.1 kv h
  · intro c hc
    exact hwf.2.2.2 c (hsub.subset hc)

theorem WebPipe.WF.mono {P : WebPipe} {n k : Nat} (hwf : P.WF n) (h : n ≤ k) : P.WF k :=
  ⟨hwf.1, hwf.2.1, hwf.2.2.1, fun c hc => Nat.lt_of_lt_of_le (hwf.2.2.2 c hc) h⟩

/-! ## `On` and `Off` on the registry -/

theorem WebPipe.On_ok (w : World) (p : PipeRef) (P : WebPipe) (e s : String)
    (hp : w.pipes[p]? = some P) :
    WebPipe.On p e s w
      = .ok (w.chans.length, (w.makeChan 1).1.setPipe p (P.afterOn e s w.chans.length)) := by
  have hp1 : (w.makeChan 1).1.pipes[p]? = some P := hp
  unfold WebPipe.On
  simp only [hp1]
  cases hi : GoMap.index P.subscribers e with
  | some inner =>
    simp [WebPipe.afterOn, WebPipe.subs, hi, World.makeChan]
  | none =>
    simp [WebPipe.afterOn, WebPipe.subs, hi, World.makeChan, GoMap.index_assign_self,
      GoMap.assign_assign]

theorem WebPipe.Off_absent (w : World) (p : PipeRef) (P : WebPipe) (e s : String)
    (hp : w.pipes[p]? = some P) (hi : GoMap.index P.subscribers e = none) :
    WebPipe.Off p e s w = .ok w := by
  simp [WebPipe.Off, hp, hi]

theorem WebPipe.Off_present (w : World) (p : PipeRef) (P : WebPipe) (e s : String)
    (inner : GoMap ChanRef) (hp : w.pipes[p]? = some P)
    (hi : GoMap.index P.subscribers e = some inner) :
    WebPipe.Off p e s w = .ok (w.setPipe p (P.afterOff e s)) := by
  simp [WebPipe.Off, hp, hi, WebPipe.afterOff, WebPipe.subs]

theorem WebPipe.subs_afterOn (P : WebPipe) (e s e2 : String) (ch : ChanRef) :
    (P.afterOn e s ch).subs e2
      = if e2 = e then GoMap.assign (P.subs e) s ch else P.subs e2 := by
  by_cases h : e2 = e
  · subst h
    simp [WebPipe.afterOn, WebPipe.subs, GoMap.index_assign_self]
  · simp [WebPipe.afterOn, WebPipe.subs, GoMap.index_assign_ne _ _ _ _ h, h]

theorem WebPipe.chanOf_afterOn (P : WebPipe) (e s e2 s2 : String) (ch : ChanRef) :
    (P.afterOn e s ch).chanOf e2 s2
      = if e2 = e ∧ s2 = s then some ch else P.chanOf e2 s2 := by
  unfold WebPipe.chanOf
  rw [WebPipe.subs_afterOn]
  by_cases h : e2 = e
  · subst h
    by_cases h2 : s2 = s
    · subst h2
      simp [GoMap.index_assign_self]
    · simp [h2, GoMap.index_assign_ne _ _ _ _ h2]
  · simp [h]

theorem WebPipe.subs_afterOff (P : WebPipe) (e s e2 : String) :
    (P.afterOff e s).subs e2
      = if e2 = e then GoMap.delete (P.subs e) s else P.subs e2 := by
  by_cases h : e2 = e
  · subst h
    simp [WebPipe.afterOff, WebPipe.subs, GoMap.index_assign_self]
  · simp [WebPipe.afterOff, WebPipe.subs, GoMap.index_assign_ne _ _ _ _ h, h]

theorem WebPipe.chanOf_afterOff (P : WebPipe) (e s e2 s2 : String) :
    (P.afterOff e s).chanOf e2 s2
      = if e2 = e ∧ s2 = s then none else P.chanOf e2 s2 := by
  unfold WebPipe.chanOf
  rw [WebPipe.subs_afterOff]
  by_cases h : e2 = e
  · subst h
    by_cases h2 : s2 = s
    · subst h2
      simp [GoMap.index_delete_self]
    · simp [h2, GoMap.index_delete_ne _ _ _ h2]
  · simp [h]

theorem RangeOrder.mem_iff (rt : RangeOrder) (m : GoMap ChanRef) (c : ChanRef) :
    c ∈ rt.order m ↔ c ∈ GoMap.values m :=
  (rt.perm m).mem_iff

theorem RangeOrder.nodup (rt : RangeOrder) (m : GoMap ChanRef) (h : (GoMap.values m).Nodup) :
    (rt.order m).Nodup :=
  (rt.perm m).nodup_iff.mpr h

theorem WebPipe.dispatchMessage_eq (rt : RangeOrder) (w : World) (p : PipeRef) (P : WebPipe)
    (msg : Message) (hp : w.pipes[p]? = some P) :
    WebPipe.dispatchMessage rt p msg w = sendAll msg (rt.order (P.subs msg.Name)) w := by
  simp [WebPipe.dispatchMessage, hp]

/-! ## Dispatch -/

theorem WebPipe.dispatchMessage_cases (rt : RangeOrder) (w : World) (p : PipeRef)
    (P : WebPipe) (msg : Message)
    (hp : w.pipes[p]? = some P) (hwf : P.WF w.chans.length) :
    (∃ w1, WebPipe.dispatchMessage rt p msg w = .done w1 ∧
        Delivered msg (rt.order (P.subs msg.Name)) w w1 ∧
        ∀ c ∈ rt.order (P.subs msg.Name), w.hasRoom c) ∨
    (∃ w1 served ch rest, WebPipe.dispatchMessage rt p msg w = .blocked w1 (ch :: rest) ∧
        rt.order (P.subs msg.Name) = served ++ ch :: rest ∧ ¬ w.hasRoom ch ∧
        Delivered msg served w w1) := by
  rw [WebPipe.dispatchMessage_eq rt w p P msg hp]
  have hnd := rt.nodup _ (hwf.targets_nodup msg.Name)
  cases h : sendAll msg (rt.order (P.subs msg.Name)) w with
  | done w1 =>
    obtain ⟨hd, hr⟩ := sendAll_done msg _ hnd w w1 h
    exact Or.inl ⟨w1, rfl, hd, hr⟩
  | blocked w1 pending =>
    obtain ⟨served, ch, rest, ht, hpd, hr, hd⟩ := sendAll_blocked msg _ hnd w w1 pending h
    subst hpd
    exact Or.inr ⟨w1, served, ch, rest, rfl, ht, hr, hd⟩
  | panic e => exact absurd h (sendAll_ne_panic msg _ w e)

theorem WebPipe.dispatchMessage_progress (rt : RangeOrder) (w : World) (p : PipeRef) (P : WebPipe)
    (msg : Message) (hp : w.pipes[p]? = some P) (hwf : P.WF w.chans.length)
    (hroom : ∀ s c, P.chanOf msg.Name s = some c → w.hasRoom c) :
    ∃ w1, WebPipe.dispatchMessage rt p msg w = .done w1 := by
  rw [WebPipe.dispatchMessage_eq rt w p P msg hp]
  apply sendAll_progress msg _ (rt.nodup _ (hwf.targets_nodup msg.Name))
  intro c hc
  obtain ⟨s, hs⟩ := (hwf.mem_targets_iff msg.Name c).mp ((rt.mem_iff _ c).mp hc)
  exact hroom s c hs

theorem Message.Reply_effect (w : World) (m : Message) (P : WebPipe) (args : GoSlice)
    (hreq : m.requestId ≠ "") (hp : w.pipes[m.pipe]? = some P) :
    ∃ w1 P1, m.Reply args w
        = .ok ((P.pipe.WriteJSON (.object (replyDoc m args))).2, w1) ∧
      w1.pipes[m.pipe]? = some P1 ∧
      P1.pipe.written = P.pipe.written ++ [Frame.json (.object (replyDoc m args))] ∧
      P1.pipe.closed = P.pipe.closed ∧
      P1.subscribers = P.subscribers ∧
      w1.chans = w.chans ∧
      ∀ q, q ≠ m.pipe → w1.pipes[q]? = w.pipes[q]? := by
  have hlen : goLen m.requestId ≠ 0 := fun h => hreq ((goLen_eq_zero_iff _).mp h)
  refine ⟨w.setPipe m.pipe ⟨(P.pipe.WriteJSON (.object (replyDoc m args))).1, P.subscribers⟩,
    ⟨(P.pipe.WriteJSON (.object (replyDoc m args))).1, P.subscribers⟩,
    ?_, ?_, ?_, ?_, ?_, ?_, ?_⟩
  · simp only [Message.Reply, hlen, if_false, hp]
  · rw [World.setPipe_pipe w m.pipe m.pipe P _ hp]
    simp
  · simp [Conn.WriteJSON, Conn.write]
  · simp [Conn.WriteJSON, Conn.write]
  · rfl
  · rfl
  · intro q hq
    rw [World.setPipe_pipe w m.pipe q P _ hp]
    simp [hq]

theorem messageLoop_valid (rt : RangeOrder) (w : World) (p : PipeRef) (P : WebPipe)
    (reads : List ReadResult) (hp : w.pipes[p]? = some P) :
    messageLoop rt p reads w = messageLoop.loop rt p reads w := by
  simp [messageLoop, hp]

theorem newMessage_requestDoc (p : PipeRef) (e r : String) (xs : List JSONValue) :
    WebPipe.newMessage p (requestDoc e xs r) = .ok (requestMsg p e xs r) := by
  simp [WebPipe.newMessage, requestDoc, requestMsg, GoMap.index, assertString, assertSlice]

/-! ## Steps of the registry -/

theorem WebPipe.On_step (w : World) (p : PipeRef) (P : WebPipe) (e s : String)
    (hp : w.pipes[p]? = some P) (hwf : P.WF w.chans.length) :
    ∃ w1, WebPipe.On p e s w = .ok (w.chans.length, w1) ∧
      w1.pipes[p]? = some (P.afterOn e s w.chans.length) ∧
      w1.chans = w.chans ++ [{ cap := 1, buf := [] }] ∧
      (P.afterOn e s w.chans.length).WF w1.chans.length ∧
      (P.afterOn e s w.chans.length).pipe = P.pipe ∧
      ∀ q, q ≠ p → w1.pipes[q]? = w.pipes[q]? := by
  have hp1 : (w.makeChan 1).1.pipes[p]? = some P := hp
  refine ⟨_, WebPipe.On_ok w p P e s hp, ?_, rfl, ?_, rfl, ?_⟩
  · rw [World.setPipe_pipe _ p p P _ hp1]
    simp
  · have h := hwf.on e s
    simpa [World.setPipe, World.makeChan] using h
  · intro q hq
    rw [World.setPipe_pipe _ p q P _ hp1]
    simp [hq]
    rfl

theorem WebPipe.Off_step (w : World) (p : PipeRef) (P : WebPipe) (e s : String)
    (hp : w.pipes[p]? = some P) (hwf : P.WF w.chans.length) :
    ∃ w1 P1, WebPipe.Off p e s w = .ok w1 ∧ w1.pipes[p]? = some P1 ∧
      w1.chans = w.chans ∧ P1.WF w1.chans.length ∧ P1.pipe = P.pipe ∧
      (∀ q, q ≠ p → w1.pipes[q]? = w.pipes[q]?) ∧
      (∀ e2 s2, P1.chanOf e2 s2 = if e2 = e ∧ s2 = s then none else P.chanOf e2 s2) ∧
      (P.chanOf e s = none → w1 = w) := by
  cases hi : GoMap.index P.subscribers e with
  | none =>
    refine ⟨w, P, WebPipe.Off_absent w p P e s hp hi, hp, rfl, hwf, rfl, fun _ _ => rfl,
      ?_, fun _ => rfl⟩
    intro e2 s2
    by_cases h : e2 = e ∧ s2 = s
    · obtain ⟨h1, h2⟩ := h
      subst h1
      subst h2
      simp [WebPipe.chanOf, WebPipe.subs_of_absent P e2 hi, GoMap.index]
    · simp [h]
  | some inner =>
    refine ⟨w.setPipe p (P.afterOff e s), P.afterOff e s,
      WebPipe.Off_present w p P e s inner hp hi, ?_, rfl, hwf.off e s inner hi, rfl, ?_,
      WebPipe.chanOf_afterOff P e s, ?_⟩
    · rw [World.setPipe_pipe w p p P _ hp]
      simp
    · intro q hq
      rw [World.setPipe_pipe w p q P _ hp]
      simp [hq]
    · intro hnone
      have hsubs := WebPipe.subs_of_index P e inner hi
      have hd : GoMap.delete inner s = inner := by
        apply GoMap.delete_absent
        rw [← hsubs]
        exact hnone
      have hP : P.afterOff e s = P := by
        cases P with
        | mk pipe subscribers =>
          simp only [WebPipe.afterOff, WebPipe.mk.injEq, true_and]
          simp only at hi
          simp only [WebPipe.subs, hi, Option.getD_some, hd]
          exact GoMap.assign_same _ _ _ hi
      rw [hP]
      exact World.setPipe_same w p P hp

theorem RegOp.run_step (op : RegOp) (w : World) (p : PipeRef) (P : WebPipe)
    (hp : w.pipes[p]? = some P) (hwf : P.WF w.chans.length) :
    ∃ w1 P1, op.run p w = .ok w1 ∧ w1.pipes[p]? = some P1 ∧ P1.WF w1.chans.length ∧
      w.chans.length ≤ w1.chans.length ∧
      (∀ c, c < w.chans.length → w1.chans[c]? = w.chans[c]?) ∧
      (∀ e2 s2, op.pair ≠ (e2, s2) → P1.chanOf e2 s2 = P.chanOf e2 s2) ∧
      (∀ e2 s2 c, P1.chanOf e2 s2 = some c → c < w.chans.length →
        P.chanOf e2 s2 = some c) := by
  cases op with
  | callOn e s =>
    obtain ⟨w1, h1, h2, h3, h4, _⟩ := WebPipe.On_step w p P e s hp hwf
    refine ⟨w1, _, by simp [RegOp.run, h1], h2, h4, by simp [h3], ?_, ?_, ?_⟩
    · intro c hc
      rw [h3, List.getElem?_append_left hc]
    · intro e2 s2 hne
      rw [WebPipe.chanOf_afterOn]
      have : ¬ (e2 = e ∧ s2 = s) := by
        rintro ⟨rfl, rfl⟩
        exact hne rfl
      simp [this]
    · intro e2 s2 c hc hlt
      rw [WebPipe.chanOf_afterOn] at hc
      by_cases h : e2 = e ∧ s2 = s
      · simp only [h, and_self, if_true, Option.some.injEq] at hc
        rw [← hc] at hlt
        exact absurd hlt (Nat.lt_irrefl _)
      · simpa [h] using hc
  | callOff e s =>
    obtain ⟨w1, P1, h1, h2, h3, h4, _, _, h7, _⟩ := WebPipe.Off_step w p P e s hp hwf
    refine ⟨w1, P1, by simp [RegOp.run, h1], h2, h4, by simp [h3], ?_, ?_, ?_⟩
    · intro c _
      rw [h3]
    · intro e2 s2 hne
      rw [h7]
      have : ¬ (e2 = e ∧ s2 = s) := by
        rintro ⟨rfl, rfl⟩
        exact hne rfl
      simp [this]
    · intro e2 s2 c hc _
      rw [h7] at hc
      by_cases h : e2 = e ∧ s2 = s
      · simp [h] at hc
      · simpa [h] using hc

theorem runOps_inv (ops : List RegOp) (w : World) (p : PipeRef) (P : WebPipe)
    (hp : w.pipes[p]? = some P) (hwf : P.WF w.chans.length) :
    ∃ w1 P1, runOps p ops w = .ok w1 ∧ w1.pipes[p]? = some P1 ∧ P1.WF w1.chans.length ∧
      w.chans.length ≤ w1.chans.length ∧
      (∀ c, c < w.chans.length → w1.chans[c]? = w.chans[c]?) ∧
      (∀ e2 s2, (∀ op ∈ ops, op.pair ≠ (e2, s2)) → P1.chanOf e2 s2 = P.chanOf e2 s2) ∧
      (∀ e2 s2 c, P1.chanOf e2 s2 = some c → c < w.chans.length →
        P.chanOf e2 s2 = some c) := by
  induction ops generalizing w P with
  | nil => exact ⟨w, P, rfl, hp, hwf, le_refl _, fun _ _ => rfl, fun _ _ _ => rfl,
      fun _ _ _ h _ => h⟩
  | cons op rest ih =>
    obtain ⟨w1, P1, h1, h2, h3, h4, h5, h6, h7⟩ := RegOp.run_step op w p P hp hwf
    obtain ⟨w2, P2, k1, k2, k3, k4, k5, k6, k7⟩ := ih w1 P1 h2 h3
    refine ⟨w2, P2, by simp [runOps, h1, k1], k2, k3, le_trans h4 k4, ?_, ?_, ?_⟩
    · intro c hc
      rw [k5 c (lt_of_lt_of_le hc h4), h5 c hc]
    · intro e2 s2 hall
      rw [k6 e2 s2 (fun op hop => hall op (List.mem_cons_of_mem _ hop)),
        h6 e2 s2 (hall op (List.mem_cons_self _ _))]
    · intro e2 s2 c hc hlt
      exact h7 e2 s2 c (k7 e2 s2 c hc (lt_of_lt_of_le hlt h4)) hlt

theorem WebPipe.dispatchMessage_untouched (rt : RangeOrder) (w : World) (p : PipeRef) (P : WebPipe)
    (msg : Message) (hp : w.pipes[p]? = some P) (hwf : P.WF w.chans.length) (c : ChanRef)
    (hc : ∀ s, P.chanOf msg.Name s ≠ some c) (w1 : World)
    (h : (WebPipe.dispatchMessage rt p msg w).world? = some w1) : w1.buf c = w.buf c := by
  have hnot : c ∉ rt.order (P.subs msg.Name) := by
    intro hm
    obtain ⟨s, hs⟩ := (hwf.mem_targets_iff msg.Name c).mp ((rt.mem_iff _ c).mp hm)
    exact hc s hs
  rcases WebPipe.dispatchMessage_cases rt w p P msg hp hwf with
    ⟨w2, h2, hd, _⟩ | ⟨w2, served, ch, rest, h2, ht, _, hd⟩
  · rw [h2] at h
    simp only [Dispatch.world?, Option.some.injEq] at h
    subst h
    exact hd.buf_not_mem hnot
  · rw [h2] at h
    simp only [Dispatch.world?, Option.some.injEq] at h
    subst h
    apply hd.buf_not_mem
    intro hs
    apply hnot
    rw [ht]
    exact List.mem_append_left _ hs

theorem WebPipe.dispatchMessage_target (rt : RangeOrder) (w : World) (p : PipeRef) (P : WebPipe)
    (msg : Message) (hp : w.pipes[p]? = some P) (hwf : P.WF w.chans.length) (s : String)
    (c : ChanRef) (hc : P.chanOf msg.Name s = some c) :
    (∀ w1, WebPipe.dispatchMessage rt p msg w = .done w1 → w1.buf c = w.buf c ++ [msg]) ∧
    (∀ w1 pending, WebPipe.dispatchMessage rt p msg w = .blocked w1 pending →
      c ∈ pending ∨ w1.buf c = w.buf c ++ [msg]) ∧
    (∀ x, WebPipe.dispatchMessage rt p msg w ≠ .panic x) := by
  have hmem : c ∈ rt.order (P.subs msg.Name) :=
    (rt.mem_iff _ c).mpr (GoMap.mem_values_of_index _ s c hc)
  have hlt := hwf.chanOf_lt _ s c hc
  rcases WebPipe.dispatchMessage_cases rt w p P msg hp hwf with
    ⟨w2, h2, hd, _⟩ | ⟨w2, served, ch, rest, h2, ht, _, hd⟩
  · refine ⟨?_, ?_, ?_⟩
    · intro w1 h
      rw [h2] at h
      cases h
      exact hd.buf_mem hmem hlt
    · intro w1 pending h
      rw [h2] at h
      cases h
    · intro x h
      rw [h2] at h
      cases h
  · refine ⟨?_, ?_, ?_⟩
    · intro w1 h
      rw [h2] at h
      cases h
    · intro w1 pending h
      rw [h2] at h
      cases h
      rw [ht] at hmem
      rcases List.mem_append.mp hmem with hm | hm
      · exact Or.inr (hd.buf_mem hm hlt)
      · exact Or.inl hm
    · intro x h
      rw [h2] at h
      cases h

theorem offAll_inv (names : List String) (e : String) (w : World) (p : PipeRef) (P : WebPipe)
    (hp : w.pipes[p]? = some P) (hwf : P.WF w.chans.length) :
    ∃ w1 P1, offAll p e names w = .ok w1 ∧ w1.pipes[p]? = some P1 ∧
      P1.WF w1.chans.length ∧ w1.chans = w.chans ∧
      ∀ e2 s2, P1.chanOf e2 s2 = if e2 = e ∧ s2 ∈ names then none else P.chanOf e2 s2 := by
  induction names generalizing w P with
  | nil => exact ⟨w, P, rfl, hp, hwf, rfl, fun _ _ => by simp⟩
  | cons s rest ih =>
    obtain ⟨w1, P1, h1, h2, h3, h4, _, _, h7, _⟩ := WebPipe.Off_step w p P e s hp hwf
    obtain ⟨w2, P2, k1, k2, k3, k4, k5⟩ := ih w1 P1 h2 h4
    refine ⟨w2, P2, ?_, k2, k3, k4.trans h3, ?_⟩
    · simp only [offAll, List.map_cons, runOps, RegOp.run, h1]
      exact k1
    · intro e2 s2
      rw [k5 e2 s2, h7 e2 s2]
      by_cases he : e2 = e
      · by_cases hs : s2 = s
        · simp [he, hs]
        · by_cases hr : s2 ∈ rest
          · simp [he, hr]
          · simp [he, hs, hr]
      · simp [he]

theorem WebPipe.subs_nil_of_chanOf (P : WebPipe) (e : String)
    (h : ∀ s, P.chanOf e s = none) : P.subs e = [] := by
  cases hs : P.subs e with
  | nil => rfl
  | cons kv rest =>
    obtain ⟨k, v⟩ := kv
    have := h k
    simp [WebPipe.chanOf, hs, GoMap.index] at this

theorem WebPipe.dispatchMessage_nil (rt : RangeOrder) (w : World) (p : PipeRef) (P : WebPipe)
    (msg : Message) (hp : w.pipes[p]? = some P) (h : P.subs msg.Name = []) :
    WebPipe.dispatchMessage rt p msg w = .done w := by
  have hnil : rt.order (P.subs msg.Name) = [] := by
    have hperm := rt.perm (P.subs msg.Name)
    rw [h] at hperm ⊢
    simpa [GoMap.values] using hperm
  rw [WebPipe.dispatchMessage_eq rt w p P msg hp, hnil]
  rfl

theorem WebPipe.Emit_effect (w : World) (p : PipeRef) (P : WebPipe) (e : String)
    (xs : GoSlice) (hp : w.pipes[p]? = some P) :
    ∃ w1 P1, WebPipe.Emit p e xs w = .ok w1 ∧ w1.pipes[p]? = some P1 ∧
      P1.pipe.written = P.pipe.written ++ [Frame.json (.object (emitDoc e xs))] ∧
      P1.pipe.closed = P.pipe.closed ∧
      P1.subscribers = P.subscribers ∧
      w1.chans = w.chans ∧
      ∀ q, q ≠ p → w1.pipes[q]? = w.pipes[q]? := by
  refine ⟨w.setPipe p ⟨(P.pipe.WriteJSON (.object (emitDoc e xs))).1, P.subscribers⟩,
    ⟨(P.pipe.WriteJSON (.object (emitDoc e xs))).1, P.subscribers⟩,
    ?_, ?_, ?_, ?_, ?_, ?_, ?_⟩
  · simp only [WebPipe.Emit, hp]
  · rw [World.setPipe_pipe w p p P _ hp]
    simp
  · simp [Conn.WriteJSON, Conn.write]
  · simp [Conn.WriteJSON, Conn.write]
  · rfl
  · rfl
  · intro q hq
    rw [World.setPipe_pipe w p q P _ hp]
    simp [hq]

theorem newMessage_requestId_absent (p : PipeRef) (doc : JSONObject) (e : String)
    (xs : List JSONValue) (hn : GoMap.index doc "n" = some (.string e))
    (ha : GoMap.index doc "args" = some (.array xs))
    (hr : GoMap.index doc "requestId" = none) :
    WebPipe.newMessage p doc = .error (.interfaceConversion "requestId") := by
  simp [WebPipe.newMessage, hn, ha, hr, assertString, assertSlice]

theorem variadic_toJSON (a : List JSONValue) :
    (variadic a).toJSON = .array a ↔ a ≠ [] := by
  cases a <;> simp [variadic, GoSlice.toJSON]

theorem newMessage_args_null (p : PipeRef) (doc : JSONObject) (e : String)
    (hn : GoMap.index doc "n" = some (.string e))
    (ha : GoMap.index doc "args" = some .null) :
    WebPipe.newMessage p doc = .error (.interfaceConversion "args") := by
  simp [WebPipe.newMessage, hn, ha, assertString, assertSlice]

/-! ## Claims -/

/-- C1, what the code does: for a message with a non-empty `requestId` whose
session exists, `Reply` makes exactly one write, on that session's connection:
the connection's list of written frames grows by the one document with
`replyTo` the request id, `n` the reply marker followed by the event name, and
`args` the slice of arguments as the encoder writes it; `Reply` returns the
outcome of that write; registry, channels, close count and all other sessions
stay as they were. For a call `Reply(a...)` that lists its arguments, `args`
is the sequence `a` exactly when at least one argument is given: `Reply()`
passes the nil slice and the document carries `args: null`, not the empty
sequence. -/
theorem Reply_nil_args_written_as_null (w : World) (m : Message) (P : WebPipe)
    (args : GoSlice) (hreq : m.requestId ≠ "") (hp : w.pipes[m.pipe]? = some P) :
    ∃ w1 P1, m.Reply args w
        = .ok ((P.pipe.WriteJSON (.object (replyDoc m args))).2, w1) ∧
      replyDoc m args = [("replyTo", .string m.requestId),
        ("n", .string ("__webpipe_reply:" ++ m.Name)), ("args", args.toJSON)] ∧
      (∀ a, args = variadic a → (args.toJSON = .array a ↔ a ≠ [])) ∧
      (args = variadic [] → args.toJSON = .null) ∧
      w1.pipes[m.pipe]? = some P1 ∧
      P1.pipe.written = P.pipe.written ++ [Frame.json (.object (replyDoc m args))] ∧
      P1.pipe.closed = P.pipe.closed ∧
      P1.subscribers = P.subscribers ∧
      w1.chans = w.chans ∧
      ∀ q, q ≠ m.pipe → w1.pipes[q]? = w.pipes[q]? := by
  obtain ⟨w1, P1, h1, h2, h3, h4, h5, h6, h7⟩ := Message.Reply_effect w m P args hreq hp
  refine ⟨w1, P1, h1, rfl, ?_, ?_, h2, h3, h4, h5, h6, h7⟩
  · intro a ha
    rw [ha]
    exact variadic_toJSON a
  · intro ha
    rw [ha]
    rfl

/-- C1, at the failing input: `Reply()` without arguments on the `chat` request
`abc123` writes `args: null`, which is not the document with the empty
sequence the claim describes. -/
theorem Reply_nil_args_written_as_null_witness :
    Message.chat.requestId ≠ "" ∧
    World.chatRoom.pipes[Message.chat.pipe]? = some WebPipe.chatRoom ∧
    ∃ w1 P1, Message.chat.Reply (variadic []) World.chatRoom = .ok (none, w1) ∧
      w1.pipes[0]? = some P1 ∧
      P1.pipe.written = [Frame.json (.object [("replyTo", .string "abc123"),
        ("n", .string "__webpipe_reply:chat"), ("args", .null)])] ∧
      P1.pipe.written ≠ [Frame.json (.object [("replyTo", .string "abc123"),
        ("n", .string "__webpipe_reply:chat"), ("args", .array [])])] := by
  refine ⟨by decide, by decide, ?_⟩
  obtain ⟨w1, P1, h1, _, _, _, h3, h4, _⟩ :=
    Reply_nil_args_written_as_null World.chatRoom Message.chat WebPipe.chatRoom (variadic [])
      (by decide) (by decide)
  refine ⟨w1, P1, h1, h3, h4, ?_⟩
  rw [h4]
  decide

/-- C2: on a message whose `requestId` is empty, `Reply` returns the error
"message is not expecting a reply" and leaves the heap, hence every connection,
untouched; and `Reply` returns that error for no other message. -/
theorem Reply_noReplyExpected (w : World) (m : Message) (args : GoSlice) :
    (m.requestId = "" → m.Reply args w = .ok (some noReplyExpected, w)) ∧
    (∀ w1, m.Reply args w = .ok (some noReplyExpected, w1) → m.requestId = "") := by
  constructor
  · intro h
    have h0 : goLen m.requestId = 0 := (goLen_eq_zero_iff _).mpr h
    simp [Message.Reply, h0]
  · intro w1 h
    by_contra hne
    have hlen : goLen m.requestId ≠ 0 := fun h0 => hne ((goLen_eq_zero_iff _).mp h0)
    simp only [Message.Reply, hlen, if_false] at h
    cases hp : w.pipes[m.pipe]? with
    | none => simp [hp] at h
    | some P =>
      simp only [hp, Except.ok.injEq, Prod.mk.injEq] at h
      have h1 := h.1
      simp only [Conn.WriteJSON, Conn.write, noReplyExpected] at h1
      split at h1 <;> simp at h1

/-- C4: in a well-formed registry and for every iteration order of `range`,
`dispatchMessage` never panics and sends to the channels registered under the
message's name only. When it returns, each
channel registered under that name (one per subscriber name) has received
exactly one copy of the message, and every other channel, those registered
under other event names included, holds what it held before. It returns at once
when each of those channels has a free slot. When it is suspended in a send,
the blocking channel is registered under the name and is full, the channels
served so far hold one copy each, and all others, the pending ones included,
are unchanged. -/
theorem dispatchMessage_fanout (rt : RangeOrder) (w : World) (p : PipeRef) (P : WebPipe)
    (msg : Message) (hp : w.pipes[p]? = some P) (hwf : P.WF w.chans.length) :
    ((∀ s c, P.chanOf msg.Name s = some c → w.hasRoom c) →
      ∃ w1, WebPipe.dispatchMessage rt p msg w = .done w1) ∧
    (∀ w1, WebPipe.dispatchMessage rt p msg w = .done w1 →
      w1.pipes = w.pipes ∧
      (∀ s c, P.chanOf msg.Name s = some c → w1.buf c = w.buf c ++ [msg]) ∧
      (∀ e s c, e ≠ msg.Name → P.chanOf e s = some c → w1.buf c = w.buf c) ∧
      (∀ c, (∀ s, P.chanOf msg.Name s ≠ some c) → w1.buf c = w.buf c)) ∧
    (∀ w1 pending, WebPipe.dispatchMessage rt p msg w = .blocked w1 pending →
      w1.pipes = w.pipes ∧
      (∃ ch rest, pending = ch :: rest ∧ ¬ w.hasRoom ch) ∧
      (∀ c ∈ pending, ∃ s, P.chanOf msg.Name s = some c) ∧
      (∀ s c, P.chanOf msg.Name s = some c → c ∉ pending → w1.buf c = w.buf c ++ [msg]) ∧
      (∀ c ∈ pending, w1.buf c = w.buf c) ∧
      (∀ e s c, e ≠ msg.Name → P.chanOf e s = some c → w1.buf c = w.buf c) ∧
      (∀ c, (∀ s, P.chanOf msg.Name s ≠ some c) → w1.buf c = w.buf c)) ∧
    (∀ e, WebPipe.dispatchMessage rt p msg w ≠ .panic e) := by
  have hother : ∀ e s c, e ≠ msg.Name → P.chanOf e s = some c →
      ∀ s2, P.chanOf msg.Name s2 ≠ some c := by
    intro e s c hne hc s2 hc2
    exact hne (hwf.chanOf_inj e s msg.Name s2 c hc hc2).1
  have hnot : ∀ c, (∀ s, P.chanOf msg.Name s ≠ some c) →
      c ∉ rt.order (P.subs msg.Name) := by
    intro c hc hm
    obtain ⟨s, hs⟩ := (hwf.mem_targets_iff msg.Name c).mp ((rt.mem_iff _ c).mp hm)
    exact hc s hs
  have hin : ∀ s c, P.chanOf msg.Name s = some c → c ∈ rt.order (P.subs msg.Name) :=
    fun s c hc => (rt.mem_iff _ c).mpr (GoMap.mem_values_of_index _ s c hc)
  have hnd := rt.nodup _ (hwf.targets_nodup msg.Name)
  refine ⟨WebPipe.dispatchMessage_progress rt w p P msg hp hwf, ?_, ?_, ?_⟩
  · intro w1 hdone
    rcases WebPipe.dispatchMessage_cases rt w p P msg hp hwf with
      ⟨w2, h2, hd, _⟩ | ⟨w2, served, ch, rest, h2, _, _, _⟩
    · rw [hdone] at h2
      cases h2
      have hun : ∀ c, (∀ s, P.chanOf msg.Name s ≠ some c) → w1.buf c = w.buf c :=
        fun c hc => hd.buf_not_mem (hnot c hc)
      refine ⟨hd.1, ?_, ?_, hun⟩
      · intro s c hc
        exact hd.buf_mem (hin s c hc) (hwf.chanOf_lt _ s c hc)
      · intro e s c hne hc
        exact hun c (hother e s c hne hc)
    · rw [hdone] at h2
      cases h2
  · intro w1 pending hblocked
    rcases WebPipe.dispatchMessage_cases rt w p P msg hp hwf with
      ⟨w2, h2, _, _⟩ | ⟨w2, served, ch, rest, h2, ht, hroom, hd⟩
    · rw [hblocked] at h2
      cases h2
    · rw [hblocked] at h2
      cases h2
      rw [ht] at hnd
      have hdisj := (List.nodup_append.mp hnd).2.2
      have hpend : ∀ c ∈ ch :: rest, c ∉ served := fun c hc hs => hdisj hs hc
      have hun : ∀ c, (∀ s, P.chanOf msg.Name s ≠ some c) → w1.buf c = w.buf c := by
        intro c hc
        apply hd.buf_not_mem
        intro hs
        apply hnot c hc
        rw [ht]
        exact List.mem_append_left _ hs
      refine ⟨hd.1, ⟨ch, rest, rfl, hroom⟩, ?_, ?_, ?_, ?_, hun⟩
      · intro c hc
        apply (hwf.mem_targets_iff msg.Name c).mp
        apply (rt.mem_iff _ c).mp
        rw [ht]
        exact List.mem_append_right _ hc
      · intro s c hc hnp
        have hm : c ∈ served ++ ch :: rest := by
          rw [← ht]
          exact hin s c hc
        rcases List.mem_append.mp hm with h | h
        · exact hd.buf_mem h (hwf.chanOf_lt _ s c hc)
        · exact absurd h hnp
      · intro c hc
        exact hd.buf_not_mem (hpend c hc)
      · intro e s c hne hc
        exact hun c (hother e s c hne hc)
  · intro e he
    rcases WebPipe.dispatchMessage_cases rt w p P msg hp hwf with
      ⟨w2, h2, _, _⟩ | ⟨w2, served, ch, rest, h2, _, _, _⟩
    · rw [he] at h2
      cases h2
    · rw [he] at h2
      cases h2

/-- C4, at a concrete input: two subscribers on `chat` both receive the one
incoming `chat` message, the subscriber on `news` receives nothing. -/
theorem dispatchMessage_fanout_witness :
    World.chatRoom.pipes[0]? = some WebPipe.chatRoom ∧
    WebPipe.chatRoom.WF World.chatRoom.chans.length ∧
    WebPipe.chatRoom.chanOf "chat" "a" = some 0 ∧
    WebPipe.chatRoom.chanOf "chat" "b" = some 1 ∧
    WebPipe.chatRoom.chanOf "news" "c" = some 2 ∧
    ∃ w1, WebPipe.dispatchMessage RangeOrder.reversed 0 Message.chat World.chatRoom
        = .done w1 ∧
      w1.buf 0 = [Message.chat] ∧ w1.buf 1 = [Message.chat] ∧ w1.buf 2 = [] := by
  have h := dispatchMessage_fanout RangeOrder.reversed World.chatRoom 0 WebPipe.chatRoom
    Message.chat (by decide) (by decide)
  refine ⟨by decide, by decide, by decide, by decide, by decide, ?_⟩
  have hroom : ∀ s c, WebPipe.chatRoom.chanOf Message.chat.Name s = some c →
      World.chatRoom.hasRoom c := by
    intro s c hc
    have hlt : c < 3 := WebPipe.WF.chanOf_lt (by decide) _ s c hc
    interval_cases c <;> decide
  obtain ⟨w1, hd⟩ := h.1 hroom
  obtain ⟨_, hin, hout, _⟩ := h.2.1 w1 hd
  refine ⟨w1, hd, ?_, ?_, ?_⟩
  · exact hin "a" 0 (by decide)
  · exact hin "b" 1 (by decide)
  · exact hout "news" "c" 2 (by decide) (by decide)

/-- C3: request/reply correlation. For an inbound frame
`{n: e, args: xs, requestId: r}` with `r` non-empty, read by the loop of a
session in which `s` is subscribed to `e` on channel `ch`: the frame decodes to
the message with `Name = e`, `Args = xs` (wire order) and request id `r`; the
loop dispatches exactly that message and either goes on to the next read with
one copy added to `ch`, or is suspended in a send of that message with `ch`
already served or still pending; it goes on whenever the channels of `e` have
a free slot. `Reply` on the delivered message, in any later heap where the
session exists, writes one frame on the session's connection, the document
with `replyTo: r`, `n: "__webpipe_reply:" ++ e` and `args` the slice of
arguments as the encoder writes it. For a call `Reply(a...)` that lists its
arguments this is `{replyTo: r, n: "__webpipe_reply:" ++ e, args: a}` exactly
when at least one argument is given; `Reply()` writes `args: null`. -/
theorem reply_correlation_nil_args (rt : RangeOrder) (w : World) (p : PipeRef) (P : WebPipe)
    (e r s : String) (xs : List JSONValue) (ch : ChanRef) (rest : List ReadResult)
    (hp : w.pipes[p]? = some P) (hwf : P.WF w.chans.length) (hr : r ≠ "")
    (hsub : P.chanOf e s = some ch) :
    WebPipe.newMessage p (requestDoc e xs r) = .ok (requestMsg p e xs r) ∧
    (requestMsg p e xs r).Name = e ∧ (requestMsg p e xs r).Args = xs ∧
    ((∃ w1, messageLoop rt p (.json (.object (requestDoc e xs r)) :: rest) w
          = messageLoop rt p rest w1 ∧
        w1.buf ch = w.buf ch ++ [requestMsg p e xs r]) ∨
      (∃ w1 pending, messageLoop rt p (.json (.object (requestDoc e xs r)) :: rest) w
          = .blockedSend w1 (requestMsg p e xs r) pending rest ∧
        (ch ∈ pending ∨ w1.buf ch = w.buf ch ++ [requestMsg p e xs r]))) ∧
    ((∀ s2 c, P.chanOf e s2 = some c → w.hasRoom c) →
      ∃ w1, messageLoop rt p (.json (.object (requestDoc e xs r)) :: rest) w
          = messageLoop rt p rest w1 ∧
        w1.buf ch = w.buf ch ++ [requestMsg p e xs r]) ∧
    (∀ (a : GoSlice) w2 P2, w2.pipes[p]? = some P2 →
      ∃ w3 P3, (requestMsg p e xs r).Reply a w2
          = .ok ((P2.pipe.WriteJSON (.object (replyDoc (requestMsg p e xs r) a))).2, w3) ∧
        w3.pipes[p]? = some P3 ∧
        P3.pipe.written = P2.pipe.written ++ [Frame.json (.object
          [("replyTo", .string r), ("n", .string ("__webpipe_reply:" ++ e)),
           ("args", a.toJSON)])]) ∧
    (∀ ys, (variadic ys).toJSON = .array ys ↔ ys ≠ []) ∧
    (variadic []).toJSON = .null := by
  have hdec := newMessage_requestDoc p e r xs
  have hloop : ∀ w1, WebPipe.dispatchMessage rt p (requestMsg p e xs r) w = .done w1 →
      w1.pipes = w.pipes →
      messageLoop rt p (.json (.object (requestDoc e xs r)) :: rest) w
        = messageLoop rt p rest w1 := by
    intro w1 hd hpipes
    have hp1 : w1.pipes[p]? = some P := by rw [hpipes]; exact hp
    rw [messageLoop_valid rt w p P _ hp, messageLoop_valid rt w1 p P _ hp1]
    simp only [messageLoop.loop, hdec, hd]
  have hcases := WebPipe.dispatchMessage_cases rt w p P (requestMsg p e xs r) hp hwf
  have hmem : ch ∈ rt.order (P.subs (requestMsg p e xs r).Name) :=
    (rt.mem_iff _ ch).mpr (GoMap.mem_values_of_index _ s ch hsub)
  have hlt : ch < w.chans.length := hwf.chanOf_lt e s ch hsub
  refine ⟨hdec, rfl, rfl, ?_, ?_, ?_, variadic_toJSON, rfl⟩
  · rcases hcases with ⟨w1, hd, hdel, _⟩ | ⟨w1, served, c, rest2, hb, ht, _, hdel⟩
    · exact Or.inl ⟨w1, hloop w1 hd hdel.1, hdel.buf_mem hmem hlt⟩
    · refine Or.inr ⟨w1, c :: rest2, ?_, ?_⟩
      · rw [messageLoop_valid rt w p P _ hp]
        simp only [messageLoop.loop, hdec, hb]
      · rw [ht] at hmem
        rcases List.mem_append.mp hmem with h | h
        · exact Or.inr (hdel.buf_mem h hlt)
        · exact Or.inl h
  · intro hroom
    obtain ⟨w1, hd⟩ :=
      WebPipe.dispatchMessage_progress rt w p P (requestMsg p e xs r) hp hwf hroom
    rcases hcases with ⟨w2, hd2, hdel, _⟩ | ⟨w2, served, c, rest2, hb, _, _, _⟩
    · rw [hd] at hd2
      cases hd2
      exact ⟨w1, hloop w1 hd hdel.1, hdel.buf_mem hmem hlt⟩
    · rw [hd] at hb
      cases hb
  · intro a w2 P2 hp2
    obtain ⟨w3, P3, h1, h2, h3, _⟩ :=
      Message.Reply_effect w2 (requestMsg p e xs r) P2 a hr hp2
    exact ⟨w3, P3, h1, h2, h3⟩

/-- C3, at the input of the scenario: subscriber `s1` on `ping`, inbound frame
`{n: "ping", args: [1, 2], requestId: "r1"}`. The reply `Reply(42)` writes the
document of the scenario; the failing input is `Reply()` on the same message,
which writes `args: null`. -/
theorem reply_correlation_nil_args_witness :
    World.pingRoom.pipes[0]? = some WebPipe.pingRoom ∧
    WebPipe.WF WebPipe.pingRoom World.pingRoom.chans.length ∧
    "r1" ≠ "" ∧
    WebPipe.chanOf WebPipe.pingRoom "ping" "s1" = some 0 ∧
    WebPipe.On 0 "ping" "s1" World.single = .ok (0, World.pingRoom) ∧
    ∃ w1 w3 P3 w4 P4,
      messageLoop RangeOrder.listed 0 [ReadResult.ping] World.pingRoom = .blockedRead w1 ∧
      w1.buf 0 = [requestMsg 0 "ping" [.number 1, .number 2] "r1"] ∧
      (requestMsg 0 "ping" [.number 1, .number 2] "r1").Reply (variadic [.number 42]) w1
        = .ok (none, w3) ∧
      w3.pipes[0]? = some P3 ∧
      P3.pipe.written = [Frame.json (.object [("replyTo", .string "r1"),
        ("n", .string "__webpipe_reply:ping"), ("args", .array [.number 42])])] ∧
      (requestMsg 0 "ping" [.number 1, .number 2] "r1").Reply (variadic []) w1
        = .ok (none, w4) ∧
      w4.pipes[0]? = some P4 ∧
      P4.pipe.written = [Frame.json (.object [("replyTo", .string "r1"),
        ("n", .string "__webpipe_reply:ping"), ("args", .null)])] := by
  have h := reply_correlation_nil_args RangeOrder.listed World.pingRoom 0 WebPipe.pingRoom
    "ping" "r1" "s1" [.number 1, .number 2] 0 [] (by decide) (by decide)
    (by decide) (by decide)
  refine ⟨by decide, by decide, by decide, by decide, by decide, ?_⟩
  obtain ⟨_, _, _, _, hgo, hreply, _⟩ := h
  have hroom : ∀ s2 c, WebPipe.chanOf WebPipe.pingRoom "ping" s2 = some c →
      World.pingRoom.hasRoom c := by
    intro s2 c hc
    have hlt : c < 1 := WebPipe.WF.chanOf_lt (by decide) _ s2 c hc
    interval_cases c
    decide
  obtain ⟨w1, hl, hb⟩ := hgo hroom
  change messageLoop RangeOrder.listed 0 [ReadResult.ping] World.pingRoom = _ at hl
  have hp1 : w1.pipes[0]? = some WebPipe.pingRoom := by
    have h2 : messageLoop RangeOrder.listed 0 [ReadResult.ping] World.pingRoom
        = .blockedRead ⟨World.pingRoom.pipes,
            [⟨1, [requestMsg 0 "ping" [.number 1, .number 2] "r1"]⟩]⟩ := by
      decide
    rw [h2] at hl
    cases hw : w1.pipes[0]? with
    | none => simp [messageLoop, hw] at hl
    | some Q =>
      simp only [messageLoop, hw, messageLoop.loop, LoopExit.blockedRead.injEq] at hl
      rw [← hl] at hw
      rw [← hw]
      decide
  obtain ⟨w3, P3, hr3, hp3, hw3⟩ := hreply (variadic [.number 42]) w1 _ hp1
  obtain ⟨w4, P4, hr4, hp4, hw4⟩ := hreply (variadic []) w1 _ hp1
  refine ⟨w1, w3, P3, w4, P4, ?_, hb, hr3, hp3, hw3, hr4, hp4, hw4⟩
  rw [hl]
  simp [messageLoop, hp1, messageLoop.loop]

/-- C5: subscribing the same pair (event, subscriber) twice replaces the
channel. After `On(e, s)` returning `c1`, any registry calls, `On(e, s)`
returning `c2`, and any further registry calls that are not about the pair
`(e, s)`: the channels differ, the registry holds exactly one entry for `s`
under `e`, it is `c2`, and `c1` is registered nowhere. Every dispatch of a
message named `e` from then on, in any later heap in which the session has
that registry: never changes `c1`, never panics, adds one copy to `c2` when it
returns, and when it is suspended has served `c2` or has it pending; and it
does return, with the copy in `c2` and `c1` as it was, whenever the channels
registered for `e` have a free slot. -/
theorem On_twice_replaces (rt : RangeOrder) (w : World) (p : PipeRef) (P : WebPipe) (e s : String)
    (ops1 ops2 : List RegOp) (hp : w.pipes[p]? = some P) (hwf : P.WF w.chans.length)
    (hops2 : ∀ op ∈ ops2, op.pair ≠ (e, s)) :
    ∃ c1 w1 w1a c2 w2 w3 P3,
      WebPipe.On p e s w = .ok (c1, w1) ∧ runOps p ops1 w1 = .ok w1a ∧
      WebPipe.On p e s w1a = .ok (c2, w2) ∧ runOps p ops2 w2 = .ok w3 ∧
      w3.pipes[p]? = some P3 ∧
      c1 ≠ c2 ∧
      P3.chanOf e s = some c2 ∧
      (GoMap.keys (P3.subs e)).count s = 1 ∧
      (∀ e2 s2, P3.chanOf e2 s2 ≠ some c1) ∧
      ∀ (w5 : World) (P5 : WebPipe) (msg : Message), w5.pipes[p]? = some P5 →
        P5.subscribers = P3.subscribers → w3.chans.length ≤ w5.chans.length →
        msg.Name = e →
        (∀ w4, (WebPipe.dispatchMessage rt p msg w5).world? = some w4 →
          w4.buf c1 = w5.buf c1) ∧
        (∀ w4, WebPipe.dispatchMessage rt p msg w5 = .done w4 →
          w4.buf c2 = w5.buf c2 ++ [msg]) ∧
        (∀ w4 pending, WebPipe.dispatchMessage rt p msg w5 = .blocked w4 pending →
          c2 ∈ pending ∨ w4.buf c2 = w5.buf c2 ++ [msg]) ∧
        (∀ x, WebPipe.dispatchMessage rt p msg w5 ≠ .panic x) ∧
        ((∀ s2 c, P5.chanOf e s2 = some c → w5.hasRoom c) →
          ∃ w4, WebPipe.dispatchMessage rt p msg w5 = .done w4 ∧
            w4.buf c2 = w5.buf c2 ++ [msg] ∧ w4.buf c1 = w5.buf c1) := by
  obtain ⟨w1, a1, a2, a3, a4, _⟩ := WebPipe.On_step w p P e s hp hwf
  obtain ⟨w1a, P1a, b1, b2, b3, b4, _, _, b7⟩ := runOps_inv ops1 w1 p _ a2 a4
  obtain ⟨w2, d1, d2, d3, d4, _⟩ := WebPipe.On_step w1a p P1a e s b2 b3
  obtain ⟨w3, P3, f1, f2, f3, f4, _, f6, f7⟩ := runOps_inv ops2 w2 p _ d2 d4
  have hlen1 : w1.chans.length = w.chans.length + 1 := by simp [a3]
  have hlen2 : w2.chans.length = w1a.chans.length + 1 := by simp [d3]
  have hne : w.chans.length ≠ w1a.chans.length := by omega
  have hlt1 : w.chans.length < w1.chans.length := by omega
  have hlt2 : w.chans.length < w2.chans.length := by omega
  have hc2 : P3.chanOf e s = some w1a.chans.length := by
    rw [f6 e s hops2, WebPipe.chanOf_afterOn]
    simp
  have hgone : ∀ e2 s2, P3.chanOf e2 s2 ≠ some w.chans.length := by
    intro e2 s2 h3
    have h2 := f7 e2 s2 _ h3 hlt2
    rw [WebPipe.chanOf_afterOn] at h2
    by_cases hpair : e2 = e ∧ s2 = s
    · simp only [hpair, and_self, if_true, Option.some.injEq] at h2
      exact hne h2.symm
    · simp only [hpair, if_false] at h2
      have h1 := b7 e2 s2 _ h2 hlt1
      rw [WebPipe.chanOf_afterOn] at h1
      simp only [hpair, if_false] at h1
      exact Nat.lt_irrefl _ (hwf.chanOf_lt e2 s2 _ h1)
  refine ⟨w.chans.length, w1, w1a, w1a.chans.length, w2, w3, P3, a1, b1, d1, f1, f2, hne,
    hc2, ?_, hgone, ?_⟩
  · apply List.count_eq_one_of_mem (f3.subs_keys_nodup e)
    exact (GoMap.mem_keys_iff _ s).mpr ⟨_, hc2⟩
  · intro w5 P5 msg hp5 hsubs hlen hname
    subst hname
    have hof : ∀ e2 s2, P5.chanOf e2 s2 = P3.chanOf e2 s2 := by
      intro e2 s2
      simp only [WebPipe.chanOf, WebPipe.subs, hsubs]
    have hwf5 : P5.WF w5.chans.length := by
      have h3 := f3.mono hlen
      unfold WebPipe.WF WebPipe.chanRefs at h3 ⊢
      rw [hsubs]
      exact h3
    have hc5 : P5.chanOf msg.Name s = some w1a.chans.length := by rw [hof]; exact hc2
    have hgone5 : ∀ s2, P5.chanOf msg.Name s2 ≠ some w.chans.length := by
      intro s2
      rw [hof]
      exact hgone msg.Name s2
    obtain ⟨t1, t2, t3⟩ := WebPipe.dispatchMessage_target rt w5 p P5 msg hp5 hwf5 s _ hc5
    have tu := fun w4 h4 =>
      WebPipe.dispatchMessage_untouched rt w5 p P5 msg hp5 hwf5 _ hgone5 w4 h4
    refine ⟨tu, t1, t2, t3, ?_⟩
    intro hroom
    obtain ⟨w4, hd⟩ := WebPipe.dispatchMessage_progress rt w5 p P5 msg hp5 hwf5 hroom
    exact ⟨w4, hd, t1 w4 hd, tu w4 (by rw [hd]; rfl)⟩

/-- C5, at a concrete input: `On("chat", "a")` twice on a new session, then
`On("chat", "b")`, then a dispatch of a `chat` message: it returns, the
message is in the second channel and the first channel stays empty. -/
theorem On_twice_replaces_witness :
    World.single.pipes[0]? = some ⟨Conn.fresh, []⟩ ∧
    WebPipe.WF ⟨Conn.fresh, []⟩ World.single.chans.length ∧
    (∀ op ∈ [RegOp.callOn "chat" "b"], op.pair ≠ ("chat", "a")) ∧
    ∃ (c1 c2 : ChanRef) (w3 w4 : World) (P3 : WebPipe),
      c1 ≠ c2 ∧ w3.pipes[0]? = some P3 ∧ P3.chanOf "chat" "a" = some c2 ∧
      (GoMap.keys (P3.subs "chat")).count "a" = 1 ∧
      (∀ e2 s2, P3.chanOf e2 s2 ≠ some c1) ∧
      WebPipe.dispatchMessage RangeOrder.listed 0 Message.chat w3 = .done w4 ∧
      w4.buf c2 = [Message.chat] ∧ w4.buf c1 = [] := by
  refine ⟨by decide, by decide, by decide, ?_⟩
  obtain ⟨c1, w1, w1a, c2, w2, w3, P3, h1, h2, h3, h4, h5, h6, h7, h8, h9, hd⟩ :=
    On_twice_replaces RangeOrder.listed World.single 0 ⟨Conn.fresh, []⟩ "chat" "a" []
      [RegOp.callOn "chat" "b"] (by decide) (by decide) (by decide)
  have e1 : WebPipe.On 0 "chat" "a" World.single
      = .ok (0, ⟨[⟨Conn.fresh, [("chat", [("a", 0)])]⟩], [⟨1, []⟩]⟩) := by decide
  rw [e1] at h1
  cases h1
  cases h2
  have e3 : WebPipe.On 0 "chat" "a" ⟨[⟨Conn.fresh, [("chat", [("a", 0)])]⟩], [⟨1, []⟩]⟩
      = .ok (1, ⟨[⟨Conn.fresh, [("chat", [("a", 1)])]⟩], [⟨1, []⟩, ⟨1, []⟩]⟩) := by decide
  rw [e3] at h3
  cases h3
  have e4 : runOps 0 [RegOp.callOn "chat" "b"]
      ⟨[⟨Conn.fresh, [("chat", [("a", 1)])]⟩], [⟨1, []⟩, ⟨1, []⟩]⟩
      = .ok ⟨[⟨Conn.fresh, [("chat", [("a", 1), ("b", 2)])]⟩],
          [⟨1, []⟩, ⟨1, []⟩, ⟨1, []⟩]⟩ := by decide
  rw [e4] at h4
  cases h4
  have e5 : (World.mk [⟨Conn.fresh, [("chat", [("a", 1), ("b", 2)])]⟩]
      [⟨1, []⟩, ⟨1, []⟩, ⟨1, []⟩]).pipes[0]?
      = some ⟨Conn.fresh, [("chat", [("a", 1), ("b", 2)])]⟩ := by decide
  rw [e5] at h5
  cases h5
  have hroom : ∀ s2 c,
      WebPipe.chanOf ⟨Conn.fresh, [("chat", [("a", 1), ("b", 2)])]⟩ "chat" s2 = some c →
      World.hasRoom ⟨[⟨Conn.fresh, [("chat", [("a", 1), ("b", 2)])]⟩],
        [⟨1, []⟩, ⟨1, []⟩, ⟨1, []⟩]⟩ c := by
    intro s2 c hc
    have hlt : c < 3 := WebPipe.WF.chanOf_lt (by decide) _ s2 c hc
    interval_cases c <;> decide
  obtain ⟨w4, hdone, hb2, hb1⟩ :=
    (hd _ _ Message.chat e5 rfl (Nat.le_refl _) rfl).2.2.2.2 hroom
  exact ⟨0, 1, _, w4, _, h6, e5, h7, h8, h9, hdone, hb2, hb1⟩

/-- C6: `Off(e, s)` on an existing session never fails. Afterwards the pair
`(e, s)` is not registered, every other pair keeps its channel, and nothing
but the registry of that session is touched; if the pair was registered, no
later dispatch changes the channel it had; if the pair was absent (also when
the event never had a subscriber) the heap is exactly as before. -/
theorem Off_removes_only_pair (rt : RangeOrder) (w : World) (p : PipeRef) (P : WebPipe)
    (e s : String)
    (hp : w.pipes[p]? = some P) (hwf : P.WF w.chans.length) :
    ∃ w1 P1, WebPipe.Off p e s w = .ok w1 ∧ w1.pipes[p]? = some P1 ∧
      P1.chanOf e s = none ∧
      (∀ e2 s2, (e2, s2) ≠ (e, s) → P1.chanOf e2 s2 = P.chanOf e2 s2) ∧
      (P.chanOf e s = none → w1 = w) ∧
      (GoMap.index P.subscribers e = none → w1 = w) ∧
      w1.chans = w.chans ∧ P1.pipe = P.pipe ∧
      (∀ q, q ≠ p → w1.pipes[q]? = w.pipes[q]?) ∧
      (∀ c, P.chanOf e s = some c → ∀ (msg : Message) w2,
        (WebPipe.dispatchMessage rt p msg w1).world? = some w2 → w2.buf c = w1.buf c) := by
  obtain ⟨w1, P1, h1, h2, h3, h4, h5, h6, h7, h8⟩ := WebPipe.Off_step w p P e s hp hwf
  refine ⟨w1, P1, h1, h2, ?_, ?_, h8, ?_, h3, h5, h6, ?_⟩
  · rw [h7]
    simp
  · intro e2 s2 hne
    rw [h7]
    have : ¬ (e2 = e ∧ s2 = s) := by
      rintro ⟨rfl, rfl⟩
      exact hne rfl
    simp [this]
  · intro hi
    apply h8
    simp [WebPipe.chanOf, WebPipe.subs_of_absent P e hi, GoMap.index]
  · intro c hc msg w2 hd
    apply WebPipe.dispatchMessage_untouched rt w1 p P1 msg h2 h4 c _ w2 hd
    intro s2 hs2
    rw [h7] at hs2
    by_cases hpair : msg.Name = e ∧ s2 = s
    · simp [hpair] at hs2
    · simp only [hpair, if_false] at hs2
      obtain ⟨he, hs⟩ := hwf.chanOf_inj _ _ _ _ c hs2 hc
      exact hpair ⟨he, hs⟩

/-- C6, at a concrete input: `Off("chat", "a")` in the chat room. -/
theorem Off_removes_only_pair_witness :
    World.chatRoom.pipes[0]? = some WebPipe.chatRoom ∧
    WebPipe.chatRoom.WF World.chatRoom.chans.length ∧
    WebPipe.chatRoom.chanOf "chat" "a" = some 0 ∧
    ∃ w1 P1, WebPipe.Off 0 "chat" "a" World.chatRoom = .ok w1 ∧ w1.pipes[0]? = some P1 ∧
      P1.chanOf "chat" "a" = none ∧ P1.chanOf "chat" "b" = some 1 ∧
      P1.chanOf "news" "c" = some 2 := by
  refine ⟨by decide, by decide, by decide, ?_⟩
  obtain ⟨w1, P1, h1, h2, h3, h4, _⟩ :=
    Off_removes_only_pair RangeOrder.listed World.chatRoom 0 WebPipe.chatRoom "chat" "a"
      (by decide) (by decide)
  refine ⟨w1, P1, h1, h2, h3, ?_, ?_⟩
  · rw [h4 "chat" "b" (by decide)]
    decide
  · rw [h4 "news" "c" (by decide)]
    decide

/-- C7: a dispatch for a name without subscribers returns at once and leaves
the whole heap (registry, channels, connection) as it was: when the event was
never subscribed to, when its subscriber map is empty, and after `Off` has been
called for every subscriber the event had. -/
theorem dispatchMessage_no_subscribers (rt : RangeOrder) (w : World) (p : PipeRef) (P : WebPipe)
    (msg : Message) (hp : w.pipes[p]? = some P) :
    (GoMap.index P.subscribers msg.Name = none →
      WebPipe.dispatchMessage rt p msg w = .done w) ∧
    (P.subs msg.Name = [] → WebPipe.dispatchMessage rt p msg w = .done w) ∧
    (∀ names, P.WF w.chans.length → (∀ s ∈ GoMap.keys (P.subs msg.Name), s ∈ names) →
      ∃ w1 P1, offAll p msg.Name names w = .ok w1 ∧ w1.pipes[p]? = some P1 ∧
        P1.subs msg.Name = [] ∧ WebPipe.dispatchMessage rt p msg w1 = .done w1) := by
  refine ⟨?_, WebPipe.dispatchMessage_nil rt w p P msg hp, ?_⟩
  · intro hi
    exact WebPipe.dispatchMessage_nil rt w p P msg hp (WebPipe.subs_of_absent P _ hi)
  · intro names hwf hall
    obtain ⟨w1, P1, h1, h2, _, _, h5⟩ := offAll_inv names msg.Name w p P hp hwf
    have hnil : P1.subs msg.Name = [] := by
      apply WebPipe.subs_nil_of_chanOf
      intro s
      rw [h5]
      by_cases hs : s ∈ names
      · simp [hs]
      · simp only [hs, and_false, if_false]
        cases hc : P.chanOf msg.Name s with
        | none => rfl
        | some c => exact absurd (hall s ((GoMap.mem_keys_iff _ s).mpr ⟨c, hc⟩)) hs
    exact ⟨w1, P1, h1, h2, hnil, WebPipe.dispatchMessage_nil rt w1 p P1 msg h2 hnil⟩

/-- C7, at concrete inputs: a `chat` message on a new session, and in the chat
room after both `chat` subscribers were removed. -/
theorem dispatchMessage_no_subscribers_witness :
    World.single.pipes[0]? = some ⟨Conn.fresh, []⟩ ∧
    World.chatRoom.pipes[0]? = some WebPipe.chatRoom ∧
    WebPipe.dispatchMessage RangeOrder.listed 0 Message.chat World.single = .done World.single ∧
    ∃ w1, offAll 0 "chat" ["a", "b"] World.chatRoom = .ok w1 ∧
      WebPipe.dispatchMessage RangeOrder.listed 0 Message.chat w1 = .done w1 := by
  refine ⟨by decide, by decide, ?_, ?_⟩
  · exact (dispatchMessage_no_subscribers RangeOrder.listed World.single 0 ⟨Conn.fresh, []⟩
      Message.chat (by decide)).1 (by decide)
  · obtain ⟨w1, _, h1, _, _, h4⟩ :=
      (dispatchMessage_no_subscribers RangeOrder.listed World.chatRoom 0 WebPipe.chatRoom
        Message.chat (by decide)).2.2 ["a", "b"] (by decide) (by decide)
    exact ⟨w1, h1, h4⟩

/-- C8, what the code does: for every document with a string `n` and a
sequence `args` but no `requestId` key, `newMessage` does not return a message:
the type assertion on `msg["requestId"]` panics; and the read loop that meets
such a frame ends in that panic. -/
theorem newMessage_without_requestId_panics (rt : RangeOrder) (w : World) (p : PipeRef)
    (P : WebPipe)
    (doc : JSONObject) (e : String) (xs : List JSONValue) (rest : List ReadResult)
    (hp : w.pipes[p]? = some P)
    (hn : GoMap.index doc "n" = some (.string e))
    (ha : GoMap.index doc "args" = some (.array xs))
    (hr : GoMap.index doc "requestId" = none) :
    WebPipe.newMessage p doc = .error (.interfaceConversion "requestId") ∧
    (∀ m, WebPipe.newMessage p doc ≠ .ok m) ∧
    messageLoop rt p (.json (.object doc) :: rest) w
      = .panicked (.interfaceConversion "requestId") (closePipe p w) rest := by
  have h := newMessage_requestId_absent p doc e xs hn ha hr
  refine ⟨h, ?_, ?_⟩
  · intro m hm
    rw [h] at hm
    cases hm
  · rw [messageLoop_valid rt w p P _ hp]
    simp only [messageLoop.loop, h]

/-- C8, at the failing input `{n: "ping", args: [1, 2]}`. -/
theorem newMessage_without_requestId_panics_witness :
    World.pingRoom.pipes[0]? = some WebPipe.pingRoom ∧
    GoMap.index [("n", JSONValue.string "ping"), ("args", .array [.number 1, .number 2])] "n"
      = some (.string "ping") ∧
    GoMap.index [("n", JSONValue.string "ping"), ("args", .array [.number 1, .number 2])] "args"
      = some (.array [.number 1, .number 2]) ∧
    GoMap.index [("n", JSONValue.string "ping"), ("args", .array [.number 1, .number 2])]
      "requestId" = none ∧
    WebPipe.newMessage 0 [("n", .string "ping"), ("args", .array [.number 1, .number 2])]
      = .error (.interfaceConversion "requestId") :=
  ⟨by decide, by decide, by decide, by decide,
    (newMessage_without_requestId_panics RangeOrder.listed World.pingRoom 0 WebPipe.pingRoom
      [("n", .string "ping"), ("args", .array [.number 1, .number 2])] "ping"
      [.number 1, .number 2] [] (by decide) (by decide) (by decide) (by decide)).1⟩

/-- C9, what the code does: `Emit` writes the document with `n` the event name
and `args` the slice of arguments as the encoder writes it, and `newMessage`
on that document does not return a message for any event name and any
arguments: when at least one argument is given the document is
`{n: e, args: xs}` and `newMessage` panics on the missing `requestId`; when
none is given `args` is `null` and it panics on `args`. -/
theorem Emit_document_does_not_decode (w : World) (p q : PipeRef) (P : WebPipe) (e : String)
    (a : GoSlice) (hp : w.pipes[p]? = some P) :
    (∃ w1 P1, WebPipe.Emit p e a w = .ok w1 ∧ w1.pipes[p]? = some P1 ∧
      P1.pipe.written = P.pipe.written ++
        [Frame.json (.object [("n", .string e), ("args", a.toJSON)])]) ∧
    (∀ xs, WebPipe.newMessage q [("n", .string e), ("args", .array xs)]
      = .error (.interfaceConversion "requestId")) ∧
    (∀ xs, a = .elems xs → emitDoc e a = [("n", .string e), ("args", .array xs)] ∧
      WebPipe.newMessage q (emitDoc e a) = .error (.interfaceConversion "requestId")) ∧
    (a = .nil →
      WebPipe.newMessage q (emitDoc e a) = .error (.interfaceConversion "args")) ∧
    ∀ m, WebPipe.newMessage q (emitDoc e a) ≠ .ok m := by
  have h : ∀ xs, WebPipe.newMessage q [("n", .string e), ("args", .array xs)]
      = .error (.interfaceConversion "requestId") := fun xs =>
    newMessage_requestId_absent q _ e xs (by simp [GoMap.index]) (by simp [GoMap.index])
      (by simp [GoMap.index])
  have hnil : WebPipe.newMessage q (emitDoc e .nil) = .error (.interfaceConversion "args") :=
    newMessage_args_null q _ e (by simp [emitDoc, GoMap.index])
      (by simp [emitDoc, GoMap.index, GoSlice.toJSON])
  refine ⟨?_, h, ?_, ?_, ?_⟩
  · obtain ⟨w1, P1, h1, h2, h3, _⟩ := WebPipe.Emit_effect w p P e a hp
    exact ⟨w1, P1, h1, h2, h3⟩
  · intro xs ha
    subst ha
    exact ⟨rfl, h xs⟩
  · intro ha
    subst ha
    exact hnil
  · intro m hm
    cases a with
    | nil =>
      rw [hnil] at hm
      cases hm
    | elems xs =>
      have h2 := h xs
      change WebPipe.newMessage q (emitDoc e (.elems xs)) = _ at h2
      rw [h2] at hm
      cases hm

/-- C9, at the failing input `Emit("ping", 1, 2)`. -/
theorem Emit_document_does_not_decode_witness :
    World.pingRoom.pipes[0]? = some WebPipe.pingRoom ∧
    WebPipe.newMessage 0 (emitDoc "ping" (variadic [.number 1, .number 2]))
      = .error (.interfaceConversion "requestId") :=
  ⟨by decide,
    ((Emit_document_does_not_decode World.pingRoom 0 0 WebPipe.pingRoom
      "ping" (variadic [.number 1, .number 2]) (by decide)).2.2.1
        [.number 1, .number 2] rfl).2⟩

/-- C10, what the code does: when `n` is absent or not a string, or `args` is
not a sequence, `newMessage` panics; the read loop does not get to dispatch
(channels and registry stay as they were) and reads no further frame, the
deferred `Close` closes the connection once, and the loop ends in the panic,
not in a controlled exit. -/
theorem malformed_envelope_panics (rt : RangeOrder) (w : World) (p : PipeRef) (P : WebPipe)
    (doc : JSONObject)
    (rest : List ReadResult) (hp : w.pipes[p]? = some P)
    (hbad : (∀ e, GoMap.index doc "n" ≠ some (.string e)) ∨
      (∀ xs, GoMap.index doc "args" ≠ some (.array xs))) :
    (∃ k, WebPipe.newMessage p doc = .error (.interfaceConversion k)) ∧
    ∃ k w1 P1, messageLoop rt p (.json (.object doc) :: rest) w
        = .panicked (.interfaceConversion k) w1 rest ∧
      w1.chans = w.chans ∧ w1.pipes[p]? = some P1 ∧
      P1.subscribers = P.subscribers ∧ P1.pipe.closed = P.pipe.closed + 1 ∧
      P1.pipe.written = P.pipe.written := by
  have hclose : ∃ P1, (closePipe p w).pipes[p]? = some P1 ∧
      P1.subscribers = P.subscribers ∧ P1.pipe.closed = P.pipe.closed + 1 ∧
      P1.pipe.written = P.pipe.written := by
    refine ⟨⟨P.pipe.Close, P.subscribers⟩, ?_, rfl, rfl, rfl⟩
    simp only [closePipe, hp]
    rw [World.setPipe_pipe w p p P _ hp]
    simp
  have hchans : (closePipe p w).chans = w.chans := by
    simp only [closePipe, hp]
    rfl
  have hnew : ∃ k, WebPipe.newMessage p doc = .error (.interfaceConversion k) := by
    rcases hbad with hn | ha
    · refine ⟨"n", ?_⟩
      unfold WebPipe.newMessage
      cases h : GoMap.index doc "n" with
      | none => simp [assertString]
      | some v =>
        cases v with
        | string e => exact absurd h (hn e)
        | null => simp [assertString]
        | bool b => simp [assertString]
        | number n => simp [assertString]
        | array ys => simp [assertString]
        | object kvs => simp [assertString]
    · cases h1 : assertString "n" (GoMap.index doc "n") with
      | error x =>
        refine ⟨"n", ?_⟩
        have hx : x = .interfaceConversion "n" := by
          unfold assertString at h1
          split at h1
          · cases h1
          · cases h1
            rfl
        simp [WebPipe.newMessage, h1, hx]
      | ok name =>
        refine ⟨"args", ?_⟩
        unfold WebPipe.newMessage
        simp only [h1]
        cases h : GoMap.index doc "args" with
        | none => simp [assertSlice]
        | some v =>
          cases v with
          | array ys => exact absurd h (ha ys)
          | null => simp [assertSlice]
          | bool b => simp [assertSlice]
          | number n => simp [assertSlice]
          | string e => simp [assertSlice]
          | object kvs => simp [assertSlice]
  refine ⟨hnew, ?_⟩
  obtain ⟨k, hk⟩ := hnew
  obtain ⟨P1, h1, h2, h3, h4⟩ := hclose
  refine ⟨k, closePipe p w, P1, ?_, hchans, h1, h2, h3, h4⟩
  rw [messageLoop_valid rt w p P _ hp]
  simp only [messageLoop.loop, hk]

/-- C10, at the failing input `{args: []}` (no `n`), followed by a well-formed
frame that is never read. -/
theorem malformed_envelope_panics_witness :
    World.pingRoom.pipes[0]? = some WebPipe.pingRoom ∧
    (∀ e, GoMap.index [("args", JSONValue.array [])] "n" ≠ some (.string e)) ∧
    (∃ k, WebPipe.newMessage 0 [("args", .array [])] = .error (.interfaceConversion k)) ∧
    messageLoop RangeOrder.listed 0 [.json (.object [("args", .array [])]),
        .json (.object (requestDoc "ping" [] "r1"))] World.pingRoom
      = .panicked (.interfaceConversion "n")
          ⟨[⟨⟨[], [], 1⟩, [("ping", [("s1", 0)])]⟩], [⟨1, []⟩]⟩
          [.json (.object (requestDoc "ping" [] "r1"))] :=
  ⟨by decide, fun e => by simp [GoMap.index],
    (malformed_envelope_panics RangeOrder.listed World.pingRoom 0 WebPipe.pingRoom
      [("args", .array [])] [.json (.object (requestDoc "ping" [] "r1"))] (by decide)
      (Or.inl (fun e => by simp [GoMap.index]))).1,
    by decide⟩

/-- C16, what the code does: `Emit` on an existing session makes exactly one
write on its connection: the list of written frames grows by the one document
whose keys are exactly `n` and `args`, with `n` the event name and `args` the
slice of arguments as the encoder writes it, so it has neither `requestId` nor
`replyTo`; other sessions are not written to. For a call `Emit(e, xs...)` that
lists its arguments, `args` is the sequence `xs` exactly when at least one
argument is given: `Emit(e)` passes the nil slice and the document carries
`args: null`, not the empty sequence, a document that `newMessage` of this
package rejects at `args`. -/
theorem Emit_nil_args_written_as_null (w : World) (p : PipeRef) (P : WebPipe) (e : String)
    (a : GoSlice) (hp : w.pipes[p]? = some P) :
    ∃ w1 P1, WebPipe.Emit p e a w = .ok w1 ∧ w1.pipes[p]? = some P1 ∧
      P1.pipe.written = P.pipe.written ++ [Frame.json (.object (emitDoc e a))] ∧
      GoMap.keys (emitDoc e a) = ["n", "args"] ∧
      GoMap.index (emitDoc e a) "n" = some (.string e) ∧
      GoMap.index (emitDoc e a) "args" = some a.toJSON ∧
      (∀ xs, a = variadic xs → (a.toJSON = .array xs ↔ xs ≠ [])) ∧
      (a = variadic [] → a.toJSON = .null ∧
        ∀ q, WebPipe.newMessage q (emitDoc e a) = .error (.interfaceConversion "args")) ∧
      GoMap.index (emitDoc e a) "requestId" = none ∧
      GoMap.index (emitDoc e a) "replyTo" = none ∧
      (∀ k, k ≠ "n" → k ≠ "args" → GoMap.index (emitDoc e a) k = none) ∧
      ∀ q, q ≠ p → w1.pipes[q]? = w.pipes[q]? := by
  obtain ⟨w1, P1, h1, h2, h3, _, _, _, h7⟩ := WebPipe.Emit_effect w p P e a hp
  refine ⟨w1, P1, h1, h2, h3, rfl, ?_, ?_, ?_, ?_, ?_, ?_, ?_, h7⟩
  · simp [emitDoc, GoMap.index]
  · simp [emitDoc, GoMap.index]
  · intro xs ha
    rw [ha]
    exact variadic_toJSON xs
  · intro ha
    subst ha
    exact ⟨rfl, fun q => newMessage_args_null q _ e (by simp [emitDoc, GoMap.index])
      (by simp [emitDoc, GoMap.index, variadic, GoSlice.toJSON])⟩
  · simp [emitDoc, GoMap.index]
  · simp [emitDoc, GoMap.index]
  · intro k hn ha
    simp [emitDoc, GoMap.index, Ne.symm hn, Ne.symm ha]

/-- C16, at the failing input: `Emit("ping")` without arguments on a new session
writes `{n: "ping", args: null}`, which is not the document with the empty
sequence the claim describes. -/
theorem Emit_nil_args_written_as_null_witness :
    World.single.pipes[0]? = some ⟨Conn.fresh, []⟩ ∧
    ∃ w1 P1, WebPipe.Emit 0 "ping" (variadic []) World.single = .ok w1 ∧
      w1.pipes[0]? = some P1 ∧
      P1.pipe.written = [Frame.json (.object [("n", .string "ping"), ("args", .null)])] ∧
      P1.pipe.written ≠ [Frame.json (.object [("n", .string "ping"), ("args", .array [])])] ∧
      WebPipe.newMessage 0 (emitDoc "ping" (variadic []))
        = .error (.interfaceConversion "args") := by
  refine ⟨by decide, ?_⟩
  obtain ⟨w1, P1, h1, h2, h3, _, _, _, _, h8, _⟩ :=
    Emit_nil_args_written_as_null World.single 0 ⟨Conn.fresh, []⟩ "ping" (variadic [])
      (by decide)
  refine ⟨w1, P1, h1, h2, h3, ?_, (h8 rfl).2 0⟩
  rw [h3]
  decide

/-- C19: `On(e, s)` on an existing session registers the channel it returns
under the pair `(e, s)` and leaves the channel of every other pair as it was,
whether `e` had subscribers or not (nothing is assumed of the registry); the
session's connection, the other sessions and the channels that existed are
untouched, so nothing is written. -/
theorem On_frame (w : World) (p : PipeRef) (P : WebPipe) (e s : String)
    (hp : w.pipes[p]? = some P) :
    ∃ ch w1 P1, WebPipe.On p e s w = .ok (ch, w1) ∧ w1.pipes[p]? = some P1 ∧
      P1.chanOf e s = some ch ∧
      (∀ e2 s2, (e2, s2) ≠ (e, s) → P1.chanOf e2 s2 = P.chanOf e2 s2) ∧
      P1.pipe = P.pipe ∧
      (∀ q, q ≠ p → w1.pipes[q]? = w.pipes[q]?) ∧
      (∀ c, c < w.chans.length → w1.chans[c]? = w.chans[c]?) := by
  have hp1 : (w.makeChan 1).1.pipes[p]? = some P := hp
  refine ⟨w.chans.length, _, P.afterOn e s w.chans.length, WebPipe.On_ok w p P e s hp,
    ?_, ?_, ?_, rfl, ?_, ?_⟩
  · rw [World.setPipe_pipe _ p p P _ hp1]
    simp
  · rw [WebPipe.chanOf_afterOn]
    simp
  · intro e2 s2 hne
    rw [WebPipe.chanOf_afterOn]
    have : ¬ (e2 = e ∧ s2 = s) := by
      rintro ⟨rfl, rfl⟩
      exact hne rfl
    simp [this]
  · intro q hq
    rw [World.setPipe_pipe _ p q P _ hp1]
    simp [hq]
    rfl
  · intro c hc
    show (w.chans ++ [_])[c]? = w.chans[c]?
    exact List.getElem?_append_left hc

/-- C19, at a concrete input: `On("chat", "z")` in the chat room. -/
theorem On_frame_witness :
    World.chatRoom.pipes[0]? = some WebPipe.chatRoom ∧
    ∃ ch w1 P1, WebPipe.On 0 "chat" "z" World.chatRoom = .ok (ch, w1) ∧
      w1.pipes[0]? = some P1 ∧ P1.chanOf "chat" "z" = some ch ∧
      P1.chanOf "chat" "a" = some 0 ∧ P1.chanOf "news" "c" = some 2 ∧
      P1.pipe = WebPipe.chatRoom.pipe := by
  refine ⟨by decide, ?_⟩
  obtain ⟨ch, w1, P1, h1, h2, h3, h4, h5, _⟩ :=
    On_frame World.chatRoom 0 WebPipe.chatRoom "chat" "z" (by decide)
  refine ⟨ch, w1, P1, h1, h2, h3, ?_, ?_, h5⟩
  · rw [h4 "chat" "a" (by decide)]
    decide
  · rw [h4 "news" "c" (by decide)]
    decide

/-- C15, as the claim states it, fails: a write that fails and a write that
succeeds leave `Emit` with the same result, so the caller cannot tell them
apart. -/
theorem Emit_reports_nothing :
    (Conn.WriteJSON ⟨[], [some "broken pipe"], 0⟩
      (.object (emitDoc "ping" (variadic [])))).2
      = some (.transport "broken pipe") ∧
    (Conn.WriteJSON Conn.fresh (.object (emitDoc "ping" (variadic [])))).2 = none ∧
    WebPipe.Emit 0 "ping" (variadic []) World.failingWrite
      = WebPipe.Emit 0 "ping" (variadic []) World.single := by
  decide

/-- C15, amended: `Emit` on an existing session returns nothing about the
write: whatever the outcome of the write, failure or success, the call ends in
the same way with the same heap; it does not close the connection, and leaves
the registry, the channels and the other sessions as they were. -/
theorem Emit_discards_write_outcome (w : World) (p : PipeRef) (P : WebPipe) (e : String)
    (xs : GoSlice) (hp : w.pipes[p]? = some P) :
    ∃ w1 P1, WebPipe.Emit p e xs w = .ok w1 ∧ w1.pipes[p]? = some P1 ∧
      P1.pipe.closed = P.pipe.closed ∧
      P1.subscribers = P.subscribers ∧
      w1.chans = w.chans ∧
      (∀ q, q ≠ p → w1.pipes[q]? = w.pipes[q]?) ∧
      ∀ outcome : Option String,
        WebPipe.Emit p e xs (w.setPipe p ⟨⟨P.pipe.written,
          outcome :: P.pipe.writeErrs.tail, P.pipe.closed⟩, P.subscribers⟩) = .ok w1 := by
  obtain ⟨w1, P1, h1, h2, _, h4, h5, h6, h7⟩ := WebPipe.Emit_effect w p P e xs hp
  refine ⟨w1, P1, h1, h2, h4, h5, h6, h7, ?_⟩
  intro outcome
  have hlt := World.lt_of_pipe hp
  have hq : (w.setPipe p ⟨⟨P.pipe.written, outcome :: P.pipe.writeErrs.tail,
      P.pipe.closed⟩, P.subscribers⟩).pipes[p]?
      = some ⟨⟨P.pipe.written, outcome :: P.pipe.writeErrs.tail, P.pipe.closed⟩,
          P.subscribers⟩ := by
    rw [World.setPipe_pipe w p p P _ hp]
    simp
  simp only [WebPipe.Emit, hp, hq, Except.ok.injEq] at h1 ⊢
  rw [← h1]
  simp [World.setPipe, Conn.WriteJSON, Conn.write, List.set_set]

/-- C15 amended, at a concrete input: `Emit` on a session whose write fails. -/
theorem Emit_discards_write_outcome_witness :
    World.failingWrite.pipes[0]? = some ⟨⟨[], [some "broken pipe"], 0⟩, []⟩ ∧
    ∃ w1 P1, WebPipe.Emit 0 "ping" (variadic []) World.failingWrite = .ok w1 ∧
      w1.pipes[0]? = some P1 ∧ P1.pipe.closed = 0 ∧ P1.subscribers = [] := by
  refine ⟨by decide, ?_⟩
  obtain ⟨w1, P1, h1, h2, h3, h4, _⟩ :=
    Emit_discards_write_outcome World.failingWrite 0 ⟨⟨[], [some "broken pipe"], 0⟩, []⟩
      "ping" (variadic []) (by decide)
  exact ⟨w1, P1, h1, h2, h3, h4⟩

/-! ## Handshake -/

theorem bytesCompare_eq_zero (a b : List UInt8) : bytesCompare a b = 0 ↔ a = b := by
  induction a generalizing b with
  | nil => cases b <;> simp [bytesCompare]
  | cons x xs ih =>
    cases b with
    | nil => simp [bytesCompare]
    | cons y ys =>
      simp only [bytesCompare]
      by_cases h1 : x.toNat < y.toNat
      · simp only [h1, if_true]
        constructor
        · intro h
          simp at h
        · intro h
          simp only [List.cons.injEq] at h
          rw [h.1] at h1
          exact absurd h1 (Nat.lt_irrefl _)
      · by_cases h2 : y.toNat < x.toNat
        · simp only [h1, h2, if_true, if_false]
          constructor
          · intro h
            simp at h
          · intro h
            simp only [List.cons.injEq] at h
            rw [h.1] at h2
            exact absurd h2 (Nat.lt_irrefl _)
        · have hxy : x = y := UInt8.ext (by omega)
          subst hxy
          simp [ih]

theorem PeerRead.shaken_iff (r : PeerRead) :
    r.shaken = true ↔ r.err = none ∧ r.messageType = TextMessage ∧ r.data = handshakeKey := by
  unfold PeerRead.shaken
  simp only [Bool.and_eq_true, Option.isNone_iff_eq_none, beq_iff_eq, bytesCompare_eq_zero]

theorem handshakeKey_bytes : handshakeKey = [87, 69, 66, 80, 73, 80, 69, 49] := by
  decide

theorem shakeHands_shaken (w : World) (p : PipeRef) (P : WebPipe) (tie : Bool)
    (reads : List PeerRead) (t : Nat) (hp : w.pipes[p]? = some P)
    (hs : handsShakenAt reads = some t)
    (hin : t < HANDSHAKE_TIMEOUT ∨ (t = HANDSHAKE_TIMEOUT ∧ tie = false)) :
    ∃ w1 P1, shakeHands p tie reads w = .ok (⟨true, t⟩, w1) ∧ w1.pipes[p]? = some P1 ∧
      P1.pipe.written = P.pipe.written ++ [Frame.message TextMessage handshakeKey] ∧
      P1.pipe.closed = P.pipe.closed ∧ P1.subscribers = P.subscribers ∧
      w1.chans = w.chans ∧ ∀ q, q ≠ p → w1.pipes[q]? = w.pipes[q]? := by
  refine ⟨w.setPipe p ⟨(P.pipe.WriteMessage TextMessage handshakeKey).1, P.subscribers⟩,
    ⟨(P.pipe.WriteMessage TextMessage handshakeKey).1, P.subscribers⟩,
    ?_, ?_, ?_, ?_, rfl, rfl, ?_⟩
  · simp only [shakeHands, hp, hs, hin, if_true]
  · rw [World.setPipe_pipe w p p P _ hp]
    simp
  · simp [Conn.WriteMessage, Conn.write]
  · simp [Conn.WriteMessage, Conn.write]
  · intro q hq
    rw [World.setPipe_pipe w p q P _ hp]
    simp [hq]

theorem shakeHands_timedOut (w : World) (p : PipeRef) (P : WebPipe) (tie : Bool)
    (reads : List PeerRead) (hp : w.pipes[p]? = some P)
    (hlate : ∀ t, handsShakenAt reads = some t →
      HANDSHAKE_TIMEOUT < t ∨ (t = HANDSHAKE_TIMEOUT ∧ tie = true)) :
    ∃ w1 P1, shakeHands p tie reads w = .ok (⟨false, HANDSHAKE_TIMEOUT⟩, w1) ∧
      w1.pipes[p]? = some P1 ∧
      P1.pipe.written = P.pipe.written ++ [Frame.message TextMessage handshakeKey,
        Frame.message TextMessage (asciiBytes "ERROR")] ∧
      P1.pipe.closed = P.pipe.closed ∧ P1.subscribers = P.subscribers ∧
      w1.chans = w.chans ∧ ∀ q, q ≠ p → w1.pipes[q]? = w.pipes[q]? := by
  refine ⟨w.setPipe p ⟨((P.pipe.WriteMessage TextMessage handshakeKey).1.WriteMessage
      TextMessage (asciiBytes "ERROR")).1, P.subscribers⟩,
    ⟨((P.pipe.WriteMessage TextMessage handshakeKey).1.WriteMessage
      TextMessage (asciiBytes "ERROR")).1, P.subscribers⟩,
    ?_, ?_, ?_, ?_, rfl, rfl, ?_⟩
  · cases hs : handsShakenAt reads with
    | none => simp only [shakeHands, hp, hs]
    | some t =>
      have hnot : ¬ (t < HANDSHAKE_TIMEOUT ∨ (t = HANDSHAKE_TIMEOUT ∧ tie = false)) := by
        rcases hlate t hs with h | ⟨h1, h2⟩
        · intro hh
          rcases hh with h3 | ⟨h3, _⟩
          · omega
          · omega
        · intro hh
          rcases hh with h3 | ⟨_, h4⟩
          · omega
          · rw [h2] at h4
            cases h4
      simp only [shakeHands, hp, hs, hnot, if_false]
  · rw [World.setPipe_pipe w p p P _ hp]
    simp
  · simp [Conn.WriteMessage, Conn.write]
  · simp [Conn.WriteMessage, Conn.write]
  · intro q hq
    rw [World.setPipe_pipe w p q P _ hp]
    simp [hq]

theorem New_heap (w : World) (conn : Conn) :
    (⟨w.pipes ++ [⟨conn, []⟩], w.chans⟩ : World).pipes[w.pipes.length]?
      = some ⟨conn, []⟩ := by
  simp

/-- C11: handshake success. When the first frame the peer sends is a text frame
whose payload is byte for byte `WEBPIPE1` and it is read before the timeout of
2000 ms, `shakeHands` writes exactly one frame, the text frame `WEBPIPE1`,
returns true and writes no `ERROR` frame; `New` then returns the new session
with a nil error: its registry is empty, its connection has not been closed,
and the rest of the heap is as before. -/
theorem handshake_success (w : World) (conn : Conn) (tie : Bool) (r : PeerRead)
    (rest : List PeerRead) (herr : r.err = none) (htext : r.messageType = TextMessage)
    (hdata : r.data = handshakeKey) (htime : r.arrival < HANDSHAKE_TIMEOUT) :
    handshakeKey = asciiBytes "WEBPIPE1" ∧ HANDSHAKE_TIMEOUT = 2000 ∧
    (∀ p P, w.pipes[p]? = some P →
      ∃ w1 P1, shakeHands p tie (r :: rest) w = .ok (⟨true, r.arrival⟩, w1) ∧
        w1.pipes[p]? = some P1 ∧
        P1.pipe.written = P.pipe.written ++ [Frame.message TextMessage handshakeKey] ∧
        P1.pipe.closed = P.pipe.closed ∧ P1.subscribers = P.subscribers) ∧
    ∃ w1 P1, New (.ok conn) tie (r :: rest) w = .ok ((some w.pipes.length, none), w1) ∧
      w1.pipes[w.pipes.length]? = some P1 ∧
      P1.subscribers = [] ∧
      P1.pipe.closed = conn.closed ∧
      P1.pipe.written = conn.written ++ [Frame.message TextMessage handshakeKey] ∧
      w1.chans = w.chans ∧
      ∀ q, q < w.pipes.length → w1.pipes[q]? = w.pipes[q]? := by
  have hs : handsShakenAt (r :: rest) = some r.arrival := by
    have : r.shaken = true := (PeerRead.shaken_iff r).mpr ⟨herr, htext, hdata⟩
    simp [handsShakenAt, this]
  refine ⟨rfl, rfl, ?_, ?_⟩
  · intro p P hp
    obtain ⟨w1, P1, h1, h2, h3, h4, h5, _⟩ :=
      shakeHands_shaken w p P tie (r :: rest) r.arrival hp hs (Or.inl htime)
    exact ⟨w1, P1, h1, h2, h3, h4, h5⟩
  · obtain ⟨w1, P1, h1, h2, h3, h4, h5, h6, h7⟩ :=
      shakeHands_shaken ⟨w.pipes ++ [⟨conn, []⟩], w.chans⟩ w.pipes.length ⟨conn, []⟩ tie
        (r :: rest) r.arrival (New_heap w conn) hs (Or.inl htime)
    refine ⟨w1, P1, ?_, h2, h5, h4, h3, h6, ?_⟩
    · simp only [New, h1, if_true]
    · intro q hq
      rw [h7 q (Nat.ne_of_lt hq)]
      exact List.getElem?_append_left hq

/-- C11, at a concrete input: the peer echoes the token after 15 ms. -/
theorem handshake_success_witness :
    PeerRead.echo.err = none ∧ PeerRead.echo.messageType = TextMessage ∧
    PeerRead.echo.data = handshakeKey ∧ PeerRead.echo.arrival < HANDSHAKE_TIMEOUT ∧
    ∃ w1 P1, New (.ok Conn.fresh) true [PeerRead.echo] World.empty
        = .ok ((some 0, none), w1) ∧
      w1.pipes[0]? = some P1 ∧ P1.subscribers = [] ∧ P1.pipe.closed = 0 ∧
      P1.pipe.written = [Frame.message 1 [87, 69, 66, 80, 73, 80, 69, 49]] := by
  refine ⟨by decide, by decide, by decide, by decide, ?_⟩
  obtain ⟨w1, P1, h1, h2, h3, h4, h5, _⟩ :=
    (handshake_success World.empty Conn.fresh true PeerRead.echo [] (by decide) (by decide)
      (by decide) (by decide)).2.2.2
  refine ⟨w1, P1, h1, h2, h3, h4, ?_⟩
  rw [h5, handshakeKey_bytes]
  rfl

/-- C12: handshake failure. When no matching token is received before the
timeout (none ever, or only after 2000 ms), `shakeHands` writes the text frame
`WEBPIPE1` and then the text frame `ERROR`, whatever the outcome of the writes,
and returns false once the timeout has elapsed; `New` then closes the
connection exactly once and returns no session together with an error; the
frames written are exactly `WEBPIPE1`, `ERROR` in that order. -/
theorem handshake_failure (w : World) (conn : Conn) (tie : Bool) (reads : List PeerRead)
    (hlate : ∀ t, handsShakenAt reads = some t →
      HANDSHAKE_TIMEOUT < t ∨ (t = HANDSHAKE_TIMEOUT ∧ tie = true)) :
    (∀ p P, w.pipes[p]? = some P →
      ∃ w1 P1, shakeHands p tie reads w = .ok (⟨false, HANDSHAKE_TIMEOUT⟩, w1) ∧
        w1.pipes[p]? = some P1 ∧
        P1.pipe.written = P.pipe.written ++ [Frame.message TextMessage (asciiBytes "WEBPIPE1"),
          Frame.message TextMessage (asciiBytes "ERROR")] ∧
        P1.pipe.closed = P.pipe.closed ∧ P1.subscribers = P.subscribers) ∧
    ∃ w1 P1, New (.ok conn) tie reads w
        = .ok ((none, some (.errorsNew "webpipe: handshake failed!")), w1) ∧
      w1.pipes[w.pipes.length]? = some P1 ∧
      P1.pipe.closed = conn.closed + 1 ∧
      P1.pipe.written = conn.written ++ [Frame.message TextMessage (asciiBytes "WEBPIPE1"),
        Frame.message TextMessage (asciiBytes "ERROR")] ∧
      w1.chans = w.chans ∧
      ∀ q, q < w.pipes.length → w1.pipes[q]? = w.pipes[q]? := by
  constructor
  · intro p P hp
    obtain ⟨w1, P1, h1, h2, h3, h4, h5, _⟩ := shakeHands_timedOut w p P tie reads hp hlate
    exact ⟨w1, P1, h1, h2, h3, h4, h5⟩
  · obtain ⟨w1, P1, h1, h2, h3, h4, h5, h6, h7⟩ :=
      shakeHands_timedOut ⟨w.pipes ++ [⟨conn, []⟩], w.chans⟩ w.pipes.length ⟨conn, []⟩
        tie reads (New_heap w conn) hlate
    refine ⟨closePipe w.pipes.length w1, ⟨P1.pipe.Close, P1.subscribers⟩, ?_, ?_, ?_, ?_,
      ?_, ?_⟩
    · simp only [New, h1]
      rfl
    · simp only [closePipe, h2]
      rw [World.setPipe_pipe w1 _ _ P1 _ h2]
      simp
    · simp [Conn.Close, h4]
    · exact h3
    · simp only [closePipe, h2]
      exact h6
    · intro q hq
      simp only [closePipe, h2]
      rw [World.setPipe_pipe w1 _ q P1 _ h2]
      simp only [Nat.ne_of_lt hq, if_false]
      rw [h7 q (Nat.ne_of_lt hq)]
      exact List.getElem?_append_left hq

/-- C12, at a concrete input: the peer never sends anything. -/
theorem handshake_failure_witness :
    (∀ t, handsShakenAt [] = some t →
      HANDSHAKE_TIMEOUT < t ∨ (t = HANDSHAKE_TIMEOUT ∧ false = true)) ∧
    ∃ w1 P1, New (.ok Conn.fresh) false [] World.empty
        = .ok ((none, some (.errorsNew "webpipe: handshake failed!")), w1) ∧
      w1.pipes[0]? = some P1 ∧ P1.pipe.closed = 1 ∧
      P1.pipe.written = [Frame.message 1 (asciiBytes "WEBPIPE1"),
        Frame.message 1 (asciiBytes "ERROR")] := by
  refine ⟨fun t h => by simp [handsShakenAt] at h, ?_⟩
  obtain ⟨w1, P1, h1, h2, h3, h4, _⟩ :=
    (handshake_failure World.empty Conn.fresh false [] (fun t h => by
      simp [handsShakenAt] at h)).2
  exact ⟨w1, P1, h1, h2, h3, h4⟩

/-- C17, as the claim states it, fails: a binary frame after 10 ms and the
token as a text frame after 15 ms both arrive before the timeout and the second
matches, yet `shakeHands` reads the first frame only and returns false when
the timeout fires. -/
theorem shakeHands_reads_one_frame :
    PeerRead.junk.arrival < HANDSHAKE_TIMEOUT ∧ PeerRead.echo.arrival < HANDSHAKE_TIMEOUT ∧
    PeerRead.echo.err = none ∧ PeerRead.echo.messageType = TextMessage ∧
    PeerRead.echo.data = handshakeKey ∧
    shakeHands 0 false [PeerRead.junk, PeerRead.echo] World.single
      = .ok (⟨false, HANDSHAKE_TIMEOUT⟩,
          ⟨[⟨⟨[Frame.message 1 (asciiBytes "WEBPIPE1"), Frame.message 1 (asciiBytes "ERROR")],
            [], 0⟩, []⟩], []⟩) := by
  decide

/-- C17, amended: `shakeHands` asks the connection for one frame only. It
returns true exactly when that first frame is a text frame equal byte for byte
to the token and is read before the timeout (at the timeout, when `select`
picks it), and then at the moment the frame is read. In every other case, a
first frame that is not text, has another payload or is a read error included,
it returns false, and only when the timeout fires, never earlier. Frames after
the first have no influence. -/
theorem handshake_wait (w : World) (p : PipeRef) (P : WebPipe) (tie : Bool)
    (reads : List PeerRead) (hp : w.pipes[p]? = some P) :
    ∃ h w1, shakeHands p tie reads w = .ok (h, w1) ∧
      (h.ok = true ↔ ∃ r rest, reads = r :: rest ∧ r.err = none ∧
        r.messageType = TextMessage ∧ r.data = handshakeKey ∧
        (r.arrival < HANDSHAKE_TIMEOUT ∨ (r.arrival = HANDSHAKE_TIMEOUT ∧ tie = false))) ∧
      (h.ok = true → ∃ r rest, reads = r :: rest ∧ h.waited = r.arrival) ∧
      (h.ok = false → h.waited = HANDSHAKE_TIMEOUT) ∧
      (∀ r rest rest2, reads = r :: rest →
        shakeHands p tie (r :: rest2) w = shakeHands p tie reads w) := by
  have hind : ∀ r rest rest2, reads = r :: rest →
      shakeHands p tie (r :: rest2) w = shakeHands p tie reads w := by
    intro r rest rest2 hr
    subst hr
    simp only [shakeHands, handsShakenAt]
  by_cases hin : ∃ t, handsShakenAt reads = some t ∧
      (t < HANDSHAKE_TIMEOUT ∨ (t = HANDSHAKE_TIMEOUT ∧ tie = false))
  · obtain ⟨t, hs, ht⟩ := hin
    obtain ⟨w1, P1, h1, _⟩ := shakeHands_shaken w p P tie reads t hp hs ht
    have hhead : ∃ r rest, reads = r :: rest ∧ r.shaken = true ∧ r.arrival = t := by
      cases reads with
      | nil => simp [handsShakenAt] at hs
      | cons r rest =>
        refine ⟨r, rest, rfl, ?_⟩
        by_cases hsh : r.shaken = true
        · simp only [handsShakenAt, hsh, if_true, Option.some.injEq] at hs
          exact ⟨hsh, hs⟩
        · simp [handsShakenAt, hsh] at hs
    obtain ⟨r, rest, hr, hsh, hat⟩ := hhead
    obtain ⟨e1, e2, e3⟩ := (PeerRead.shaken_iff r).mp hsh
    refine ⟨⟨true, t⟩, w1, h1, ?_, ?_, ?_, hind⟩
    · constructor
      · intro _
        exact ⟨r, rest, hr, e1, e2, e3, by rw [hat]; exact ht⟩
      · intro _
        rfl
    · intro _
      exact ⟨r, rest, hr, hat.symm⟩
    · intro hf
      cases hf
  · have hlate : ∀ t, handsShakenAt reads = some t →
        HANDSHAKE_TIMEOUT < t ∨ (t = HANDSHAKE_TIMEOUT ∧ tie = true) := by
      intro t hs
      by_contra hc
      apply hin
      refine ⟨t, hs, ?_⟩
      by_cases h1 : t < HANDSHAKE_TIMEOUT
      · exact Or.inl h1
      · right
        have h2 : t = HANDSHAKE_TIMEOUT := by
          by_contra h3
          exact hc (Or.inl (by omega))
        refine ⟨h2, ?_⟩
        cases htie : tie with
        | false => rfl
        | true => exact absurd (Or.inr ⟨h2, htie⟩) hc
    obtain ⟨w1, P1, h1, _⟩ := shakeHands_timedOut w p P tie reads hp hlate
    refine ⟨⟨false, HANDSHAKE_TIMEOUT⟩, w1, h1, ?_, ?_, ?_, hind⟩
    · constructor
      · intro hf
        cases hf
      · rintro ⟨r, rest, hr, e1, e2, e3, ht⟩
        exfalso
        apply hin
        subst hr
        have hsh : r.shaken = true := (PeerRead.shaken_iff r).mpr ⟨e1, e2, e3⟩
        exact ⟨r.arrival, by simp [handsShakenAt, hsh], ht⟩
    · intro hf
      cases hf
    · intro _
      rfl

/-- C17 amended, at a concrete input: a binary frame first, then the token. -/
theorem handshake_wait_witness :
    World.single.pipes[0]? = some ⟨Conn.fresh, []⟩ ∧
    ∃ h w1, shakeHands 0 false [PeerRead.junk, PeerRead.echo] World.single = .ok (h, w1) ∧
      h.ok = false ∧ h.waited = HANDSHAKE_TIMEOUT := by
  refine ⟨by decide, ?_⟩
  obtain ⟨h, w1, h1, h2, _, h4, _⟩ :=
    handshake_wait World.single 0 ⟨Conn.fresh, []⟩ false [PeerRead.junk, PeerRead.echo]
      (by decide)
  have hok : h.ok = false := by
    cases hb : h.ok with
    | false => rfl
    | true =>
      obtain ⟨r, rest, hr, _, htext, _⟩ := h2.mp hb
      simp only [List.cons.injEq] at hr
      rw [← hr.1] at htext
      exact absurd htext (by decide)
  exact ⟨h, w1, h1, hok, h4 hok⟩

/-! ## Traces of sends -/

theorem deliveredTo_nil (c : ChanRef) : deliveredTo c [] = [] := rfl

theorem deliveredTo_append (c : ChanRef) (a b : List (ChanRef × Message)) :
    deliveredTo c (a ++ b) = deliveredTo c a ++ deliveredTo c b := by
  simp [deliveredTo]

theorem deliveredTo_single (c ch : ChanRef) (m : Message) :
    deliveredTo c [(ch, m)] = if ch = c then [m] else [] := by
  by_cases h : ch = c <;> simp [deliveredTo, h]

theorem Performed.nothing (w : World) : Performed [] w w :=
  ⟨rfl, rfl, fun c => by simp [deliveredTo]⟩

theorem Performed.trans {a b : List (ChanRef × Message)} {w w1 w2 : World}
    (h1 : Performed a w w1) (h2 : Performed b w1 w2) : Performed (a ++ b) w w2 := by
  refine ⟨h2.1.trans h1.1, h2.2.1.trans h1.2.1, ?_⟩
  intro c
  rw [h2.2.2 c, h1.2.2 c, deliveredTo_append, List.append_assoc]

theorem chanSend_performed (w : World) (ch : ChanRef) (v : Message) (chans : List Chan)
    (h : chanSend w.chans ch v = some chans) :
    Performed [(ch, v)] w { w with chans := chans } := by
  obtain ⟨hd, hroom⟩ := chanSend_delivered w ch v chans h
  obtain ⟨c0, hc0, _⟩ := (World.hasRoom_iff w ch).mp hroom
  have hlt : ch < w.chans.length := (List.getElem?_eq_some.mp hc0).1
  refine ⟨hd.1, hd.2.1, ?_⟩
  intro c
  rw [deliveredTo_single]
  by_cases hc : ch = c
  · subst hc
    simp only [if_true]
    exact hd.buf_mem (by simp) hlt
  · simp only [hc, if_false, List.append_nil]
    apply hd.buf_not_mem
    simp [Ne.symm hc]

theorem sendAll_trace_done (msg : Message) (targets : List ChanRef) (w w1 : World)
    (h : sendAll msg targets w = .done w1) :
    Performed (targets.map (fun c => (c, msg))) w w1 := by
  induction targets generalizing w with
  | nil =>
    simp only [sendAll, Dispatch.done.injEq] at h
    subst h
    exact Performed.nothing w
  | cons ch rest ih =>
    simp only [sendAll] at h
    cases hs : chanSend w.chans ch msg with
    | none => simp [hs] at h
    | some chans =>
      simp only [hs] at h
      have h1 := chanSend_performed w ch msg chans hs
      have h2 := ih _ h
      simpa using Performed.trans h1 h2

theorem sendAll_trace_blocked (msg : Message) (targets : List ChanRef) (w w1 : World)
    (pending : List ChanRef) (h : sendAll msg targets w = .blocked w1 pending) :
    ∃ served, targets = served ++ pending ∧ pending ≠ [] ∧
      Performed (served.map (fun c => (c, msg))) w w1 ∧
      ∀ ch rest, pending = ch :: rest → ¬ w1.hasRoom ch := by
  induction targets generalizing w with
  | nil => simp [sendAll] at h
  | cons ch rest ih =>
    simp only [sendAll] at h
    cases hs : chanSend w.chans ch msg with
    | none =>
      simp only [hs, Dispatch.blocked.injEq] at h
      obtain ⟨hw, hp⟩ := h
      subst hw
      subst hp
      refine ⟨[], rfl, by simp, Performed.nothing w, ?_⟩
      intro ch2 rest2 he
      simp only [List.cons.injEq] at he
      rw [← he.1]
      exact (chanSend_eq_none_iff w ch msg).mp hs
    | some chans =>
      simp only [hs] at h
      have h1 := chanSend_performed w ch msg chans hs
      obtain ⟨served, ht, hne, hperf, hroom⟩ := ih _ h
      refine ⟨ch :: served, by simp [ht], hne, ?_, hroom⟩
      simpa using Performed.trans h1 hperf

theorem messageLoop.loop_cons_ok (rt : RangeOrder) (p : PipeRef) (P : WebPipe) (w : World)
    (d : JSONObject) (m : Message) (rest : List ReadResult) (hp : w.pipes[p]? = some P)
    (hd : WebPipe.newMessage p d = .ok m) :
    messageLoop.loop rt p (.json (.object d) :: rest) w
      = messageLoop.resume rt p m (rt.order (P.subs m.Name)) rest w := by
  simp only [messageLoop.loop, hd, messageLoop.resume,
    WebPipe.dispatchMessage_eq rt w p P m hp]

theorem decodeAll_append (p : PipeRef) (a b : List ReadResult) :
    decodeAll p (a ++ b) = decodeAll p a ++ decodeAll p b := by
  induction a with
  | nil => rfl
  | cons r rest ih =>
    cases r with
    | err e => simpa [decodeAll] using ih
    | json v =>
      cases v with
      | object d =>
        simp only [List.cons_append, decodeAll]
        cases WebPipe.newMessage p d with
        | ok m => simp [ih]
        | error e => simpa using ih
      | null => simpa [decodeAll] using ih
      | bool b => simpa [decodeAll] using ih
      | number n => simpa [decodeAll] using ih
      | string s => simpa [decodeAll] using ih
      | array xs => simpa [decodeAll] using ih

theorem sendsOf_append (rt : RangeOrder) (P : WebPipe) (a b : List Message) :
    sendsOf rt P (a ++ b) = sendsOf rt P a ++ sendsOf rt P b := by
  induction a with
  | nil => rfl
  | cons m rest ih => simp [sendsOf, ih]

theorem sends_snoc (rt : RangeOrder) (p : PipeRef) (P : WebPipe) (good : List ReadResult)
    (d : JSONObject) (msg : Message) (served pending : List ChanRef)
    (hd : WebPipe.newMessage p d = .ok msg)
    (ho : rt.order (P.subs msg.Name) = served ++ pending) :
    sendsOf rt P (decodeAll p (good ++ [.json (.object d)]))
      = sendsOf rt P (decodeAll p good) ++ served.map (fun c => (c, msg))
          ++ pending.map (fun c => (c, msg)) := by
  rw [decodeAll_append, sendsOf_append]
  simp [decodeAll, hd, sendsOf, sendsOfMsg, ho]

theorem decodes_object (p : PipeRef) (d : JSONObject) (m : Message)
    (hd : WebPipe.newMessage p d = .ok m) :
    (ReadResult.json (.object d)).decodes p = true := by
  simp [ReadResult.decodes, hd]

theorem decodes_snoc (p : PipeRef) (good : List ReadResult) (d : JSONObject) (m : Message)
    (hg : ∀ r ∈ good, r.decodes p = true) (hd : WebPipe.newMessage p d = .ok m) :
    ∀ r ∈ good ++ [.json (.object d)], r.decodes p = true := by
  intro r hr
  rcases List.mem_append.mp hr with h | h
  · exact hg r h
  · simp only [List.mem_singleton] at h
    subst h
    exact decodes_object p d m hd

theorem Reached.prepend {p : PipeRef} {w w1 : World} {a b : List (ChanRef × Message)}
    {out : LoopExit} (h1 : Performed a w w1) (h2 : Reached p w1 b out) :
    Reached p w (a ++ b) out := by
  unfold Reached at h2 ⊢
  by_cases hr : out.running = true
  · simp only [hr, if_true] at h2 ⊢
    exact Performed.trans h1 h2
  · simp only [hr, if_false] at h2 ⊢
    obtain ⟨w2, hp2, hw⟩ := h2
    exact ⟨w2, Performed.trans h1 hp2, hw⟩

theorem Reached.at_exit {p : PipeRef} {w w1 : World} {a : List (ChanRef × Message)}
    {out : LoopExit} (hr : out.running = false) (h1 : Performed a w w1)
    (hw : out.world = closePipe p w1) : Reached p w a out := by
  unfold Reached
  simp only [hr, Bool.false_eq_true, if_false]
  exact ⟨w1, h1, hw⟩

theorem Reached.while_running {p : PipeRef} {w : World} {a : List (ChanRef × Message)}
    {out : LoopExit} (hr : out.running = true) (h1 : Performed a w out.world) :
    Reached p w a out := by
  unfold Reached
  simp only [hr, if_true]
  exact h1

/-- From a suspended send the loop gets, by further sends only, to a state that
stands where the frames say. -/
theorem messageLoop.resume_stands (rt : RangeOrder) (p : PipeRef) (P : WebPipe)
    (reads : List ReadResult) (unread : List ReadResult) :
    ∀ (w : World) (msg : Message) (pending served : List ChanRef) (good : List ReadResult)
      (d : JSONObject), w.pipes[p]? = some P →
      reads = good ++ .json (.object d) :: unread →
      (∀ r ∈ good, r.decodes p = true) → WebPipe.newMessage p d = .ok msg →
      rt.order (P.subs msg.Name) = served ++ pending →
      ∃ perf, Reached p w perf (messageLoop.resume rt p msg pending unread w) ∧
        Stands rt p P reads
          (sendsOf rt P (decodeAll p good) ++ served.map (fun c => (c, msg)) ++ perf)
          (messageLoop.resume rt p msg pending unread w) := by
  induction unread with
  | nil =>
    intro w msg pending served good d hp hreads hgood hd ho
    cases hs : sendAll msg pending w with
    | panic e => exact absurd hs (sendAll_ne_panic msg pending w e)
    | blocked w1 pending1 =>
      obtain ⟨served1, ht, hne, hperf, _⟩ := sendAll_trace_blocked msg pending w w1 pending1 hs
      refine ⟨served1.map (fun c => (c, msg)), ?_, ?_⟩
      · simp only [messageLoop.resume, hs]
        exact Reached.while_running rfl hperf
      · simp only [messageLoop.resume, hs, Stands]
        refine ⟨good, d, served ++ served1, hreads, hgood, hd, ?_, hne, ?_⟩
        · rw [ho, ht, List.append_assoc]
        · simp [List.append_assoc]
    | done w1 =>
      have hperf := sendAll_trace_done msg pending w w1 hs
      refine ⟨pending.map (fun c => (c, msg)), ?_, ?_⟩
      · simp only [messageLoop.resume, hs, messageLoop.loop]
        exact Reached.while_running rfl hperf
      · simp only [messageLoop.resume, hs, messageLoop.loop, Stands]
        refine ⟨?_, ?_⟩
        · rw [hreads]
          exact decodes_snoc p good d msg hgood hd
        · rw [hreads, sends_snoc rt p P good d msg served pending hd ho]
  | cons r rest ih =>
    intro w msg pending served good d hp hreads hgood hd ho
    cases hs : sendAll msg pending w with
    | panic e => exact absurd hs (sendAll_ne_panic msg pending w e)
    | blocked w1 pending1 =>
      obtain ⟨served1, ht, hne, hperf, _⟩ := sendAll_trace_blocked msg pending w w1 pending1 hs
      refine ⟨served1.map (fun c => (c, msg)), ?_, ?_⟩
      · simp only [messageLoop.resume, hs]
        exact Reached.while_running rfl hperf
      · simp only [messageLoop.resume, hs, Stands]
        refine ⟨good, d, served ++ served1, hreads, hgood, hd, ?_, hne, ?_⟩
        · rw [ho, ht, List.append_assoc]
        · simp [List.append_assoc]
    | done w1 =>
      have hperf := sendAll_trace_done msg pending w w1 hs
      have hp1 : w1.pipes[p]? = some P := by
        rw [hperf.1]
        exact hp
      have hreads2 : reads = (good ++ [.json (.object d)]) ++ r :: rest := by
        rw [hreads]
        simp
      have hgood2 := decodes_snoc p good d msg hgood hd
      have hsn := sends_snoc rt p P good d msg served pending hd ho
      have hbreak : ∀ out : LoopExit, out.running = false →
          out.world = closePipe p w1 →
          Stands rt p P reads (sendsOf rt P (decodeAll p (good ++ [.json (.object d)]))) out →
          messageLoop.resume rt p msg pending (r :: rest) w = out →
          ∃ perf, Reached p w perf (messageLoop.resume rt p msg pending (r :: rest) w) ∧
            Stands rt p P reads
              (sendsOf rt P (decodeAll p good) ++ served.map (fun c => (c, msg)) ++ perf)
              (messageLoop.resume rt p msg pending (r :: rest) w) := by
        intro out hrun hworld hst heq
        refine ⟨pending.map (fun c => (c, msg)), ?_, ?_⟩
        · rw [heq]
          exact Reached.at_exit hrun hperf hworld
        · rw [heq, ← hsn]
          exact hst
      cases r with
      | err e =>
        apply hbreak (.closed (closePipe p w1) rest) rfl rfl
        · exact ⟨good ++ [.json (.object d)], .err e, hreads2, hgood2, rfl, rfl⟩
        · simp only [messageLoop.resume, hs, messageLoop.loop]
      | json v =>
        cases v with
        | object d2 =>
          cases hd2 : WebPipe.newMessage p d2 with
          | error e =>
            apply hbreak (.panicked e (closePipe p w1) rest) rfl rfl
            · exact ⟨good ++ [.json (.object d)], d2, hreads2, hgood2, hd2, rfl⟩
            · simp only [messageLoop.resume, hs, messageLoop.loop, hd2]
          | ok m2 =>
            have hres : messageLoop.resume rt p msg pending (.json (.object d2) :: rest) w
                = messageLoop.resume rt p m2 (rt.order (P.subs m2.Name)) rest w1 := by
              rw [← messageLoop.loop_cons_ok rt p P w1 d2 m2 rest hp1 hd2]
              simp only [messageLoop.resume, hs]
            obtain ⟨perf2, hr2, hst2⟩ := ih w1 m2 (rt.order (P.subs m2.Name)) []
              (good ++ [.json (.object d)]) d2 hp1 hreads2 hgood2 hd2 rfl
            refine ⟨pending.map (fun c => (c, msg)) ++ perf2, ?_, ?_⟩
            · rw [hres]
              exact Reached.prepend hperf hr2
            · rw [hres]
              rw [hsn] at hst2
              simpa [List.append_assoc] using hst2
        | null =>
          apply hbreak (.closed (closePipe p w1) rest) rfl rfl
          · exact ⟨good ++ [.json (.object d)], .json .null, hreads2, hgood2, rfl, rfl⟩
          · simp only [messageLoop.resume, hs, messageLoop.loop]
        | bool b =>
          apply hbreak (.closed (closePipe p w1) rest) rfl rfl
          · exact ⟨good ++ [.json (.object d)], .json (.bool b), hreads2, hgood2, rfl, rfl⟩
          · simp only [messageLoop.resume, hs, messageLoop.loop]
        | number n =>
          apply hbreak (.closed (closePipe p w1) rest) rfl rfl
          · exact ⟨good ++ [.json (.object d)], .json (.number n), hreads2, hgood2, rfl, rfl⟩
          · simp only [messageLoop.resume, hs, messageLoop.loop]
        | string s =>
          apply hbreak (.closed (closePipe p w1) rest) rfl rfl
          · exact ⟨good ++ [.json (.object d)], .json (.string s), hreads2, hgood2, rfl, rfl⟩
          · simp only [messageLoop.resume, hs, messageLoop.loop]
        | array xs =>
          apply hbreak (.closed (closePipe p w1) rest) rfl rfl
          · exact ⟨good ++ [.json (.object d)], .json (.array xs), hreads2, hgood2, rfl, rfl⟩
          · simp only [messageLoop.resume, hs, messageLoop.loop]

theorem messageLoop_stands (rt : RangeOrder) (p : PipeRef) (P : WebPipe)
    (reads : List ReadResult) (w : World) (hp : w.pipes[p]? = some P) :
    ∃ perf, Reached p w perf (messageLoop rt p reads w) ∧
      Stands rt p P reads perf (messageLoop rt p reads w) := by
  rw [messageLoop_valid rt w p P reads hp]
  have hbreak : ∀ (r : ReadResult) (rest : List ReadResult) (out : LoopExit),
      out.running = false → out.world = closePipe p w → Stands rt p P (r :: rest) [] out →
      messageLoop.loop rt p (r :: rest) w = out →
      ∃ perf, Reached p w perf (messageLoop.loop rt p (r :: rest) w) ∧
        Stands rt p P (r :: rest) perf (messageLoop.loop rt p (r :: rest) w) := by
    intro r rest out hrun hworld hst heq
    rw [heq]
    exact ⟨[], Reached.at_exit hrun (Performed.nothing w) hworld, hst⟩
  cases reads with
  | nil =>
    refine ⟨[], Reached.while_running rfl (Performed.nothing w), ?_⟩
    simp [messageLoop.loop, Stands, decodeAll, sendsOf]
  | cons r rest =>
    cases r with
    | err e =>
      exact hbreak _ rest (.closed (closePipe p w) rest) rfl rfl
        ⟨[], .err e, rfl, by simp, rfl, rfl⟩ (by simp only [messageLoop.loop])
    | json v =>
      cases v with
      | object d =>
        cases hd : WebPipe.newMessage p d with
        | error e =>
          exact hbreak _ rest (.panicked e (closePipe p w) rest) rfl rfl
            ⟨[], d, rfl, by simp, hd, rfl⟩ (by simp only [messageLoop.loop, hd])
        | ok m =>
          rw [messageLoop.loop_cons_ok rt p P w d m rest hp hd]
          obtain ⟨perf, h1, h2⟩ := messageLoop.resume_stands rt p P
            (.json (.object d) :: rest) rest w m (rt.order (P.subs m.Name)) [] [] d hp rfl
            (by simp) hd rfl
          refine ⟨perf, h1, ?_⟩
          simpa [decodeAll, sendsOf] using h2
      | null =>
        exact hbreak _ rest (.closed (closePipe p w) rest) rfl rfl
          ⟨[], .json .null, rfl, by simp, rfl, rfl⟩ (by simp only [messageLoop.loop])
      | bool b =>
        exact hbreak _ rest (.closed (closePipe p w) rest) rfl rfl
          ⟨[], .json (.bool b), rfl, by simp, rfl, rfl⟩ (by simp only [messageLoop.loop])
      | number n =>
        exact hbreak _ rest (.closed (closePipe p w) rest) rfl rfl
          ⟨[], .json (.number n), rfl, by simp, rfl, rfl⟩ (by simp only [messageLoop.loop])
      | string s =>
        exact hbreak _ rest (.closed (closePipe p w) rest) rfl rfl
          ⟨[], .json (.string s), rfl, by simp, rfl, rfl⟩ (by simp only [messageLoop.loop])
      | array xs =>
        exact hbreak _ rest (.closed (closePipe p w) rest) rfl rfl
          ⟨[], .json (.array xs), rfl, by simp, rfl, rfl⟩ (by simp only [messageLoop.loop])

/-! ## Subscribers -/

theorem chanRecv_spec (w : World) (ch : ChanRef) (m : Message) (chans : List Chan)
    (h : chanRecv w.chans ch = some (m, chans)) :
    chans.length = w.chans.length ∧ w.buf ch = m :: World.buf ⟨w.pipes, chans⟩ ch ∧
    (∀ c, c ≠ ch → World.buf ⟨w.pipes, chans⟩ c = w.buf c) ∧
    (∀ c, c ≠ ch → chans[c]? = w.chans[c]?) ∧
    ∃ c0, w.chans[ch]? = some c0 ∧ chans[ch]? = some ⟨c0.cap, c0.buf.tail⟩ ∧
      c0.buf ≠ [] := by
  unfold chanRecv at h
  cases hc : w.chans[ch]? with
  | none => simp [hc] at h
  | some c0 =>
    simp only [hc] at h
    cases hb : c0.buf with
    | nil => simp [hb] at h
    | cons m0 rest =>
      simp only [hb, Option.some.injEq, Prod.mk.injEq] at h
      obtain ⟨hm, hch⟩ := h
      subst hm
      subst hch
      have hlt : ch < w.chans.length := (List.getElem?_eq_some.mp hc).1
      refine ⟨by simp, ?_, ?_, ?_, ⟨c0, rfl, ?_, ?_⟩⟩
      · simp [World.buf, hc, hb, hlt]
      · intro c hne
        simp [World.buf, List.getElem?_set, Ne.symm hne]
      · intro c hne
        simp [List.getElem?_set, Ne.symm hne]
      · simp [hlt, hb]
      · simp [hb]

theorem recvAll_spec (batch : List ChanRef) (w : World) (inbox : Inbox) :
    (recvAll batch (w, inbox)).1.pipes = w.pipes ∧
    (recvAll batch (w, inbox)).1.chans.length = w.chans.length ∧
    ∀ c, history (recvAll batch (w, inbox)).1 (recvAll batch (w, inbox)).2 c
      = history w inbox c := by
  induction batch generalizing w inbox with
  | nil => exact ⟨rfl, rfl, fun _ => rfl⟩
  | cons ch rest ih =>
    cases hr : chanRecv w.chans ch with
    | none =>
      simp only [recvAll, hr]
      exact ih w inbox
    | some r =>
      obtain ⟨m, chans⟩ := r
      obtain ⟨h1, h2, h3, _⟩ := chanRecv_spec w ch m chans hr
      simp only [recvAll, hr]
      obtain ⟨k1, k2, k3⟩ := ih { w with chans := chans } (inbox ++ [(ch, m)])
      refine ⟨k1, k2.trans h1, ?_⟩
      intro c
      rw [k3 c]
      unfold history
      rw [deliveredTo_append, deliveredTo_single]
      by_cases hc : ch = c
      · subst hc
        simp only [if_true, List.append_assoc, List.singleton_append]
        rw [h2]
      · simp only [hc, if_false, List.append_nil]
        have := h3 c (Ne.symm hc)
        rw [← this]

/-! ## Sessions -/

theorem SessionInv.of_reached {p : PipeRef} {w0 w2 : World}
    {perf perf1 : List (ChanRef × Message)} {out : LoopExit} {inbox : Inbox}
    (hpipes : w2.pipes = w0.pipes) (hlen : w2.chans.length = w0.chans.length)
    (hhist : ∀ c, history w2 inbox c = w0.buf c ++ deliveredTo c perf)
    (hr : Reached p w2 perf1 out) : SessionInv p w0 (perf ++ perf1) out inbox := by
  have key : ∀ w1, Performed perf1 w2 w1 →
      w1.pipes = w0.pipes ∧ w1.chans.length = w0.chans.length ∧
      ∀ c, history w1 inbox c = w0.buf c ++ deliveredTo c (perf ++ perf1) := by
    intro w1 hperf
    refine ⟨hperf.1.trans hpipes, hperf.2.1.trans hlen, ?_⟩
    intro c
    have h1 := hhist c
    unfold history at h1 ⊢
    rw [hperf.2.2 c, ← List.append_assoc, h1, deliveredTo_append, List.append_assoc]
  unfold Reached at hr
  unfold SessionInv
  by_cases hrun : out.running = true
  · simp only [hrun, if_true] at hr ⊢
    exact ⟨out.world, rfl, key _ hr⟩
  · simp only [hrun, if_false] at hr ⊢
    obtain ⟨w1, hperf, hw⟩ := hr
    exact ⟨w1, hw, key _ hperf⟩

/-- A session started in heap `w0` on the frames `reads` is at every moment in a
state that stands where the frames say, with all histories as the sends made
so far dictate, whatever the subscribers do. -/
theorem runSession_stands (rt : RangeOrder) (p : PipeRef) (P : WebPipe)
    (reads : List ReadResult) (w0 : World) (hp : w0.pipes[p]? = some P)
    (sched : List (List ChanRef)) :
    ∀ (out : LoopExit) (inbox : Inbox) (perf : List (ChanRef × Message)),
      Stands rt p P reads perf out → SessionInv p w0 perf out inbox →
      ∃ perf2, Stands rt p P reads perf2 (runSession rt p sched out inbox).1 ∧
        SessionInv p w0 perf2 (runSession rt p sched out inbox).1
          (runSession rt p sched out inbox).2 := by
  induction sched with
  | nil =>
    intro out inbox perf hst hinv
    exact ⟨perf, hst, hinv⟩
  | cons batch sched ih =>
    intro out inbox perf hst hinv
    cases out with
    | closed w unread => exact ⟨perf, hst, hinv⟩
    | panicked e w unread => exact ⟨perf, hst, hinv⟩
    | blockedRead w => exact ⟨perf, hst, hinv⟩
    | blockedSend w msg pending unread =>
      simp only [runSession]
      obtain ⟨w1, hw1, hpipes, hlen, hhist⟩ := hinv
      simp only [LoopExit.running, if_true, LoopExit.world] at hw1
      subst hw1
      obtain ⟨good, d, served, hreads, hgood, hd, ho, _, hperf⟩ := hst
      obtain ⟨r1, r2, r3⟩ := recvAll_spec batch w inbox
      have hp2 : (recvAll batch (w, inbox)).1.pipes[p]? = some P := by
        rw [r1, hpipes]
        exact hp
      obtain ⟨perf1, hr, hst2⟩ := messageLoop.resume_stands rt p P reads unread
        (recvAll batch (w, inbox)).1 msg pending served good d hp2 hreads hgood hd ho
      rw [← hperf] at hst2
      have hinv2 : SessionInv p w0 (perf ++ perf1)
          (messageLoop.resume rt p msg pending unread (recvAll batch (w, inbox)).1)
          (recvAll batch (w, inbox)).2 := by
        apply SessionInv.of_reached (r1.trans hpipes) (r2.trans hlen) _ hr
        intro c
        rw [r3 c]
        exact hhist c
      exact ih _ _ _ hst2 hinv2

theorem session_stands (rt : RangeOrder) (p : PipeRef) (P : WebPipe)
    (reads : List ReadResult) (w : World) (hp : w.pipes[p]? = some P)
    (sched : List (List ChanRef)) :
    ∃ perf, Stands rt p P reads perf
        (runSession rt p sched (messageLoop rt p reads w) []).1 ∧
      SessionInv p w perf (runSession rt p sched (messageLoop rt p reads w) []).1
        (runSession rt p sched (messageLoop rt p reads w) []).2 := by
  obtain ⟨perf, hr, hst⟩ := messageLoop_stands rt p P reads w hp
  have hinv : SessionInv p w ([] ++ perf) (messageLoop rt p reads w) [] :=
    SessionInv.of_reached rfl rfl (fun c => by simp [history, deliveredTo]) hr
  simp only [List.nil_append] at hinv
  exact runSession_stands rt p P reads w hp sched _ _ _ hst hinv

theorem closePipe_chans (p : PipeRef) (w : World) : (closePipe p w).chans = w.chans := by
  unfold closePipe
  cases w.pipes[p]? <;> rfl

theorem closePipe_pipe (p : PipeRef) (w : World) (P : WebPipe) (hp : w.pipes[p]? = some P) :
    (closePipe p w).pipes[p]? = some ⟨P.pipe.Close, P.subscribers⟩ := by
  simp only [closePipe, hp]
  rw [World.setPipe_pipe w p p P _ hp]
  simp

theorem history_closePipe (p : PipeRef) (w : World) (inbox : Inbox) (c : ChanRef) :
    history (closePipe p w) inbox c = history w inbox c := by
  unfold history World.buf
  rw [closePipe_chans]

theorem breaks_not_decodes (p : PipeRef) (r : ReadResult) (h : r.breaks = true) :
    r.decodes p = false := by
  cases r with
  | err e => rfl
  | json v => cases v <;> first | rfl | simp [ReadResult.breaks] at h

theorem SessionInv.after_exit {p : PipeRef} {w0 : World} {P : WebPipe}
    {perf : List (ChanRef × Message)} {out : LoopExit} {inbox : Inbox}
    (hp : w0.pipes[p]? = some P) (h : SessionInv p w0 perf out inbox)
    (hrun : out.running = false) :
    out.world.pipes[p]? = some ⟨P.pipe.Close, P.subscribers⟩ ∧
    ∀ c, history out.world inbox c = w0.buf c ++ deliveredTo c perf := by
  obtain ⟨w1, hw, hpipes, _, hhist⟩ := h
  simp only [hrun, Bool.false_eq_true, if_false] at hw
  have hp1 : w1.pipes[p]? = some P := by
    rw [hpipes]
    exact hp
  rw [hw]
  refine ⟨closePipe_pipe p w1 P hp1, ?_⟩
  intro c
  rw [history_closePipe]
  exact hhist c

theorem SessionInv.before_exit {p : PipeRef} {w0 : World}
    {perf : List (ChanRef × Message)} {out : LoopExit} {inbox : Inbox}
    (h : SessionInv p w0 perf out inbox) (hrun : out.running = true) :
    out.world.pipes = w0.pipes ∧
    ∀ c, history out.world inbox c = w0.buf c ++ deliveredTo c perf := by
  obtain ⟨w1, hw, hpipes, _, hhist⟩ := h
  simp only [hrun, if_true] at hw
  rw [hw]
  exact ⟨hpipes, hhist⟩

/-- C13: for every sequence of read results, and whatever the subscribers do
while the loop is suspended in a send, the loop ends exactly at the first read
that is a read error, a JSON value that is no object (both: `break`) or an
object that `newMessage` does not decode (panic): every frame before it decoded
and was dispatched, the frames after it are unread and nothing of them is in
any channel; at that moment the connection has been closed exactly once (the
deferred `Close`), by either exit; and as long as the loop has not ended, only
frames that decode have been read and the connection has not been closed. -/
theorem loop_ends_at_first_bad_read (rt : RangeOrder) (w : World) (p : PipeRef) (P : WebPipe)
    (reads : List ReadResult) (sched : List (List ChanRef)) (hp : w.pipes[p]? = some P) :
    (∀ w1 unread inbox,
      runSession rt p sched (messageLoop rt p reads w) [] = (.closed w1 unread, inbox) →
      ∃ good bad P1, reads = good ++ bad :: unread ∧
        (∀ r ∈ good, r.decodes p = true) ∧ bad.breaks = true ∧
        bad.decodes p = false ∧
        w1.pipes[p]? = some P1 ∧ P1.pipe.closed = P.pipe.closed + 1 ∧
        P1.pipe.written = P.pipe.written ∧ P1.subscribers = P.subscribers ∧
        ∀ c, history w1 inbox c = w.buf c ++ deliveredTo c (sendsOf rt P (decodeAll p good))) ∧
    (∀ e w1 unread inbox,
      runSession rt p sched (messageLoop rt p reads w) [] = (.panicked e w1 unread, inbox) →
      ∃ good d P1, reads = good ++ .json (.object d) :: unread ∧
        (∀ r ∈ good, r.decodes p = true) ∧ WebPipe.newMessage p d = .error e ∧
        (ReadResult.json (.object d)).decodes p = false ∧
        w1.pipes[p]? = some P1 ∧ P1.pipe.closed = P.pipe.closed + 1 ∧
        P1.pipe.written = P.pipe.written ∧ P1.subscribers = P.subscribers ∧
        ∀ c, history w1 inbox c = w.buf c ++ deliveredTo c (sendsOf rt P (decodeAll p good))) ∧
    (∀ w1 msg pending unread inbox,
      runSession rt p sched (messageLoop rt p reads w) []
        = (.blockedSend w1 msg pending unread, inbox) →
      ∃ good d, reads = good ++ .json (.object d) :: unread ∧
        (∀ r ∈ good, r.decodes p = true) ∧ WebPipe.newMessage p d = .ok msg ∧
        w1.pipes[p]? = some P) ∧
    (∀ w1 inbox,
      runSession rt p sched (messageLoop rt p reads w) [] = (.blockedRead w1, inbox) →
      (∀ r ∈ reads, r.decodes p = true) ∧ w1.pipes[p]? = some P) := by
  obtain ⟨perf, hst, hinv⟩ := session_stands rt p P reads w hp sched
  refine ⟨?_, ?_, ?_, ?_⟩
  · intro w1 unread inbox heq
    rw [heq] at hst hinv
    obtain ⟨good, bad, hreads, hgood, hbad, hperf⟩ := hst
    obtain ⟨hp1, hhist⟩ := SessionInv.after_exit hp hinv rfl
    refine ⟨good, bad, _, hreads, hgood, hbad, breaks_not_decodes p bad hbad, hp1, rfl,
      rfl, rfl, ?_⟩
    intro c
    rw [← hperf]
    exact hhist c
  · intro e w1 unread inbox heq
    rw [heq] at hst hinv
    obtain ⟨good, d, hreads, hgood, hd, hperf⟩ := hst
    obtain ⟨hp1, hhist⟩ := SessionInv.after_exit hp hinv rfl
    refine ⟨good, d, _, hreads, hgood, hd, by simp [ReadResult.decodes, hd], hp1, rfl,
      rfl, rfl, ?_⟩
    intro c
    rw [← hperf]
    exact hhist c
  · intro w1 msg pending unread inbox heq
    rw [heq] at hst hinv
    obtain ⟨good, d, served, hreads, hgood, hd, _⟩ := hst
    obtain ⟨hpipes, _⟩ := SessionInv.before_exit hinv rfl
    refine ⟨good, d, hreads, hgood, hd, ?_⟩
    simp only [LoopExit.world] at hpipes
    rw [hpipes]
    exact hp
  · intro w1 inbox heq
    rw [heq] at hst hinv
    obtain ⟨hall, _⟩ := hst
    obtain ⟨hpipes, _⟩ := SessionInv.before_exit hinv rfl
    refine ⟨hall, ?_⟩
    simp only [LoopExit.world] at hpipes
    rw [hpipes]
    exact hp

/-- C13, at a concrete input: three `ping` frames, a read error and one more
frame, with a subscriber that receives whenever the loop waits for it. -/
theorem loop_ends_at_first_bad_read_witness :
    World.pingRoom.pipes[0]? = some WebPipe.pingRoom ∧
    ∃ w1 inbox P1,
      runSession RangeOrder.listed 0 [[0], [0]]
        (messageLoop RangeOrder.listed 0
          [.pingOf "r1", .pingOf "r2", .pingOf "r3", .err "EOF", .pingOf "r4"]
          World.pingRoom) []
        = (.closed w1 [.pingOf "r4"], inbox) ∧
      w1.pipes[0]? = some P1 ∧ P1.pipe.closed = 1 := by
  refine ⟨by decide, ?_⟩
  have hrun : ∃ w1 inbox,
      runSession RangeOrder.listed 0 [[0], [0]]
        (messageLoop RangeOrder.listed 0
          [.pingOf "r1", .pingOf "r2", .pingOf "r3", .err "EOF", .pingOf "r4"]
          World.pingRoom) []
        = (.closed w1 [.pingOf "r4"], inbox) := ⟨_, _, rfl⟩
  obtain ⟨w1, inbox, heq⟩ := hrun
  obtain ⟨good, bad, P1, _, _, _, _, h5, h6, _⟩ :=
    (loop_ends_at_first_bad_read RangeOrder.listed World.pingRoom 0 WebPipe.pingRoom
      [.pingOf "r1", .pingOf "r2", .pingOf "r3", .err "EOF", .pingOf "r4"] [[0], [0]]
      (by decide)).1 w1 [.pingOf "r4"] inbox heq
  exact ⟨w1, inbox, P1, heq, h5, h6⟩

theorem deliveredTo_map (c : ChanRef) (m : Message) (l : List ChanRef) (hnd : l.Nodup) :
    deliveredTo c (l.map (fun x => (x, m))) = if c ∈ l then [m] else [] := by
  induction l with
  | nil => simp [deliveredTo]
  | cons x rest ih =>
    obtain ⟨hx, hrest⟩ := List.nodup_cons.mp hnd
    have hcons : deliveredTo c (((x :: rest).map (fun y => (y, m))))
        = deliveredTo c [(x, m)] ++ deliveredTo c (rest.map (fun y => (y, m))) := by
      rw [← deliveredTo_append]
      rfl
    rw [hcons, deliveredTo_single, ih hrest]
    by_cases hc : x = c
    · subst hc
      simp [hx]
    · simp [hc, Ne.symm hc]

theorem deliveredTo_sendsOfMsg (rt : RangeOrder) (P : WebPipe) (n : Nat) (hwf : P.WF n)
    (e s : String) (c : ChanRef) (hc : P.chanOf e s = some c) (m : Message) :
    deliveredTo c (sendsOfMsg rt P m) = if m.Name = e then [m] else [] := by
  unfold sendsOfMsg
  rw [deliveredTo_map c m _ (rt.nodup _ (hwf.targets_nodup m.Name))]
  by_cases hn : m.Name = e
  · have hmem : c ∈ rt.order (P.subs m.Name) := by
      rw [hn]
      exact (rt.mem_iff _ c).mpr (GoMap.mem_values_of_index _ s c hc)
    simp [hn, hmem]
    rw [← hn]
    simpa using hmem
  · have hnot : c ∉ rt.order (P.subs m.Name) := by
      intro hm
      obtain ⟨s2, hs2⟩ := (hwf.mem_targets_iff m.Name c).mp ((rt.mem_iff _ c).mp hm)
      exact hn (hwf.chanOf_inj _ _ _ _ c hs2 hc).1
    simp [hn, hnot]

theorem deliveredTo_sendsOf (rt : RangeOrder) (P : WebPipe) (n : Nat) (hwf : P.WF n)
    (e s : String) (c : ChanRef) (hc : P.chanOf e s = some c) (ms : List Message) :
    deliveredTo c (sendsOf rt P ms) = ms.filter (fun m => decide (m.Name = e)) := by
  induction ms with
  | nil => rfl
  | cons m rest ih =>
    simp only [sendsOf, deliveredTo_append, ih,
      deliveredTo_sendsOfMsg rt P n hwf e s c hc m]
    by_cases hn : m.Name = e <;> simp [hn, List.filter_cons]

theorem deliveredTo_served (rt : RangeOrder) (P : WebPipe) (n : Nat) (hwf : P.WF n)
    (e s : String) (c : ChanRef) (hc : P.chanOf e s = some c) (m : Message)
    (served pending : List ChanRef) (ho : rt.order (P.subs m.Name) = served ++ pending) :
    deliveredTo c (served.map (fun x => (x, m)))
      = if m.Name = e ∧ c ∉ pending then [m] else [] := by
  have hnd := rt.nodup _ (hwf.targets_nodup m.Name)
  rw [ho] at hnd
  obtain ⟨hs, _, hdisj⟩ := List.nodup_append.mp hnd
  rw [deliveredTo_map c m served hs]
  by_cases hn : m.Name = e
  · have hmem : c ∈ served ++ pending := by
      rw [← ho, hn]
      exact (rt.mem_iff _ c).mpr (GoMap.mem_values_of_index _ s c hc)
    by_cases hse : c ∈ served
    · have : c ∉ pending := fun hpd => hdisj hse hpd
      simp [hn, hse, this]
    · have : c ∈ pending := by
        rcases List.mem_append.mp hmem with h | h
        · exact absurd h hse
        · exact h
      simp [hse, this]
  · have hnot : c ∉ served := by
      intro hm
      have hm2 : c ∈ rt.order (P.subs m.Name) := by
        rw [ho]
        exact List.mem_append_left _ hm
      obtain ⟨s2, hs2⟩ := (hwf.mem_targets_iff m.Name c).mp ((rt.mem_iff _ c).mp hm2)
      exact hn (hwf.chanOf_inj _ _ _ _ c hs2 hc).1
    simp [hn, hnot]

theorem first_undecoded_unique (p : PipeRef) (good good2 : List ReadResult)
    (x y : ReadResult) (rest rest2 : List ReadResult)
    (h : good ++ x :: rest = good2 ++ y :: rest2)
    (hg : ∀ r ∈ good, r.decodes p = true) (hg2 : ∀ r ∈ good2, r.decodes p = true)
    (hx : x.decodes p = false) (hy : y.decodes p = false) :
    good = good2 ∧ x = y ∧ rest = rest2 := by
  induction good generalizing good2 with
  | nil =>
    cases good2 with
    | nil =>
      simp only [List.nil_append, List.cons.injEq] at h
      exact ⟨rfl, h.1, h.2⟩
    | cons b g2 =>
      simp only [List.nil_append, List.cons_append, List.cons.injEq] at h
      have hb := hg2 b (by simp)
      rw [← h.1, hx] at hb
      cases hb
  | cons a g ih =>
    cases good2 with
    | nil =>
      simp only [List.nil_append, List.cons_append, List.cons.injEq] at h
      have ha := hg a (by simp)
      rw [h.1, hy] at ha
      cases ha
    | cons b g2 =>
      simp only [List.cons_append, List.cons.injEq] at h
      obtain ⟨h1, h2, h3⟩ := ih g2 h.2 (fun r hr => hg r (by simp [hr]))
        (fun r hr => hg2 r (by simp [hr]))
      exact ⟨by rw [h.1, h1], h2, h3⟩

theorem undecoded_after_decoded (p : PipeRef) (good good2 : List ReadResult)
    (x y : ReadResult) (rest rest2 : List ReadResult)
    (h : good ++ x :: rest = good2 ++ y :: rest2)
    (hg2 : ∀ r ∈ good2, r.decodes p = true)
    (hx : x.decodes p = false) (hy : y.decodes p = true) :
    ∃ post, good = good2 ++ y :: post ∧ rest2 = post ++ x :: rest := by
  induction good2 generalizing good with
  | nil =>
    cases good with
    | nil =>
      simp only [List.nil_append, List.cons.injEq] at h
      rw [h.1, hy] at hx
      cases hx
    | cons a g =>
      simp only [List.nil_append, List.cons_append, List.cons.injEq] at h
      exact ⟨g, by rw [h.1]; rfl, h.2.symm⟩
  | cons b g2 ih =>
    cases good with
    | nil =>
      simp only [List.nil_append, List.cons_append, List.cons.injEq] at h
      have hb := hg2 b (by simp)
      rw [← h.1, hx] at hb
      cases hb
    | cons a g =>
      simp only [List.cons_append, List.cons.injEq] at h
      obtain ⟨post, h1, h2⟩ := ih g h.2 (fun r hr => hg2 r (by simp [hr]))
      exact ⟨post, by rw [h.1, h1]; rfl, h2⟩

theorem runSession_ended (rt : RangeOrder) (p : PipeRef) (sched : List (List ChanRef))
    (out : LoopExit) (inbox : Inbox) (h : out.running = false) :
    runSession rt p sched out inbox = (out, inbox) := by
  cases sched with
  | nil => rfl
  | cons b rest =>
    cases out with
    | closed w u => rfl
    | panicked e w u => rfl
    | blockedSend w m pd u => cases h
    | blockedRead w => cases h

/-- C14, what the code does. For every sequence of frames, every subscriber `s`
of an event `e` registered on channel `c` throughout, and whatever the
subscribers receive and when: once all frames are dispatched, the messages
that went into `c` (received or still buffered) are what `c` held at the start
followed by exactly the messages of the frames named `e`, in wire order, once
each; while the loop is suspended in the send of one frame, every frame before
it has gone to all its subscribers, that frame has gone to the channels no
longer pending, and the frames after it are unread and have gone to nobody;
and the run never ends if every frame carries a string `requestId` besides `n`
and `args` (it decodes). But a frame with a string `n` and a sequence `args`
and no `requestId`, well-formed by the wire format, is never delivered: the
loop ends at it in the panic of `newMessage`, closes the connection, and `c`
has got only the frames before it; the frames after it stay unread. -/
theorem loop_drops_frame_without_requestId (rt : RangeOrder) (w : World) (p : PipeRef)
    (P : WebPipe) (sched : List (List ChanRef)) (hp : w.pipes[p]? = some P)
    (hwf : P.WF w.chans.length) :
    (∀ reads : List ReadResult,
      ((∀ r ∈ reads, r.decodes p = true) →
        (runSession rt p sched (messageLoop rt p reads w) []).1.running = true) ∧
      (∀ w1 inbox,
        runSession rt p sched (messageLoop rt p reads w) [] = (.blockedRead w1, inbox) →
        ∀ e s c, P.chanOf e s = some c →
          history w1 inbox c
            = w.buf c ++ (decodeAll p reads).filter (fun m => decide (m.Name = e))) ∧
      (∀ w1 msg pending unread inbox,
        runSession rt p sched (messageLoop rt p reads w) []
          = (.blockedSend w1 msg pending unread, inbox) →
        ∃ good d, reads = good ++ .json (.object d) :: unread ∧
          WebPipe.newMessage p d = .ok msg ∧
          (∀ c ∈ pending, ∃ s, P.chanOf msg.Name s = some c) ∧
          ∀ e s c, P.chanOf e s = some c →
            history w1 inbox c
              = w.buf c ++ (decodeAll p good).filter (fun m => decide (m.Name = e))
                  ++ (if msg.Name = e ∧ c ∉ pending then [msg] else []))) ∧
    (∀ (good rest : List ReadResult) (doc : JSONObject) (e : String) (xs : List JSONValue),
      (∀ r ∈ good, r.decodes p = true) →
      GoMap.index doc "n" = some (.string e) →
      GoMap.index doc "args" = some (.array xs) →
      GoMap.index doc "requestId" = none →
      (∀ w1 inbox,
        runSession rt p sched (messageLoop rt p (good ++ .json (.object doc) :: rest) w) []
          ≠ (.blockedRead w1, inbox)) ∧
      (∀ w1 unread inbox,
        runSession rt p sched (messageLoop rt p (good ++ .json (.object doc) :: rest) w) []
          ≠ (.closed w1 unread, inbox)) ∧
      (∀ x w1 unread inbox,
        runSession rt p sched (messageLoop rt p (good ++ .json (.object doc) :: rest) w) []
          = (.panicked x w1 unread, inbox) →
        x = .interfaceConversion "requestId" ∧ unread = rest ∧
        (∃ P1, w1.pipes[p]? = some P1 ∧ P1.pipe.closed = P.pipe.closed + 1) ∧
        ∀ e2 s c, P.chanOf e2 s = some c →
          history w1 inbox c
            = w.buf c ++ (decodeAll p good).filter (fun m => decide (m.Name = e2))) ∧
      (∀ w1 msg pending unread inbox,
        runSession rt p sched (messageLoop rt p (good ++ .json (.object doc) :: rest) w) []
          = (.blockedSend w1 msg pending unread, inbox) →
        ∃ pre d post, good = pre ++ .json (.object d) :: post ∧
          WebPipe.newMessage p d = .ok msg ∧
          unread = post ++ .json (.object doc) :: rest) ∧
      (good = [] →
        runSession rt p sched (messageLoop rt p (good ++ .json (.object doc) :: rest) w) []
          = (.panicked (.interfaceConversion "requestId") (closePipe p w) rest, []))) := by
  constructor
  · intro reads
    obtain ⟨perf, hst, hinv⟩ := session_stands rt p P reads w hp sched
    refine ⟨?_, ?_, ?_⟩
    · intro hreads
      cases hout : (runSession rt p sched (messageLoop rt p reads w) []).1 with
      | blockedRead w1 => rfl
      | blockedSend w1 msg pending unread => rfl
      | closed w1 unread =>
        rw [hout] at hst
        obtain ⟨good, bad, hr, _, hbad, _⟩ := hst
        have h1 := hreads bad (by rw [hr]; simp)
        rw [breaks_not_decodes p bad hbad] at h1
        cases h1
      | panicked e w1 unread =>
        rw [hout] at hst
        obtain ⟨good, d, hr, _, hd, _⟩ := hst
        have h1 := hreads (.json (.object d)) (by rw [hr]; simp)
        simp [ReadResult.decodes, hd] at h1
    · intro w1 inbox heq
      rw [heq] at hst hinv
      obtain ⟨_, hperf⟩ := hst
      obtain ⟨_, hhist⟩ := SessionInv.before_exit hinv rfl
      intro e s c hc
      have h := hhist c
      simp only [LoopExit.world] at h
      rw [h, hperf, deliveredTo_sendsOf rt P _ hwf e s c hc]
    · intro w1 msg pending unread inbox heq
      rw [heq] at hst hinv
      obtain ⟨good, d, served, hr, _, hd, ho, _, hperf⟩ := hst
      obtain ⟨_, hhist⟩ := SessionInv.before_exit hinv rfl
      refine ⟨good, d, hr, hd, ?_, ?_⟩
      · intro c hc
        apply (hwf.mem_targets_iff msg.Name c).mp
        apply (rt.mem_iff _ c).mp
        rw [ho]
        exact List.mem_append_right _ hc
      · intro e s c hc
        have h := hhist c
        simp only [LoopExit.world] at h
        rw [h, hperf, deliveredTo_append, deliveredTo_sendsOf rt P _ hwf e s c hc,
          deliveredTo_served rt P _ hwf e s c hc msg served pending ho, List.append_assoc]
  · intro good rest doc e xs hgood hn ha hr
    have hdoc := newMessage_requestId_absent p doc e xs hn ha hr
    have hnot : (ReadResult.json (.object doc)).decodes p = false := by
      simp [ReadResult.decodes, hdoc]
    obtain ⟨perf, hst, hinv⟩ :=
      session_stands rt p P (good ++ .json (.object doc) :: rest) w hp sched
    refine ⟨?_, ?_, ?_, ?_, ?_⟩
    · intro w1 inbox heq
      rw [heq] at hst
      have h1 := hst.1 (.json (.object doc)) (by simp)
      rw [hnot] at h1
      cases h1
    · intro w1 unread inbox heq
      rw [heq] at hst
      obtain ⟨good2, bad, hreads, hg2, hbad, _⟩ := hst
      obtain ⟨_, h2, _⟩ := first_undecoded_unique p good good2 _ bad rest unread hreads
        hgood hg2 hnot (breaks_not_decodes p bad hbad)
      rw [← h2] at hbad
      cases hbad
    · intro x w1 unread inbox heq
      rw [heq] at hst hinv
      obtain ⟨good2, d, hreads, hg2, hd, hperf⟩ := hst
      have hnd : (ReadResult.json (.object d)).decodes p = false := by
        simp [ReadResult.decodes, hd]
      obtain ⟨h1, h2, h3⟩ := first_undecoded_unique p good good2 _ _ rest unread hreads
        hgood hg2 hnot hnd
      obtain ⟨hp1, hhist⟩ := SessionInv.after_exit hp hinv rfl
      simp only [ReadResult.json.injEq, JSONValue.object.injEq] at h2
      subst h2
      rw [hdoc] at hd
      simp only [Except.error.injEq] at hd
      refine ⟨hd.symm, h3.symm, ⟨_, hp1, rfl⟩, ?_⟩
      intro e2 s c hc
      have h := hhist c
      simp only [LoopExit.world] at h
      rw [h, hperf, ← h1, deliveredTo_sendsOf rt P _ hwf e2 s c hc]
    · intro w1 msg pending unread inbox heq
      rw [heq] at hst
      obtain ⟨good2, d, served, hreads, hg2, hd, _⟩ := hst
      obtain ⟨post, h1, h2⟩ := undecoded_after_decoded p good good2 _ _ rest unread hreads
        hg2 hnot (decodes_object p d msg hd)
      exact ⟨good2, d, post, h1, hd, h2⟩
    · intro hnil
      subst hnil
      rw [List.nil_append, messageLoop_valid rt w p P _ hp]
      simp only [messageLoop.loop, hdoc]
      exact runSession_ended rt p sched _ _ rfl

/-- C14, at the failing input: the frames `{n: "ping", args: [], requestId: "r1"}`,
`{n: "ping", args: [1, 2]}` and `{n: "ping", args: [], requestId: "r3"}` for
one subscriber of `ping`. The loop ends in the panic at the second frame: the
subscriber has got the first frame only, the third is unread. -/
theorem loop_drops_frame_without_requestId_witness :
    World.pingRoom.pipes[0]? = some WebPipe.pingRoom ∧
    WebPipe.pingRoom.WF World.pingRoom.chans.length ∧
    (∀ r ∈ [ReadResult.pingOf "r1"], r.decodes 0 = true) ∧
    WebPipe.pingRoom.chanOf "ping" "s1" = some 0 ∧
    ∃ w1 inbox P1,
      runSession RangeOrder.listed 0 [[0], [0]]
        (messageLoop RangeOrder.listed 0
          [.pingOf "r1",
           .json (.object [("n", .string "ping"), ("args", .array [.number 1, .number 2])]),
           .pingOf "r3"]
          World.pingRoom) []
        = (.panicked (.interfaceConversion "requestId") w1 [.pingOf "r3"], inbox) ∧
      history w1 inbox 0 = [requestMsg 0 "ping" [] "r1"] ∧
      w1.pipes[0]? = some P1 ∧ P1.pipe.closed = 1 := by
  refine ⟨by decide, by decide, by decide, by decide, ?_⟩
  have hrun : ∃ w1 inbox,
      runSession RangeOrder.listed 0 [[0], [0]]
        (messageLoop RangeOrder.listed 0
          ([.pingOf "r1"] ++ .json (.object
            [("n", .string "ping"), ("args", .array [.number 1, .number 2])])
            :: [.pingOf "r3"])
          World.pingRoom) []
        = (.panicked (.interfaceConversion "requestId") w1 [.pingOf "r3"], inbox) :=
    ⟨_, _, rfl⟩
  obtain ⟨w1, inbox, heq⟩ := hrun
  obtain ⟨_, _, ⟨P1, hp1, hc1⟩, hh⟩ :=
    ((loop_drops_frame_without_requestId RangeOrder.listed World.pingRoom 0 WebPipe.pingRoom
      [[0], [0]] (by decide) (by decide)).2 [.pingOf "r1"] [.pingOf "r3"]
      [("n", .string "ping"), ("args", .array [.number 1, .number 2])] "ping"
      [.number 1, .number 2] (by decide) (by decide) (by decide) (by decide)).2.2.1
      _ w1 _ inbox heq
  refine ⟨w1, inbox, P1, heq, ?_, hp1, hc1⟩
  rw [hh "ping" "s1" 0 (by decide)]
  decide

/-! ## Single-slot channels -/

theorem World.slotsOK_of_chans {w w1 : World} (h : w1.chans = w.chans) (hw : w.slotsOK) :
    w1.slotsOK := by
  unfold World.slotsOK
  rw [h]
  exact hw

theorem chanSend_slotsOK (w : World) (ch : ChanRef) (v : Message) (chans : List Chan)
    (h : chanSend w.chans ch v = some chans) (hw : w.slotsOK) :
    World.slotsOK { w with chans := chans } := by
  unfold chanSend at h
  cases hc : w.chans[ch]? with
  | none => simp [hc] at h
  | some c0 =>
    simp only [hc] at h
    by_cases hr : c0.buf.length < c0.cap
    · simp only [hr, if_true, Option.some.injEq] at h
      subst h
      have hmem : c0 ∈ w.chans := List.getElem?_mem hc
      obtain ⟨hcap, _⟩ := hw c0 hmem
      intro c hcm
      rcases List.mem_or_eq_of_mem_set hcm with h1 | h1
      · exact hw c h1
      · subst h1
        refine ⟨hcap, ?_⟩
        simp only [List.length_append, List.length_singleton]
        omega
    · simp [hr] at h

theorem sendAll_slotsOK (msg : Message) (targets : List ChanRef) (w w1 : World)
    (h : (sendAll msg targets w).world? = some w1) (hw : w.slotsOK) : w1.slotsOK := by
  induction targets generalizing w with
  | nil =>
    simp only [sendAll, Dispatch.world?, Option.some.injEq] at h
    subst h
    exact hw
  | cons ch rest ih =>
    simp only [sendAll] at h
    cases hs : chanSend w.chans ch msg with
    | none =>
      simp only [hs, Dispatch.world?, Option.some.injEq] at h
      subst h
      exact hw
    | some chans =>
      simp only [hs] at h
      exact ih _ h (chanSend_slotsOK w ch msg chans hs hw)

theorem closePipe_slotsOK (p : PipeRef) (w : World) (hw : w.slotsOK) :
    (closePipe p w).slotsOK :=
  World.slotsOK_of_chans (closePipe_chans p w) hw

theorem dispatchMessage_slotsOK (rt : RangeOrder) (p : PipeRef) (msg : Message) (w w1 : World)
    (h : (WebPipe.dispatchMessage rt p msg w).world? = some w1) (hw : w.slotsOK) :
    w1.slotsOK := by
  unfold WebPipe.dispatchMessage at h
  cases hp : w.pipes[p]? with
  | none => simp [hp, Dispatch.world?] at h
  | some P =>
    simp only [hp] at h
    exact sendAll_slotsOK msg _ w w1 h hw

theorem messageLoop.loop_slotsOK (rt : RangeOrder) (p : PipeRef) (reads : List ReadResult) :
    ∀ w : World, w.slotsOK → (messageLoop.loop rt p reads w).world.slotsOK := by
  induction reads with
  | nil =>
    intro w hw
    exact hw
  | cons r rest ih =>
    intro w hw
    cases r with
    | err e => exact closePipe_slotsOK p w hw
    | json v =>
      cases v with
      | object d =>
        simp only [messageLoop.loop]
        cases hd : WebPipe.newMessage p d with
        | error e => exact closePipe_slotsOK p w hw
        | ok m =>
          simp only []
          cases hdisp : WebPipe.dispatchMessage rt p m w with
          | done w1 =>
            exact ih w1 (dispatchMessage_slotsOK rt p m w w1 (by rw [hdisp]; rfl) hw)
          | blocked w1 pending =>
            exact dispatchMessage_slotsOK rt p m w w1 (by rw [hdisp]; rfl) hw
          | panic e => exact closePipe_slotsOK p w hw
      | null => exact closePipe_slotsOK p w hw
      | bool b => exact closePipe_slotsOK p w hw
      | number n => exact closePipe_slotsOK p w hw
      | string s => exact closePipe_slotsOK p w hw
      | array xs => exact closePipe_slotsOK p w hw

theorem messageLoop_slotsOK (rt : RangeOrder) (p : PipeRef) (reads : List ReadResult)
    (w : World) (hw : w.slotsOK) : (messageLoop rt p reads w).world.slotsOK := by
  unfold messageLoop
  cases hp : w.pipes[p]? with
  | none => exact hw
  | some P => exact messageLoop.loop_slotsOK rt p reads w hw

theorem messageLoop.resume_slotsOK (rt : RangeOrder) (p : PipeRef) (msg : Message)
    (pending : List ChanRef) (unread : List ReadResult) (w : World) (hw : w.slotsOK) :
    (messageLoop.resume rt p msg pending unread w).world.slotsOK := by
  unfold messageLoop.resume
  cases hs : sendAll msg pending w with
  | done w1 =>
    exact messageLoop.loop_slotsOK rt p unread w1
      (sendAll_slotsOK msg pending w w1 (by rw [hs]; rfl) hw)
  | blocked w1 pending1 => exact sendAll_slotsOK msg pending w w1 (by rw [hs]; rfl) hw
  | panic e => exact closePipe_slotsOK p w hw

theorem chanRecv_slotsOK (w : World) (ch : ChanRef) (m : Message) (chans : List Chan)
    (h : chanRecv w.chans ch = some (m, chans)) (hw : w.slotsOK) :
    World.slotsOK { w with chans := chans } := by
  unfold chanRecv at h
  cases hc : w.chans[ch]? with
  | none => simp [hc] at h
  | some c0 =>
    simp only [hc] at h
    cases hb : c0.buf with
    | nil => simp [hb] at h
    | cons m0 rest =>
      simp only [hb, Option.some.injEq, Prod.mk.injEq] at h
      obtain ⟨_, hch⟩ := h
      subst hch
      have hmem : c0 ∈ w.chans := List.getElem?_mem hc
      obtain ⟨hcap, hlen⟩ := hw c0 hmem
      intro c hcm
      rcases List.mem_or_eq_of_mem_set hcm with h1 | h1
      · exact hw c h1
      · subst h1
        refine ⟨hcap, ?_⟩
        rw [hb] at hlen
        simp only [List.length_cons] at hlen
        simp only
        omega

theorem On_chans (p : PipeRef) (e s : String) (w w1 : World) (ch : ChanRef)
    (h : WebPipe.On p e s w = .ok (ch, w1)) :
    ch = w.chans.length ∧ w1.chans = w.chans ++ [{ cap := 1, buf := [] }] := by
  unfold WebPipe.On at h
  cases hp : (w.makeChan 1).1.pipes[p]? with
  | none => simp [hp] at h
  | some P =>
    simp only [hp, Except.ok.injEq, Prod.mk.injEq] at h
    obtain ⟨h1, h2⟩ := h
    subst h2
    exact ⟨h1.symm, rfl⟩

theorem Off_chans (p : PipeRef) (e s : String) (w w1 : World)
    (h : WebPipe.Off p e s w = .ok w1) : w1.chans = w.chans := by
  unfold WebPipe.Off at h
  cases hp : w.pipes[p]? with
  | none => simp [hp] at h
  | some P =>
    simp only [hp] at h
    cases hi : GoMap.index P.subscribers e with
    | none =>
      simp only [hi, Except.ok.injEq] at h
      rw [← h]
    | some inner =>
      simp only [hi, Except.ok.injEq] at h
      rw [← h]
      rfl

theorem Emit_chans (p : PipeRef) (e : String) (xs : GoSlice) (w w1 : World)
    (h : WebPipe.Emit p e xs w = .ok w1) : w1.chans = w.chans := by
  unfold WebPipe.Emit at h
  cases hp : w.pipes[p]? with
  | none => simp [hp] at h
  | some P =>
    simp only [hp, Except.ok.injEq] at h
    rw [← h]
    rfl

theorem Reply_chans (m : Message) (args : GoSlice) (w w1 : World) (r : Option GoError)
    (h : m.Reply args w = .ok (r, w1)) : w1.chans = w.chans := by
  unfold Message.Reply at h
  by_cases hl : goLen m.requestId = 0
  · simp only [hl, if_true, Except.ok.injEq, Prod.mk.injEq] at h
    rw [← h.2]
  · simp only [hl, if_false] at h
    cases hp : w.pipes[m.pipe]? with
    | none => simp [hp] at h
    | some P =>
      simp only [hp, Except.ok.injEq, Prod.mk.injEq] at h
      rw [← h.2]
      rfl

theorem shakeHands_chans (p : PipeRef) (tie : Bool) (reads : List PeerRead) (w w1 : World)
    (r : Handshake) (h : shakeHands p tie reads w = .ok (r, w1)) : w1.chans = w.chans := by
  unfold shakeHands at h
  cases hp : w.pipes[p]? with
  | none => simp [hp] at h
  | some P =>
    simp only [hp] at h
    cases hs : handsShakenAt reads with
    | none =>
      simp only [hs, Except.ok.injEq, Prod.mk.injEq] at h
      rw [← h.2]
      rfl
    | some t =>
      simp only [hs] at h
      split at h
      · simp only [Except.ok.injEq, Prod.mk.injEq] at h
        rw [← h.2]
        rfl
      · simp only [Except.ok.injEq, Prod.mk.injEq] at h
        rw [← h.2]
        rfl

theorem New_chans (upgrade : Except String Conn) (tie : Bool) (reads : List PeerRead)
    (w w1 : World) (r : Option PipeRef × Option GoError)
    (h : New upgrade tie reads w = .ok (r, w1)) : w1.chans = w.chans := by
  unfold New at h
  cases upgrade with
  | error e =>
    simp only [Except.ok.injEq, Prod.mk.injEq] at h
    rw [← h.2]
  | ok conn =>
    simp only [] at h
    cases hsh : shakeHands w.pipes.length tie reads
        ⟨w.pipes ++ [⟨conn, []⟩], w.chans⟩ with
    | error e => simp [hsh] at h
    | ok r2 =>
      have hc := shakeHands_chans _ tie reads _ r2.2 r2.1 hsh
      simp only [hsh] at h
      split at h
      · simp only [Except.ok.injEq, Prod.mk.injEq] at h
        rw [← h.2, hc]
      · simp only [Except.ok.injEq, Prod.mk.injEq] at h
        rw [← h.2, closePipe_chans, hc]

/-- Heaps the package gets to have single-slot channels only. -/
theorem Reachable.slotsOK {w : World} (h : Reachable w) : w.slotsOK := by
  induction h with
  | start w h =>
    intro c hc
    rw [h] at hc
    simp at hc
  | callNew _ hn ih => exact World.slotsOK_of_chans (New_chans _ _ _ _ _ _ hn) ih
  | callOn _ ho ih =>
    obtain ⟨_, hch⟩ := On_chans _ _ _ _ _ _ ho
    intro c hc
    rw [hch] at hc
    rcases List.mem_append.mp hc with h1 | h1
    · exact ih c h1
    · simp only [List.mem_singleton] at h1
      subst h1
      exact ⟨rfl, by simp⟩
  | callOff _ ho ih => exact World.slotsOK_of_chans (Off_chans _ _ _ _ _ ho) ih
  | callEmit _ he ih => exact World.slotsOK_of_chans (Emit_chans _ _ _ _ _ he) ih
  | callReply _ hr ih => exact World.slotsOK_of_chans (Reply_chans _ _ _ _ _ hr) ih
  | dispatch _ hd ih => exact dispatchMessage_slotsOK _ _ _ _ _ hd ih
  | loop _ ih => exact messageLoop_slotsOK _ _ _ _ ih
  | resume _ ih => exact messageLoop.resume_slotsOK _ _ _ _ _ _ ih
  | recv _ hr ih => exact chanRecv_slotsOK _ _ _ _ hr ih

theorem sendAll_full (msg : Message) (pending : List ChanRef) (c : ChanRef) :
    ∀ w : World, c ∈ pending → ¬ w.hasRoom c →
      ∃ w1 pending1, sendAll msg pending w = .blocked w1 pending1 ∧ c ∈ pending1 ∧
        w1.buf c = w.buf c ∧ ¬ w1.hasRoom c := by
  induction pending with
  | nil =>
    intro w hc
    simp at hc
  | cons ch rest ih =>
    intro w hc hfull
    cases hs : chanSend w.chans ch msg with
    | none =>
      exact ⟨w, ch :: rest, by simp only [sendAll, hs], hc, rfl, hfull⟩
    | some chans =>
      obtain ⟨hd, hroom⟩ := chanSend_delivered w ch msg chans hs
      have hne : c ≠ ch := by
        intro he
        subst he
        exact hfull hroom
      have hnot : c ∉ [ch] := by simp [hne]
      have hc2 : c ∈ rest := by
        rcases List.mem_cons.mp hc with h | h
        · exact absurd h hne
        · exact h
      have hfull2 : ¬ World.hasRoom { w with chans := chans } c :=
        fun h => hfull ((hd.hasRoom_not_mem hnot).mp h)
      obtain ⟨w1, pending1, h1, h2, h3, h4⟩ := ih _ hc2 hfull2
      refine ⟨w1, pending1, by simp only [sendAll, hs, h1], h2, ?_, h4⟩
      rw [h3]
      exact hd.buf_not_mem hnot

theorem World.slotsOK.room_iff {w : World} (hw : w.slotsOK) (c : ChanRef) (ch0 : Chan)
    (hc : w.chans[c]? = some ch0) :
    ch0.cap = 1 ∧ (w.buf c).length ≤ 1 ∧ (w.hasRoom c ↔ w.buf c = []) := by
  obtain ⟨hcap, hlen⟩ := hw ch0 (List.getElem?_mem hc)
  have hbuf : w.buf c = ch0.buf := by simp [World.buf, hc]
  refine ⟨hcap, by rw [hbuf]; exact hlen, ?_⟩
  rw [hbuf]
  unfold World.hasRoom
  simp only [hc, hcap]
  constructor
  · intro h
    exact List.length_eq_zero.mp (by omega)
  · intro h
    rw [h]
    simp

/-- C18: in a heap the package gets to, for an existing session with the
registry invariant: `On` returns a channel that did not exist before, is empty
and has capacity 1; every registered channel has capacity 1 and holds at most
one message not yet received; and when the slot of a channel registered under
the name of a message is occupied, `dispatchMessage` does not return: it is
suspended with that channel still to be served, the read loop is suspended
with it and reads no further frame, the call stays suspended for as long as
that slot is occupied, a receive from the channel frees the slot, and once the
pending channels have room the call completes and the loop goes on. -/
theorem single_slot_backpressure (rt : RangeOrder) (w : World) (p : PipeRef) (P : WebPipe)
    (e s : String) (hp : w.pipes[p]? = some P) (hwf : P.WF w.chans.length)
    (hreach : Reachable w) :
    (∃ ch w1, WebPipe.On p e s w = .ok (ch, w1) ∧ w.chans[ch]? = none ∧
      w1.chans[ch]? = some ⟨1, []⟩ ∧ Reachable w1) ∧
    (∀ e2 s2 c, P.chanOf e2 s2 = some c →
      ∃ ch0, w.chans[c]? = some ch0 ∧ ch0.cap = 1 ∧ (w.buf c).length ≤ 1 ∧
        (w.hasRoom c ↔ w.buf c = [])) ∧
    (∀ (msg : Message) s2 c, P.chanOf msg.Name s2 = some c → w.buf c ≠ [] →
      ∃ w1 pending, WebPipe.dispatchMessage rt p msg w = .blocked w1 pending ∧
        c ∈ pending ∧ w1.buf c = w.buf c ∧
        (∀ d rest, WebPipe.newMessage p d = .ok msg →
          messageLoop rt p (.json (.object d) :: rest) w
            = .blockedSend w1 msg pending rest) ∧
        (∀ w2 unread, ¬ w2.hasRoom c →
          ∃ w3 pending3, messageLoop.resume rt p msg pending unread w2
            = .blockedSend w3 msg pending3 unread ∧ c ∈ pending3) ∧
        (∀ m chans, chanRecv w1.chans c = some (m, chans) →
          World.hasRoom ⟨w1.pipes, chans⟩ c) ∧
        (∀ w2 unread, (∀ c2 ∈ pending, w2.hasRoom c2) →
          ∃ w3, sendAll msg pending w2 = .done w3 ∧
            messageLoop.resume rt p msg pending unread w2
              = messageLoop.loop rt p unread w3)) := by
  have hslots := hreach.slotsOK
  have hreg : ∀ e2 s2 c, P.chanOf e2 s2 = some c →
      ∃ ch0, w.chans[c]? = some ch0 ∧ ch0.cap = 1 ∧ (w.buf c).length ≤ 1 ∧
        (w.hasRoom c ↔ w.buf c = []) := by
    intro e2 s2 c hc
    have hlt := hwf.chanOf_lt e2 s2 c hc
    refine ⟨w.chans[c], List.getElem?_eq_getElem hlt, ?_⟩
    exact hslots.room_iff c _ (List.getElem?_eq_getElem hlt)
  refine ⟨?_, hreg, ?_⟩
  · have hon := WebPipe.On_ok w p P e s hp
    refine ⟨w.chans.length, _, hon, ?_, ?_, Reachable.callOn hreach hon⟩
    · exact List.getElem?_eq_none (le_refl _)
    · show (w.chans ++ [_])[w.chans.length]? = _
      simp
  · intro msg s2 c hc hocc
    obtain ⟨ch0, hch0, _, _, hroom⟩ := hreg msg.Name s2 c hc
    have hfull : ¬ w.hasRoom c := fun h => hocc (hroom.mp h)
    have hmem : c ∈ rt.order (P.subs msg.Name) :=
      (rt.mem_iff _ c).mpr (GoMap.mem_values_of_index _ s2 c hc)
    obtain ⟨w1, pending, h1, h2, h3, _⟩ := sendAll_full msg _ c w hmem hfull
    have hdisp : WebPipe.dispatchMessage rt p msg w = .blocked w1 pending := by
      rw [WebPipe.dispatchMessage_eq rt w p P msg hp]
      exact h1
    obtain ⟨served, ht, _, _, _⟩ := sendAll_trace_blocked msg _ w w1 pending h1
    have hnd : pending.Nodup := by
      have := rt.nodup _ (hwf.targets_nodup msg.Name)
      rw [ht] at this
      exact (List.nodup_append.mp this).2.1
    have hslots1 : w1.slotsOK :=
      dispatchMessage_slotsOK rt p msg w w1 (by rw [hdisp]; rfl) hslots
    refine ⟨w1, pending, hdisp, h2, h3, ?_, ?_, ?_, ?_⟩
    · intro d rest hd
      rw [messageLoop_valid rt w p P _ hp]
      simp only [messageLoop.loop, hd, hdisp]
    · intro w2 unread hfull2
      obtain ⟨w3, pending3, k1, k2, _⟩ := sendAll_full msg pending c w2 h2 hfull2
      exact ⟨w3, pending3, by simp only [messageLoop.resume, k1], k2⟩
    · intro m chans hr
      obtain ⟨_, _, _, _, c0, hc0, hc1, _⟩ := chanRecv_spec w1 c m chans hr
      obtain ⟨hcap, hlen⟩ := hslots1 c0 (List.getElem?_mem hc0)
      unfold World.hasRoom
      simp only [hc1, hcap]
      have : c0.buf.tail.length = c0.buf.length - 1 := List.length_tail _
      omega
    · intro w2 unread hroom2
      obtain ⟨w3, k1⟩ := sendAll_progress msg pending hnd w2 hroom2
      exact ⟨w3, k1, by simp only [messageLoop.resume, k1]⟩

/-- C18, at a concrete input: the ping room after one `ping` was dispatched and
not yet received; the next `ping` cannot be dispatched. -/
theorem single_slot_backpressure_witness :
    World.pingRoomFull.pipes[0]? = some WebPipe.pingRoom ∧
    WebPipe.pingRoom.WF World.pingRoomFull.chans.length ∧
    Reachable World.pingRoomFull ∧
    WebPipe.pingRoom.chanOf "ping" "s1" = some 0 ∧
    World.pingRoomFull.buf 0 ≠ [] ∧
    ∃ w1 pending,
      WebPipe.dispatchMessage RangeOrder.listed 0 (requestMsg 0 "ping" [] "r2")
        World.pingRoomFull = .blocked w1 pending ∧ 0 ∈ pending := by
  have hreach : Reachable World.pingRoomFull := by
    have h1 : Reachable World.single := Reachable.start World.single rfl
    have h2 : WebPipe.On 0 "ping" "s1" World.single = .ok (0, World.pingRoom) := by decide
    have h3 : (WebPipe.dispatchMessage RangeOrder.listed 0 (requestMsg 0 "ping" [] "r1")
        World.pingRoom).world? = some World.pingRoomFull := by decide
    exact Reachable.dispatch (Reachable.callOn h1 h2) h3
  refine ⟨by decide, by decide, hreach, by decide, by decide, ?_⟩
  obtain ⟨w1, pending, h1, h2, _⟩ :=
    (single_slot_backpressure RangeOrder.listed World.pingRoomFull 0 WebPipe.pingRoom
      "ping" "s1" (by decide) (by decide) hreach).2.2
      (requestMsg 0 "ping" [] "r2") "s1" 0 (by decide) (by decide)
  exact ⟨w1, pending, h1, h2⟩

end Webpipe
